import Mathlib

/-!
# Distributed kernels of Ginkgo: range lookup and local decomposition

Shallow embedding of `reference/distributed/vector_kernels.cpp`
(`gko::kernels::reference::distributed_vector::build_local` with its two
lambdas `find_range` and `map_to_local`) and of the sorting comparators and the
segmented reduction of `dpcpp/multigrid/pgm_kernels.dp.cpp`, together with
models of the matrix kernel `distributed_matrix::build_local_nonlocal` and of
`Partition::build_from_mapping`, which the sources only call from
`test/distributed/matrix_kernels.cpp`.  Further embedded: the kernels
`sort_agg` and `sort_row_major` of the same file, `reduce_add_array` of
`reference/components/reduce_array_kernels.cpp`, the default arguments of
`Record::create` and of the `Record` constructor of `core/log/record.hpp`, the
`zip_iterator`, its reference type and their `swap` of
`core/base/iterator_factory.hpp`, and `subwarp_prefix_sum`, `start_prefix_sum`
and `finalize_prefix_sum` of `dpcpp/components/prefix_sum.dp.hpp`.

Conventions of the embedding

* `size_type` values (hints, range ids, counters) are natural numbers.
* `GlobalIndexType`, `LocalIndexType` and `comm_index_type` values are integers;
  the bit widths `gw` (global) and `lw` (local) of the two signed index types
  are parameters, and every arithmetic result or conversion of such a type is
  reduced by `wrap` (two's complement, explicit `% 2 ^ w`).
* In the host kernels a raw pointer read `p[i]` is `p[i]?` on the list behind
  the pointer: a read past the end is `none` (the C++ behaviour is undefined
  there), so every function that reads such memory returns an `Option`.
* The library algorithms `std::upper_bound`, `std::accumulate` and
  `oneapi::dpl::reduce_by_segment` are loops; `std::sort`, which leaves the
  order of equivalent elements open, is the relation between a range and its
  possible results.
* In the device kernels of `prefix_sum.dp.hpp` a register of the lanes of a
  subwarp, a shared array and a global array are maps from the lane or the
  position to the value held there.  The lanes of a subwarp run in lockstep: a
  loop iteration takes the registers of all lanes to their next values.  The
  threads of a thread block run from barrier to barrier: between two barriers
  they run one after the other in the order of their ids (`phases_any_order`:
  any other order gives the same state); every loop carries a bound on its
  iterations, which the theorems show is not reached.
-/

namespace gko

/-! ## Data model -/

/-- Value of the `w`-bit two's complement signed integer congruent to `x`
modulo `2 ^ w`: what a conversion to, or an arithmetic result in, a signed
`w`-bit index type holds. -/
def wrap (w : Nat) (x : Int) : Int :=
  (x + 2 ^ (w - 1)) % 2 ^ w - 2 ^ (w - 1)

/-- Representability of `x` in the `w`-bit signed index type. -/
def fits (w : Nat) (x : Int) : Prop :=
  -(2 ^ (w - 1)) ≤ x ∧ x < 2 ^ (w - 1)

instance (w : Nat) (x : Int) : Decidable (fits w x) := by
  unfold fits; infer_instance

/-- Coordinate entry `matrix_data_entry<ValueType, IndexType>`. -/
structure matrix_data_entry (V : Type) where
  row : Int
  column : Int
  value : V
  deriving DecidableEq

/-- The accessors of `distributed::Partition` that the kernels and their
callers read: `get_range_bounds()`, `get_part_ids()`,
`get_range_starting_indices()`, `get_num_ranges()` and `get_num_parts()`. -/
structure Partition where
  range_bounds : List Int
  part_ids : List Int
  range_starting_indices : List Int
  num_ranges : Nat
  num_parts : Nat
  deriving DecidableEq

/-- Array shapes of a partition: `num_ranges + 1` bounds, `num_ranges` part
ids and `num_ranges` starting indices. -/
def Partition.shaped (P : Partition) : Prop :=
  P.range_bounds.length = P.num_ranges + 1 ∧
  P.part_ids.length = P.num_ranges ∧
  P.range_starting_indices.length = P.num_ranges

instance (P : Partition) : Decidable P.shaped := by
  unfold Partition.shaped; infer_instance

/-- Range bounds that never decrease. -/
def Partition.non_decreasing (P : Partition) : Prop :=
  P.range_bounds.Pairwise (fun a b => a ≤ b)

instance (P : Partition) : Decidable P.non_decreasing := by
  unfold Partition.non_decreasing; infer_instance

/-- Range bounds that are strictly increasing and start at `0`. -/
def Partition.increasing_from_zero (P : Partition) : Prop :=
  P.range_bounds.Pairwise (fun a b => a < b) ∧ P.range_bounds[0]? = some 0

instance (P : Partition) : Decidable P.increasing_from_zero := by
  unfold Partition.increasing_from_zero; infer_instance

/-- The number of global indices, `range_bounds[num_ranges]` (`0` when the
bounds array is too short to hold it). -/
def Partition.size (P : Partition) : Int :=
  P.range_bounds.getD P.num_ranges 0

/-! ## `std::upper_bound` -/

/-- The loop of `std::upper_bound(first, last, value)` on the array `a`, with
`first` an offset into `a` and `count = last - first`:
`while (count > 0) { step = count / 2; it = first + step;
if (!(value < *it)) { first = it + 1; count -= step + 1; } else count = step; }
return first;`.  The first of the three numeric arguments bounds the number of
iterations; `count` iterations always suffice because `count` strictly
decreases. -/
def upper_bound_loop (a : List Int) (value : Int) : Nat → Nat → Nat → Option Nat
  | 0, first, count => if count = 0 then some first else none
  | fuel + 1, first, count =>
    if count = 0 then some first
    else
      let step := count / 2
      match a[first + step]? with
      | none => none
      | some x =>
        if ¬ (value < x) then
          upper_bound_loop a value fuel (first + step + 1) (count - (step + 1))
        else
          upper_bound_loop a value fuel first step

/-- The call `std::upper_bound(a + first, a + last, value)`, returning the
offset of the resulting iterator from `a`. -/
def upper_bound (a : List Int) (first last : Nat) (value : Int) : Option Nat :=
  upper_bound_loop a value (last - first) first (last - first)

/-! ## The lambdas of `build_local` -/

/-- The binary-search branch of `find_range`:
`it = std::upper_bound(range_bounds + 1, range_bounds + num_ranges + 1, idx);
return static_cast<size_type>(std::distance(range_bounds + 1, it));`. -/
def find_range_fallback (P : Partition) (idx : Int) : Option Nat :=
  (upper_bound P.range_bounds 1 (P.num_ranges + 1) idx).map (fun it => it - 1)

/-- The lambda `find_range(idx, hint)`: return `hint` when
`range_bounds[hint] <= idx && idx < range_bounds[hint + 1]` (the second read
happens only when the first comparison holds), the binary search otherwise. -/
def find_range (P : Partition) (idx : Int) (hint : Nat) : Option Nat :=
  match P.range_bounds[hint]? with
  | none => none
  | some lo =>
    if lo ≤ idx then
      match P.range_bounds[hint + 1]? with
      | none => none
      | some hi => if idx < hi then some hint else find_range_fallback P idx
    else find_range_fallback P idx

/-- The lambda `map_to_local(idx, range_id)`:
`static_cast<LocalIndexType>(idx - range_bounds[range_id]) +
range_starting_indices[range_id]`, the subtraction in `GlobalIndexType`
(`gw` bits), the conversion and the addition in `LocalIndexType` (`lw` bits). -/
def map_to_local (gw lw : Nat) (P : Partition) (idx : Int) (range_id : Nat) : Option Int :=
  match P.range_bounds[range_id]?, P.range_starting_indices[range_id]? with
  | some b, some s => some (wrap lw (wrap lw (wrap gw (idx - b)) + s))
  | _, _ => none

/-! ## The two passes of `build_local` -/

/-- First loop of `build_local` run over `input` from the state
`(count, range_id_hint)`: look the row up, make the result the next hint, and
count the entry when `range_parts[range_id] == local_part`.  Returns the final
`(count, range_id_hint)`. -/
def count_pass {V : Type} (P : Partition) (local_part : Int) :
    List (matrix_data_entry V) → Nat → Nat → Option (Nat × Nat)
  | [], count, range_id_hint => some (count, range_id_hint)
  | entry :: rest, count, range_id_hint =>
    match find_range P entry.row range_id_hint with
    | none => none
    | some range_id =>
      match P.part_ids[range_id]? with
      | none => none
      | some part_id =>
        if part_id = local_part then count_pass P local_part rest (count + 1) range_id
        else count_pass P local_part rest count range_id

/-- Second loop of `build_local` run over `input` from the state
`(local_data, idx, range_id_hint)`: an entry of the local part is written to
`local_data.get_data()[idx]` (a slot is `none` until it is written; a write past
the end of the array is `none` for the whole run) and `idx` is incremented.
Returns the final `(local_data, idx, range_id_hint)`. -/
def fill_pass {V : Type} (gw lw : Nat) (P : Partition) (local_part : Int) :
    List (matrix_data_entry V) → List (Option (matrix_data_entry V)) → Nat → Nat →
    Option (List (Option (matrix_data_entry V)) × Nat × Nat)
  | [], local_data, idx, range_id_hint => some (local_data, idx, range_id_hint)
  | entry :: rest, local_data, idx, range_id_hint =>
    match find_range P entry.row range_id_hint with
    | none => none
    | some range_id =>
      match P.part_ids[range_id]? with
      | none => none
      | some part_id =>
        if part_id = local_part then
          match map_to_local gw lw P entry.row range_id with
          | none => none
          | some local_row =>
            if idx < local_data.length then
              fill_pass gw lw P local_part rest
                (local_data.set idx (some ⟨local_row, wrap lw entry.column, entry.value⟩))
                (idx + 1) range_id
            else none
        else fill_pass gw lw P local_part rest local_data idx range_id

/-- The kernel `build_local(exec, input, partition, local_part, local_data, _)`:
the counting loop from `count = 0`, `range_id_hint = 0`;
`local_data.resize_and_reset(count)`; the filling loop from `idx = 0` and the
hint the first loop left.  Returns the final contents of `local_data`. -/
def build_local {V : Type} (gw lw : Nat) (P : Partition) (local_part : Int)
    (input : List (matrix_data_entry V)) : Option (List (Option (matrix_data_entry V))) :=
  match count_pass P local_part input 0 0 with
  | none => none
  | some (count, range_id_hint) =>
    match fill_pass gw lw P local_part input (List.replicate count none) 0 range_id_hint with
    | none => none
    | some (local_data, _, _) => some local_data

/-! ## Reference descriptions -/

/-- Owning part of the global index `g`: `part_ids[find_range(g)]`. -/
def owning_part (P : Partition) (g : Int) : Option Int :=
  (find_range P g 0).bind (fun r => P.part_ids[r]?)

/-- Local index of the global index `g`: `map_to_local(g, find_range(g))`. -/
def local_index (gw lw : Nat) (P : Partition) (g : Int) : Option Int :=
  (find_range P g 0).bind (fun r => map_to_local gw lw P g r)

/-- The filter-map that describes `build_local`: keep, in input order, the
entries whose row's owning part is `p`, and turn each kept `(row, column, value)`
into `(map_to_local(row, find_range(row)), column, value)`. -/
def build_local_filter_map {V : Type} (gw lw : Nat) (P : Partition) (p : Int)
    (input : List (matrix_data_entry V)) : List (matrix_data_entry V) :=
  (input.filter (fun e => owning_part P e.row = some p)).filterMap
    (fun e => (local_index gw lw P e.row).map (fun l => ⟨l, e.column, e.value⟩))

/-- Conversion of an entry's column to `LocalIndexType`,
`static_cast<LocalIndexType>(entry.column)`. -/
def narrow_column {V : Type} (lw : Nat) (e : matrix_data_entry V) : matrix_data_entry V :=
  ⟨e.row, wrap lw e.column, e.value⟩

/-! ## Local numbering of a part -/

/-- Length of range `j`, `range_bounds[j + 1] - range_bounds[j]`. -/
def Partition.range_length (P : Partition) (j : Nat) : Int :=
  P.range_bounds.getD (j + 1) 0 - P.range_bounds.getD j 0

/-- Total length of the ranges before range `i` that part `p` owns. -/
def Partition.owned_before (P : Partition) (p : Int) : Nat → Int
  | 0 => 0
  | i + 1 => P.owned_before p i + (if P.part_ids[i]? = some p then P.range_length i else 0)

/-- Total length of the ranges that part `p` owns. -/
def Partition.local_size (P : Partition) (p : Int) : Int :=
  P.owned_before p P.num_ranges

/-- Number of global indices in `[0, range_bounds[num_ranges])` whose owning
part is `p`. -/
def Partition.owned_count (P : Partition) (p : Int) : Nat :=
  ((List.range P.size.toNat).filter
    (fun (g : Nat) => owning_part P (g : Int) = some p)).length

/-- Starting indices that hold, for every range `i`, the total length of all
earlier ranges owned by the same part as range `i`. -/
def Partition.starts_consistent (P : Partition) : Prop :=
  ∀ i, i < P.num_ranges →
    P.range_starting_indices[i]? = (P.part_ids[i]?).map (fun q => P.owned_before q i)

instance (P : Partition) : Decidable P.starts_consistent := by
  unfold Partition.starts_consistent; infer_instance

/-! ## The matrix kernel `build_local_nonlocal` -/

/-- Modelled from the spec: the nine result arrays of the reference kernel
`distributed_matrix::build_local_nonlocal` (absent from the sources), named as
the output arguments of its call in `test/distributed/matrix_kernels.cpp`. -/
structure decomposition (V : Type) where
  local_row_idxs : List Int
  local_col_idxs : List Int
  local_values : List V
  non_local_row_idxs : List Int
  non_local_col_idxs : List Int
  non_local_values : List V
  gather_idxs : List Int
  recv_sizes : List Int
  local_to_global_col : List Int
  deriving DecidableEq

/-- Modelled from the spec: the reference kernel
`distributed_matrix::build_local_nonlocal` is not among the sources (only the
test that calls it is).  This is steps 1 and 2 of its design, as one pass over
the input with the lookups of `build_local` (the "identical mechanism"): the row
filter through the row partition; for each surviving entry the lookup of the
owning part of `global_col` through the column partition; an entry whose column
is owned by the target part goes to the local block with row and column
translated by `map_to_local`, any other entry to the non-local block with its
row translated and its `global_col` retained, paired with the owning part found
for that column.  Returns the local and the non-local block, each in input
order. -/
def classify_entries {V : Type} (gw lw : Nat) (row_partition col_partition : Partition)
    (local_part : Int) :
    List (matrix_data_entry V) → Nat → Nat →
    Option (List (matrix_data_entry V) × List (Int × matrix_data_entry V))
  | [], _, _ => some ([], [])
  | entry :: rest, row_hint, col_hint =>
    match find_range row_partition entry.row row_hint with
    | none => none
    | some row_range =>
      match row_partition.part_ids[row_range]? with
      | none => none
      | some row_part =>
        if row_part = local_part then
          match map_to_local gw lw row_partition entry.row row_range with
          | none => none
          | some local_row =>
            match find_range col_partition entry.column col_hint with
            | none => none
            | some col_range =>
              match col_partition.part_ids[col_range]? with
              | none => none
              | some col_part =>
                if col_part = local_part then
                  match map_to_local gw lw col_partition entry.column col_range with
                  | none => none
                  | some local_col =>
                    (classify_entries gw lw row_partition col_partition local_part rest
                      row_range col_range).map
                      (fun b => (⟨local_row, local_col, entry.value⟩ :: b.1, b.2))
                else
                  (classify_entries gw lw row_partition col_partition local_part rest
                    row_range col_range).map
                    (fun b => (b.1, (col_part, ⟨local_row, entry.column, entry.value⟩) :: b.2))
        else
          classify_entries gw lw row_partition col_partition local_part rest row_range col_hint

/-- Modelled from the spec: the order of the compaction step of
`build_local_nonlocal` (absent from the sources) on pairs
`(owning part, global column)`: first by owning part, then by global column id,
both ascending. -/
def key_le (a b : Int × Int) : Prop :=
  a.1 < b.1 ∨ (a.1 = b.1 ∧ a.2 ≤ b.2)

instance : DecidableRel key_le := fun a b => by
  unfold key_le; infer_instance

/-- Modelled from the spec: step 3 of the design of `build_local_nonlocal`
(absent from the sources): all `global_col` values routed to the non-local
block, deduplicated and sorted first by owning part, then by global column id;
each element is the pair `(owning part, global column)`. -/
def compact_columns {V : Type} (non_local : List (Int × matrix_data_entry V)) :
    List (Int × Int) :=
  ((non_local.map (fun x => (x.1, x.2.column))).dedup).insertionSort key_le

/-- All values of a list of optional values, when each of them is defined. -/
def collect_defined {α : Type} : List (Option α) → Option (List α)
  | [] => some []
  | none :: _ => none
  | some x :: rest => (collect_defined rest).map (fun xs => x :: xs)

/-- Modelled from the spec: the reference kernel
`distributed_matrix::build_local_nonlocal` (absent from the sources), steps 1 to
5 of its design: classification of the entries (`classify_entries`, from the
hints `0`); compaction of the non-local columns (`compact_columns`), whose
sequence of global columns is `local_to_global_col`; each non-local column
rewritten to its position in that sequence; `recv_sizes[q]`, for every part `q`
below `num_parts` of the row partition (the test sizes the array so), the number
of compacted columns owned by `q`; `gather_idxs` the local index, in the
numbering of the column partition, of each compacted column in order. -/
def build_local_nonlocal {V : Type} (gw lw : Nat) (row_partition col_partition : Partition)
    (local_part : Int) (input : List (matrix_data_entry V)) : Option (decomposition V) :=
  match classify_entries gw lw row_partition col_partition local_part input 0 0 with
  | none => none
  | some (local_block, non_local_block) =>
    let columns := compact_columns non_local_block
    match collect_defined (columns.map (fun k => local_index gw lw col_partition k.2)) with
    | none => none
    | some gather =>
      some {
        local_row_idxs := local_block.map (fun o => o.row)
        local_col_idxs := local_block.map (fun o => o.column)
        local_values := local_block.map (fun o => o.value)
        non_local_row_idxs := non_local_block.map (fun x => x.2.row)
        non_local_col_idxs :=
          non_local_block.map (fun x => ((columns.indexOf (x.1, x.2.column) : Nat) : Int))
        non_local_values := non_local_block.map (fun x => x.2.value)
        gather_idxs := gather
        recv_sizes := (List.range row_partition.num_parts).map
          (fun (q : Nat) =>
            (((columns.filter (fun k => k.1 = (q : Int))).length : Nat) : Int))
        local_to_global_col := columns.map (fun k => k.2) }

/-- The input entries that make up the non-local block for part `p`: those
whose row is owned by `p` under the row partition and whose column is not owned
by `p` under the column partition, in input order. -/
def remote_entries {V : Type} (row_partition col_partition : Partition) (p : Int)
    (input : List (matrix_data_entry V)) : List (matrix_data_entry V) :=
  input.filter (fun e => owning_part row_partition e.row = some p ∧
    ¬ owning_part col_partition e.column = some p)

/-! ## Partition construction `build_from_mapping` -/

/-- Modelled from the spec: the error taxonomy of the partitioning core, whose
code is absent from the sources: `InvalidArgument` (a part id outside
`[0, num_parts)` during Partition construction) and `OutOfRange` (a global index
not covered by a Partition during lookup). -/
inductive partition_error where
  | InvalidArgument
  | OutOfRange
  deriving DecidableEq

/-- Modelled from the spec: the validation of `Partition::build_from_mapping`
(absent from the sources): scanning the mapping, fail with `InvalidArgument` at
the first part id outside `[0, num_parts)`. -/
def check_part_ids (num_parts : Nat) : List Int → Except partition_error Unit
  | [] => .ok ()
  | q :: rest =>
    if 0 ≤ q ∧ q < (num_parts : Int) then check_part_ids num_parts rest
    else .error .InvalidArgument

/-- Modelled from the spec: the scan of `Partition::build_from_mapping` (absent
from the sources) that merges consecutive equal part ids into a single range;
returns each range as its part id and its number of global indices, in
increasing global-index order. -/
def merge_runs : List Int → List (Int × Nat)
  | [] => []
  | q :: rest =>
    match merge_runs rest with
    | [] => [(q, 1)]
    | (q2, k) :: ranges => if q = q2 then (q, k + 1) :: ranges else (q, 1) :: (q2, k) :: ranges

/-- Modelled from the spec: the bounds of the ranges of `build_from_mapping`
(absent from the sources), contiguous intervals of the index space of the
mapping: starting at `pos`, each range ends where the next begins. -/
def range_bounds_from (pos : Int) : List (Int × Nat) → List Int
  | [] => [pos]
  | (_, k) :: ranges => pos :: range_bounds_from (pos + (k : Int)) ranges

/-- Modelled from the spec: the starting indices of the ranges of
`build_from_mapping` (absent from the sources): per-part running counts
accumulated as the ranges are discovered in increasing global-index order; a
range starts at the running count of its part, which then grows by the length of
the range. -/
def starting_indices_from (counts : Int → Int) : List (Int × Nat) → List Int
  | [] => []
  | (q, k) :: ranges =>
    counts q ::
      starting_indices_from (fun x => if x = q then counts x + (k : Int) else counts x) ranges

/-- Modelled from the spec: `Partition::build_from_mapping(global_to_part,
num_parts)` (absent from the sources; the tests call it): fails with
`InvalidArgument` if any part id is outside `[0, num_parts)`, otherwise builds
the partition whose ranges are the merged runs of the mapping. -/
def build_from_mapping (global_to_part : List Int) (num_parts : Nat) :
    Except partition_error Partition :=
  match check_part_ids num_parts global_to_part with
  | .error e => .error e
  | .ok _ =>
    .ok ⟨range_bounds_from 0 (merge_runs global_to_part),
      (merge_runs global_to_part).map (fun r => r.1),
      starting_indices_from (fun _ => 0) (merge_runs global_to_part),
      (merge_runs global_to_part).length, num_parts⟩

/-! ## The PGM kernels `sort_agg`, `sort_row_major` and `compute_coarse_coo` -/

/-- The `operator<` of `std::tuple` on two-element index tuples, which the
comparator lambdas apply to `std::tie(std::get<0>(a), std::get<1>(a))` and
`std::tie(std::get<0>(b), std::get<1>(b))`: `a0 < b0`, or else `!(b0 < a0)` and
`a1 < b1`. -/
def tuple_less (a b : Int × Int) : Bool :=
  decide (a.1 < b.1) || (!decide (b.1 < a.1) && decide (a.2 < b.2))

/-- The `operator==` of `std::tuple` on two-element index tuples, which the
segment predicate of `compute_coarse_coo` applies to the two `std::tie`s:
`a0 == b0 && a1 == b1`. -/
def tuple_equal (a b : Int × Int) : Bool :=
  decide (a.1 = b.1) && decide (a.2 = b.2)

/-- The comparator lambda of `sort_agg`, on elements `(row, col)` of the zipped
`row_idxs` and `col_idxs`. -/
def sort_agg_comp (a b : Int × Int) : Bool :=
  tuple_less (a.1, a.2) (b.1, b.2)

/-- The comparator lambda of `sort_row_major`, on elements `(row, col, val)` of
the zipped `row_idxs`, `col_idxs` and `vals`. -/
def sort_row_major_comp {V : Type} (a b : Int × Int × V) : Bool :=
  tuple_less (a.1, a.2.1) (b.1, b.2.1)

/-- The loop behind `reduce_by_segment`, inside a segment: `first` is the key
the segment started with, `prev` the key just read, `acc` the values of the
segment reduced so far. -/
def reduce_segment_loop {K V : Type} (binary_pred : K → K → Bool) (binary_op : V → V → V) :
    K → K → V → List (K × V) → List (K × V)
  | first, _, acc, [] => [(first, acc)]
  | first, prev, acc, (k, v) :: rest =>
    if binary_pred prev k then
      reduce_segment_loop binary_pred binary_op first k (binary_op acc v) rest
    else
      (first, acc) :: reduce_segment_loop binary_pred binary_op k k v rest

/-- The library algorithm `oneapi::dpl::reduce_by_segment(keys, values,
out_keys, out_values, binary_pred, binary_op)` on the zipped keys and values:
a segment is a maximal group of consecutive keys each related to the next by
`binary_pred`; for every segment, in order, the first key of the segment and
the reduction of its values by `binary_op` are written.  The library leaves the
grouping of the reduction open; the values are combined here from left to
right. -/
def reduce_by_segment {K V : Type} (binary_pred : K → K → Bool) (binary_op : V → V → V) :
    List (K × V) → List (K × V)
  | [] => []
  | (k, v) :: rest => reduce_segment_loop binary_pred binary_op k k v rest

/-- The first `nnz` elements of the zipped arrays `row_idxs`, `col_idxs` and
`vals`, each as the key `(row, col)` with its value. -/
def zipped_entries {V : Type} (nnz : Nat) (row_idxs col_idxs : List Int) (vals : List V) :
    List ((Int × Int) × V) :=
  ((row_idxs.zip col_idxs).zip vals).take nnz

/-- The kernel `compute_coarse_coo(exec, fine_nnz, row_idxs, col_idxs, vals,
coarse_coo)`: `reduce_by_segment` over the first `fine_nnz` elements of the
zipped `(row_idxs, col_idxs)` keys and of `vals`, segments by equality of the
two `std::tie`s, values reduced by `a + b`.  Returns the entries written to the
rows, columns and values of `coarse_coo`; `none` when one of the three arrays
holds fewer than `fine_nnz` elements. -/
def compute_coarse_coo {V : Type} [Add V] (fine_nnz : Nat) (row_idxs col_idxs : List Int)
    (vals : List V) : Option (List Int × List Int × List V) :=
  if fine_nnz ≤ row_idxs.length ∧ fine_nnz ≤ col_idxs.length ∧ fine_nnz ≤ vals.length then
    let coarse := reduce_by_segment (fun a b => tuple_equal (a.1, a.2) (b.1, b.2))
      (fun a b => a + b) (zipped_entries fine_nnz row_idxs col_idxs vals)
    some (coarse.map (fun o => o.1.1), coarse.map (fun o => o.1.2), coarse.map (fun o => o.2))
  else none

/-! ## Sample data -/

/-- The partition of the mapping `{1, 0, 2, 2, 0, 1, 1, 2}` over three parts
used by the tests of the distributed kernels. -/
def example_partition : Partition :=
  ⟨[0, 1, 2, 4, 5, 7, 8], [1, 0, 2, 0, 1, 2], [0, 0, 0, 1, 1, 2], 6, 3⟩

/-- A partition of `2 ^ 32` global indices into one range owned by one part:
representable with a 64-bit `GlobalIndexType`, larger than a 32-bit
`LocalIndexType` can number. -/
def wide_partition : Partition :=
  ⟨[0, 2 ^ 32], [0], [0], 1, 1⟩

/-- Four vector entries over the sample partition, not sorted by row. -/
def example_vector_entries : List (matrix_data_entry Nat) :=
  [⟨7, 0, 10⟩, ⟨2, 1, 11⟩, ⟨0, 0, 12⟩, ⟨3, 2, 13⟩]

/-- The column partition of the mapping `{0, 0, 2, 2, 2, 1, 1, 1}` over three
parts used by the tests of the matrix kernel. -/
def example_col_partition : Partition :=
  ⟨[0, 2, 5, 8], [0, 2, 1], [0, 0, 0], 3, 3⟩

/-- Nine matrix entries over the sample row and column partitions, not sorted
by row, with repeated coordinates. -/
def example_entries : List (matrix_data_entry Nat) :=
  [⟨0, 0, 1⟩, ⟨0, 5, 2⟩, ⟨5, 7, 3⟩, ⟨1, 1, 4⟩, ⟨6, 2, 5⟩, ⟨6, 0, 6⟩, ⟨5, 7, 7⟩, ⟨5, 6, 8⟩,
    ⟨0, 2, 9⟩]
/-! ## The reference kernel `reduce_add_array` -/

/-- The library algorithm `std::accumulate(first, last, init)` over the elements
between `first` and `last`: for each element in order, `init = init + *first`;
the last `init` is returned. -/
def accumulate {V : Type} [Add V] : List V → V → V
  | [], init => init
  | x :: rest, init => accumulate rest (init + x)

/-- The kernel `reduce_add_array(exec, arr, val)`:
`val.get_data()[0] = std::accumulate(arr.get_const_data(),
arr.get_const_data() + arr.get_num_elems(), val.get_const_data()[0])`.
The array `arr` is `const`; the array `val` after the call is returned, `none`
when `val` has no element `0` to read. -/
def reduce_add_array {V : Type} [Add V] (arr : List V) (val : List V) : Option (List V) :=
  match val[0]? with
  | none => none
  | some init => some (val.set 0 (accumulate arr init))

/-! ## The logger `Record` -/

/-- The two data members a `Record` is constructed with: the mask
`enabled_events` of its base `Logger` and `max_storage_`. -/
structure Record where
  /-- The mask of enabled events (the base class `Logger`). -/
  enabled_events : Nat
  /-- The member `max_storage_`. -/
  max_storage : Nat
  deriving DecidableEq, Repr

/-- The constructor `Record::Record(exec, enabled_events =
Logger::all_events_mask, max_storage = 0)`; an argument left out by the caller is `none` and takes the
default of the declaration.  The value of `Logger::all_events_mask` is a
parameter. -/
def Record.new (all_events_mask : Nat) (enabled_events : Option Nat)
    (max_storage : Option Nat) : gko.Record :=
  ⟨enabled_events.getD all_events_mask, max_storage.getD 0⟩

/-- The factory `Record::create(exec, enabled_events = Logger::all_events_mask,
max_storage = 1)`, which returns `new Record(exec, enabled_events,
max_storage)`: the constructor receives all its arguments from `create`, after
the defaults of `create` have been filled in. -/
def Record.create (all_events_mask : Nat) (enabled_events : Option Nat)
    (max_storage : Option Nat) : gko.Record :=
  Record.new all_events_mask (some (enabled_events.getD all_events_mask))
    (some (max_storage.getD 1))

/-- A partition of `2 ^ 40 + 10` global indices into two ranges: the second
range starts at `2 ^ 40`, outside a 32-bit `LocalIndexType`, and holds ten
indices. -/
def far_partition : Partition :=
  ⟨[0, 2 ^ 40, 2 ^ 40 + 10], [0, 1], [0, 0], 2, 2⟩

/-! ## The zip iterator of `iterator_factory.hpp` -/

/-- A `zip_iterator<Iterators...>`: its member `iterators_`, the tuple of the
wrapped random access iterators.  The pack is not empty (`static_assert`), so
the tuple has `n + 1` components; iterator `k` is given by its position in the
array it traverses. -/
structure zip_iterator (n : Nat) where
  /-- The tuple `iterators_`. -/
  iterators_ : Fin (n + 1) → Int

/-- A `zip_iterator_reference<Iterators...>`: the tuple of references `*it...`,
each given by the position it refers to in the array of its iterator. -/
structure zip_iterator_reference (n : Nat) where
  /-- The referenced position in every array. -/
  positions : Fin (n + 1) → Int

/-- The function `make_zip_iterator(it...)`. -/
def make_zip_iterator {n : Nat} (it : Fin (n + 1) → Int) : zip_iterator n :=
  ⟨it⟩

/-- The member `forall(fn)`: `fn` applied to every wrapped iterator. -/
def zip_iterator.forall {n : Nat} (self : zip_iterator n) (fn : Int → Int) : zip_iterator n :=
  ⟨fun k => fn (self.iterators_ k)⟩

/-- The operator `+=`: `forall([i](auto& it) { it += i; })`. -/
def zip_iterator.add_assign {n : Nat} (self : zip_iterator n) (i : Int) : zip_iterator n :=
  self.forall (fun it => it + i)

/-- The operator `-=`: `forall([i](auto& it) { it -= i; })`. -/
def zip_iterator.sub_assign {n : Nat} (self : zip_iterator n) (i : Int) : zip_iterator n :=
  self.forall (fun it => it - i)

/-- The operator `+` with a `difference_type`: `tmp = *this; tmp += i`. -/
def zip_iterator.add {n : Nat} (self : zip_iterator n) (i : Int) : zip_iterator n :=
  self.add_assign i

/-- The operator `-` with a `difference_type`: `tmp = *this; tmp -= i`. -/
def zip_iterator.sub {n : Nat} (self : zip_iterator n) (i : Int) : zip_iterator n :=
  self.sub_assign i

/-- The member `forall_check_consistent(other, fn)`: the result is `fn` of the
two first iterators; every pair of wrapped iterators is asserted to have the
distance of the first pair, `assert(it - other_it == a - b)`.  A failed
assertion, where the comparison is documented as undefined, is `none`. -/
def zip_iterator.forall_check_consistent {n : Nat} {R : Type} (self other : zip_iterator n)
    (fn : Int → Int → R) : Option R :=
  if ∀ k, self.iterators_ 0 - other.iterators_ 0 = self.iterators_ k - other.iterators_ k then
    some (fn (self.iterators_ 0) (other.iterators_ 0))
  else none

/-- The operator `-` between two zip iterators. -/
def zip_iterator.distance {n : Nat} (self other : zip_iterator n) : Option Int :=
  self.forall_check_consistent other (fun a b => a - b)

/-- The operator `==`. -/
def zip_iterator.eq {n : Nat} (self other : zip_iterator n) : Option Bool :=
  self.forall_check_consistent other (fun a b => decide (a = b))

/-- The operator `!=`: `!(*this == other)`. -/
def zip_iterator.ne {n : Nat} (self other : zip_iterator n) : Option Bool :=
  (self.eq other).map (fun r => !r)

/-- The operator `<`. -/
def zip_iterator.lt {n : Nat} (self other : zip_iterator n) : Option Bool :=
  self.forall_check_consistent other (fun a b => decide (a < b))

/-- The operator `<=`. -/
def zip_iterator.le {n : Nat} (self other : zip_iterator n) : Option Bool :=
  self.forall_check_consistent other (fun a b => decide (a ≤ b))

/-- The operator `>`: `!(*this <= other)`. -/
def zip_iterator.gt {n : Nat} (self other : zip_iterator n) : Option Bool :=
  (self.le other).map (fun r => !r)

/-- The operator `>=`: `!(*this < other)`. -/
def zip_iterator.ge {n : Nat} (self other : zip_iterator n) : Option Bool :=
  (self.lt other).map (fun r => !r)

/-- The operator `*`: `deref_impl`, the reference built from every wrapped
iterator. -/
def zip_iterator.deref {n : Nat} (self : zip_iterator n) : zip_iterator_reference n :=
  ⟨self.iterators_⟩

/-- The operator `[]`: `*(*this + i)`. -/
def zip_iterator.index {n : Nat} (self : zip_iterator n) (i : Int) : zip_iterator_reference n :=
  (self.add i).deref

/-- The element at position `p` of an array; `none` outside the array. -/
def read_at {V : Type} (xs : List V) (p : Int) : Option V :=
  if 0 ≤ p then xs[p.toNat]? else none

/-- The array after the store of `v` at position `p`; `none` outside the
array. -/
def write_at {V : Type} (xs : List V) (p : Int) (v : V) : Option (List V) :=
  if 0 ≤ p ∧ p.toNat < xs.length then some (xs.set p.toNat v) else none

/-- A tuple of results: defined when every component is. -/
def collect_tuple {α : Type} {n : Nat} (f : Fin n → Option α) : Option (Fin n → α) :=
  if h : ∀ k, (f k).isSome then some (fun k => (f k).get (h k)) else none

/-- The member `cast_impl` behind `operator value_type()`:
`value_type(std::get<idxs>(*this)...)`, the tuple of the referenced elements of
the zipped arrays. -/
def zip_iterator_reference.cast_impl {n : Nat} {V : Type} (arrays : Fin (n + 1) → List V)
    (self : zip_iterator_reference n) : Option (Fin (n + 1) → V) :=
  collect_tuple (fun k => read_at (arrays k) (self.positions k))

/-- The member `copy()`: `return *this`, converted to `value_type`. -/
def zip_iterator_reference.copy {n : Nat} {V : Type} (arrays : Fin (n + 1) → List V)
    (self : zip_iterator_reference n) : Option (Fin (n + 1) → V) :=
  self.cast_impl arrays

/-- The member `assign_impl` behind `operator=(const value_type& other)`:
`std::get<idxs>(*this) = std::get<idxs>(other)` for every component, a store
into every zipped array; the arrays after the stores are returned. -/
def zip_iterator_reference.assign_impl {n : Nat} {V : Type} (arrays : Fin (n + 1) → List V)
    (self : zip_iterator_reference n) (other : Fin (n + 1) → V) :
    Option (Fin (n + 1) → List V) :=
  collect_tuple (fun k => write_at (arrays k) (self.positions k) (other k))

/-- The function `swap(zip_iterator_reference a, zip_iterator_reference b)`:
`auto tmp = a.copy(); a = b; b = tmp;`.  The assignment `a = b` stores the
elements referenced by `b` through the references of `a`, component by
component. -/
def swap {n : Nat} {V : Type} (arrays : Fin (n + 1) → List V)
    (a b : zip_iterator_reference n) : Option (Fin (n + 1) → List V) := do
  let tmp ← a.copy arrays
  let from_b ← b.cast_impl arrays
  let arrays ← a.assign_impl arrays from_b
  b.assign_impl arrays tmp

/-- The function `swap(value_type& a, zip_iterator_reference b)`:
`auto tmp = a; a = b; b = tmp;`.  The tuple `a` and the arrays after the call
are returned. -/
def swap_value_reference {n : Nat} {V : Type} (arrays : Fin (n + 1) → List V)
    (a : Fin (n + 1) → V) (b : zip_iterator_reference n) :
    Option ((Fin (n + 1) → V) × (Fin (n + 1) → List V)) := do
  let tmp := a
  let a ← b.cast_impl arrays
  let arrays ← b.assign_impl arrays tmp
  pure (a, arrays)

/-- The function `swap(zip_iterator_reference a, value_type& b)`:
`auto tmp = a.copy(); a = b; b = tmp;`.  The arrays and the tuple `b` after the
call are returned. -/
def swap_reference_value {n : Nat} {V : Type} (arrays : Fin (n + 1) → List V)
    (a : zip_iterator_reference n) (b : Fin (n + 1) → V) :
    Option ((Fin (n + 1) → List V) × (Fin (n + 1) → V)) := do
  let tmp ← a.copy arrays
  let arrays ← a.assign_impl arrays b
  let b := tmp
  pure (arrays, b)

/-- Two zipped arrays of three elements each. -/
def example_zipped : Fin 2 → List Int :=
  fun k => if k = 0 then [1, 2, 3] else [10, 20, 30]

/-! ## `std::sort` over zipped arrays -/

/-- The contract of the library algorithm `std::sort(first, last, comp)`, as a
relation between the elements of the range before and after the call: the
elements are rearranged, and afterwards no element compares less than an
element before it, `comp(*(i + n), *i) == false`.  The algorithm is not stable:
which of several equivalent elements comes first is left open, so every
sequence in this relation is a possible result. -/
def std_sort {α : Type} (comp : α → α → Bool) (before after : List α) : Prop :=
  after.Perm before ∧ after.Pairwise (fun x y => comp y x = false)

instance {α : Type} [DecidableEq α] (comp : α → α → Bool) (before after : List α) :
    Decidable (std_sort comp before after) := by
  unfold std_sort; infer_instance

/-- The kernel `sort_agg(exec, num, row_idxs, col_idxs)`, as a relation between
the two arrays before and after the call: `std::sort` with the comparator
lambda over the first `num` elements of the zipped arrays; the arrays keep
their lengths and the elements behind the first `num`. -/
def sort_agg (num : Nat) (row_idxs col_idxs row_after col_after : List Int) : Prop :=
  num ≤ row_idxs.length ∧ num ≤ col_idxs.length ∧
  row_after.length = row_idxs.length ∧ col_after.length = col_idxs.length ∧
  std_sort sort_agg_comp ((row_idxs.zip col_idxs).take num)
    ((row_after.zip col_after).take num) ∧
  row_after.drop num = row_idxs.drop num ∧ col_after.drop num = col_idxs.drop num

instance (num : Nat) (row_idxs col_idxs row_after col_after : List Int) :
    Decidable (sort_agg num row_idxs col_idxs row_after col_after) := by
  unfold sort_agg; infer_instance

/-- The kernel `sort_row_major(exec, nnz, row_idxs, col_idxs, vals)`, as a
relation between the three arrays before and after the call: `std::sort` over
the first `nnz` elements of the zipped arrays, the comparator lambda applied to
the tuples `(row, col, val)`; the arrays keep their lengths and the elements
behind the first `nnz`. -/
def sort_row_major {V : Type} (nnz : Nat) (row_idxs col_idxs : List Int) (vals : List V)
    (row_after col_after : List Int) (vals_after : List V) : Prop :=
  nnz ≤ row_idxs.length ∧ nnz ≤ col_idxs.length ∧ nnz ≤ vals.length ∧
  row_after.length = row_idxs.length ∧ col_after.length = col_idxs.length ∧
  vals_after.length = vals.length ∧
  std_sort (fun x y => sort_row_major_comp (x.1.1, x.1.2, x.2) (y.1.1, y.1.2, y.2))
    (zipped_entries nnz row_idxs col_idxs vals)
    (zipped_entries nnz row_after col_after vals_after) ∧
  row_after.drop nnz = row_idxs.drop nnz ∧ col_after.drop nnz = col_idxs.drop nnz ∧
  vals_after.drop nnz = vals.drop nnz

instance {V : Type} [DecidableEq V] (nnz : Nat) (row_idxs col_idxs : List Int) (vals : List V)
    (row_after col_after : List Int) (vals_after : List V) :
    Decidable (sort_row_major nnz row_idxs col_idxs vals row_after col_after vals_after) := by
  unfold sort_row_major; infer_instance

/-! ## The prefix sums of `prefix_sum.dp.hpp` -/

/-- The shuffle `subwarp.shfl_xor(var, step)` as lane `rank` sees it: the value
that lane `rank ^ step` holds in `var`. -/
def shfl_xor {V : Type} (var : Nat → V) (step : Nat) (rank : Nat) : V :=
  var (rank ^^^ step)

/-- The loop `for (auto step = 1; step < subwarp.size(); step *= 2)` of
`subwarp_prefix_sum`, executed by all lanes in lockstep: the state is the
`prefix_sum` and the `total_sum` of every lane; in one iteration every lane
reads `neighbor = subwarp.shfl_xor(total_sum, step)`, then
`total_sum += neighbor` and
`prefix_sum += bool(subwarp.thread_rank() & step) ? neighbor : 0`.  The first
argument bounds the number of iterations. -/
def subwarp_prefix_sum_loop {V : Type} [Add V] [Zero V] (size : Nat) :
    Nat → Nat → (Nat → V) → (Nat → V) → (Nat → V) × (Nat → V)
  | 0, _, prefix_sum, total_sum => (prefix_sum, total_sum)
  | fuel + 1, step, prefix_sum, total_sum =>
    if step < size then
      subwarp_prefix_sum_loop size fuel (step * 2)
        (fun rank => prefix_sum rank +
          (if rank &&& step ≠ 0 then shfl_xor total_sum step rank else 0))
        (fun rank => total_sum rank + shfl_xor total_sum step rank)
    else (prefix_sum, total_sum)

/-- The function `subwarp_prefix_sum<inclusive>(element, prefix_sum, total_sum,
subwarp)` called by all lanes of a subwarp of `size` lanes, lane `rank` with
`element rank`: `prefix_sum = inclusive ? element : zero<ValueType>()`,
`total_sum = element`, then the loop.  Returns `prefix_sum` and `total_sum` of
every lane. -/
def subwarp_prefix_sum {V : Type} [Add V] [Zero V] (inclusive : Bool) (size : Nat)
    (element : Nat → V) : (Nat → V) × (Nat → V) :=
  subwarp_prefix_sum_loop size size 1 (fun rank => if inclusive then element rank else 0)
    (fun rank => element rank)

/-- The sum of `element` over the lanes below lane `i` in the aligned block of
`2 ^ j` lanes that holds lane `i`, plus `element i` when `inclusive`: what
`prefix_sum` of lane `i` holds after `j` iterations of the loop. -/
def block_prefix_sum {V : Type} [AddCommMonoid V] (inclusive : Bool) (element : Nat → V)
    (j i : Nat) : V :=
  Finset.sum (Finset.Ico (i / 2 ^ j * 2 ^ j) i) element + (if inclusive then element i else 0)

/-- The sum of `element` over the aligned block of `2 ^ j` lanes that holds
lane `i`: what `total_sum` of lane `i` holds after `j` iterations of the
loop. -/
def block_total {V : Type} [AddCommMonoid V] (element : Nat → V) (j i : Nat) : V :=
  Finset.sum (Finset.Ico (i / 2 ^ j * 2 ^ j) (i / 2 ^ j * 2 ^ j + 2 ^ j)) element

/-- All threads of a thread block between two barriers `this_block.sync()`:
every thread runs `body`, one thread after the other in the order of
`element_id`. -/
def for_each_thread {S : Type} (block_size : Nat) (body : Nat → S → S) (state : S) : S :=
  (List.range block_size).foldl (fun s element_id => body element_id s) state

/-- The helper `thread::get_thread_id_flat(item_ct1)` for a one-dimensional
launch: the index of the thread in the whole grid. -/
def get_thread_id_flat (block_size group element_id : Nat) : Nat :=
  group * block_size + element_id

/-- The helper `ceildiv(num, den)`. -/
def ceildiv (num den : Nat) : Nat :=
  (num + den - 1) / den

/-- Thread `element_id` of `start_prefix_sum`, up to the first barrier:
`(*prefix_helper)[element_id] = (tidx + 1 < num_elements) ? elements[tidx] :
zero<ValueType>()`. -/
def load_thread {V : Type} [Zero V] (block_size num_elements group : Nat) (elements : Nat → V)
    (element_id : Nat) (prefix_helper : Nat → V) : Nat → V :=
  let tidx := get_thread_id_flat block_size group element_id
  Function.update prefix_helper element_id
    (if tidx + 1 < num_elements then elements tidx else 0)

/-- Thread `element_id` in iteration `i` of the reduction loop of
`start_prefix_sum`: with `ai = i * (2 * element_id + 1) - 1` and
`bi = i * (2 * element_id + 2) - 1`, `if (bi < block_size)
(*prefix_helper)[bi] += (*prefix_helper)[ai]`. -/
def up_sweep_thread {V : Type} [Add V] (block_size i element_id : Nat)
    (prefix_helper : Nat → V) : Nat → V :=
  let ai := i * (2 * element_id + 1) - 1
  let bi := i * (2 * element_id + 2) - 1
  if bi < block_size then
    Function.update prefix_helper bi (prefix_helper bi + prefix_helper ai)
  else prefix_helper

/-- The reduction loop `for (int i = 1; i < block_size; i <<= 1)` of
`start_prefix_sum`, a barrier after every iteration.  The first argument bounds
the number of iterations. -/
def up_sweep_loop {V : Type} [Add V] (block_size : Nat) : Nat → Nat → (Nat → V) → Nat → V
  | 0, _, prefix_helper => prefix_helper
  | fuel + 1, i, prefix_helper =>
    if i < block_size then
      up_sweep_loop block_size fuel (i * 2)
        (for_each_thread block_size (up_sweep_thread block_size i) prefix_helper)
    else prefix_helper

/-- Thread `element_id` of `start_prefix_sum` between the two loops:
`if (element_id == 0)`, store `(*prefix_helper)[block_size - 1]` in
`block_sum[group]` unless the block is the last one of the grid, then set
`(*prefix_helper)[block_size - 1]` to zero.  The state is `prefix_helper` and
`block_sum`. -/
def store_total_thread {V : Type} [Zero V] (block_size group group_range element_id : Nat)
    (state : (Nat → V) × (Nat → V)) : (Nat → V) × (Nat → V) :=
  if element_id = 0 then
    (Function.update state.1 (block_size - 1) 0,
      if group + 1 < group_range then
        Function.update state.2 group (state.1 (block_size - 1))
      else state.2)
  else state

/-- Thread `element_id` in iteration `i` of the down-sweep loop of
`start_prefix_sum`: `if (bi < block_size)`, `tmp = (*prefix_helper)[ai]`,
`(*prefix_helper)[ai] = (*prefix_helper)[bi]`, `(*prefix_helper)[bi] += tmp`. -/
def down_sweep_thread {V : Type} [Add V] (block_size i element_id : Nat)
    (prefix_helper : Nat → V) : Nat → V :=
  let ai := i * (2 * element_id + 1) - 1
  let bi := i * (2 * element_id + 2) - 1
  if bi < block_size then
    let tmp := prefix_helper ai
    let prefix_helper := Function.update prefix_helper ai (prefix_helper bi)
    Function.update prefix_helper bi (prefix_helper bi + tmp)
  else prefix_helper

/-- The down-sweep loop `for (int i = block_size >> 1; i > 0; i >>= 1)` of
`start_prefix_sum`, a barrier after every iteration.  The first argument bounds
the number of iterations. -/
def down_sweep_loop {V : Type} [Add V] (block_size : Nat) : Nat → Nat → (Nat → V) → Nat → V
  | 0, _, prefix_helper => prefix_helper
  | fuel + 1, i, prefix_helper =>
    if 0 < i then
      down_sweep_loop block_size fuel (i / 2)
        (for_each_thread block_size (down_sweep_thread block_size i) prefix_helper)
    else prefix_helper

/-- Thread `element_id` of `start_prefix_sum` after the last barrier:
`if (tidx < num_elements) elements[tidx] = (*prefix_helper)[element_id]`. -/
def store_thread {V : Type} (block_size num_elements group : Nat) (prefix_helper : Nat → V)
    (element_id : Nat) (elements : Nat → V) : Nat → V :=
  let tidx := get_thread_id_flat block_size group element_id
  if tidx < num_elements then Function.update elements tidx (prefix_helper element_id)
  else elements

/-- The kernel `start_prefix_sum<block_size>` in thread block `group` of a grid
of `group_range` blocks, barrier by barrier.  The shared array `prefix_helper`
starts with the arbitrary content `uninitialized`; the arrays `elements` and
`block_sum` after the block has run are returned. -/
def start_prefix_sum_block {V : Type} [Add V] [Zero V]
    (block_size num_elements group group_range : Nat) (uninitialized : Nat → V)
    (elements block_sum : Nat → V) : (Nat → V) × (Nat → V) :=
  let prefix_helper := for_each_thread block_size
    (load_thread block_size num_elements group elements) uninitialized
  let prefix_helper := up_sweep_loop block_size block_size 1 prefix_helper
  let state := for_each_thread block_size
    (store_total_thread block_size group group_range) (prefix_helper, block_sum)
  let prefix_helper := down_sweep_loop block_size block_size (block_size / 2) state.1
  (for_each_thread block_size (store_thread block_size num_elements group prefix_helper)
    elements, state.2)

/-- The launch of `start_prefix_sum<block_size>` on a grid of `group_range`
thread blocks, which share nothing but `elements` and `block_sum`; every block
has a shared array of its own. -/
def start_prefix_sum {V : Type} [Add V] [Zero V] (block_size num_elements group_range : Nat)
    (uninitialized : Nat → Nat → V) (elements block_sum : Nat → V) :
    (Nat → V) × (Nat → V) :=
  (List.range group_range).foldl
    (fun memory group => start_prefix_sum_block block_size num_elements group group_range
      (uninitialized group) memory.1 memory.2)
    (elements, block_sum)

/-- Thread `element_id` of block `group` of `finalize_prefix_sum`:
`if (tidx < num_elements)`, `prefix_block_sum` is `zero<ValueType>()` with
`block_sum[i]` added for `i = 0, ..., group - 1`, and
`elements[tidx] += prefix_block_sum`. -/
def finalize_prefix_sum_thread {V : Type} [Add V] [Zero V] (block_size num_elements group : Nat)
    (block_sum : Nat → V) (element_id : Nat) (elements : Nat → V) : Nat → V :=
  let tidx := get_thread_id_flat block_size group element_id
  if tidx < num_elements then
    let prefix_block_sum := (List.range group).foldl (fun s i => s + block_sum i) 0
    Function.update elements tidx (elements tidx + prefix_block_sum)
  else elements

/-- The launch of `finalize_prefix_sum<block_size>` on a grid of `group_range`
thread blocks; the array `elements` after the launch is returned. -/
def finalize_prefix_sum {V : Type} [Add V] [Zero V] (block_size num_elements group_range : Nat)
    (block_sum : Nat → V) (elements : Nat → V) : Nat → V :=
  (List.range group_range).foldl
    (fun e group => for_each_thread block_size
      (finalize_prefix_sum_thread block_size num_elements group block_sum) e)
    elements

/-- The shared array `h` after the iterations `i < 2 ^ d` of the reduction loop
over the loaded values `x`: the last element of every aligned block of `2 ^ d`
elements holds the sum of the block, and the last element of every left half
block of a smaller size `2 ^ t` holds the sum of that half. -/
def up_swept {V : Type} [AddCommMonoid V] (B : Nat) (x h : Nat → V) (d : Nat) : Prop :=
  (∀ c, 2 ^ d * (c + 1) ≤ B →
    h (2 ^ d * (c + 1) - 1) = Finset.sum (Finset.Ico (2 ^ d * c) (2 ^ d * (c + 1))) x) ∧
  (∀ t, t < d → ∀ c, 2 ^ t * (2 * c + 1) ≤ B →
    h (2 ^ t * (2 * c + 1) - 1) =
      Finset.sum (Finset.Ico (2 ^ t * (2 * c)) (2 ^ t * (2 * c + 1))) x)

/-- The shared array `h` after the iterations `i ≥ 2 ^ d` of the down-sweep
loop over the loaded values `x`: the last element of every aligned block of
`2 ^ d` elements holds the sum of all values before the block, and the last
element of every left half block of a smaller size `2 ^ t` still holds the sum
of that half. -/
def down_swept {V : Type} [AddCommMonoid V] (B : Nat) (x h : Nat → V) (d : Nat) : Prop :=
  (∀ c, 2 ^ d * (c + 1) ≤ B →
    h (2 ^ d * (c + 1) - 1) = Finset.sum (Finset.Ico 0 (2 ^ d * c)) x) ∧
  (∀ t, t < d → ∀ c, 2 ^ t * (2 * c + 1) ≤ B →
    h (2 ^ t * (2 * c + 1) - 1) =
      Finset.sum (Finset.Ico (2 ^ t * (2 * c)) (2 ^ t * (2 * c + 1))) x)

/-- Ten elements `1, ..., 10` followed by memory that holds `100`. -/
def example_elements : Nat → Int :=
  fun i => [1, 2, 3, 4, 5, 6, 7, 8, 9, 10].getD i 100


/-! ## Reading sorted arrays -/

theorem read_lt_of_pairwise_lt {a : List Int} (h : a.Pairwise (fun p q => p < q))
    {i j : Nat} (hij : i < j) {x y : Int} (hx : a[i]? = some x) (hy : a[j]? = some y) :
    x < y := by
  obtain ⟨hi, rfl⟩ := List.getElem?_eq_some.mp hx
  obtain ⟨hj, rfl⟩ := List.getElem?_eq_some.mp hy
  exact List.pairwise_iff_getElem.mp h i j hi hj hij

theorem read_le_of_pairwise_le {a : List Int} (h : a.Pairwise (fun p q => p ≤ q))
    {i j : Nat} (hij : i ≤ j) {x y : Int} (hx : a[i]? = some x) (hy : a[j]? = some y) :
    x ≤ y := by
  rcases Nat.eq_or_lt_of_le hij with h0 | h0
  · subst h0
    rw [hx] at hy
    exact le_of_eq (Option.some.inj hy)
  · obtain ⟨hi, rfl⟩ := List.getElem?_eq_some.mp hx
    obtain ⟨hj, rfl⟩ := List.getElem?_eq_some.mp hy
    exact List.pairwise_iff_getElem.mp h i j hi hj h0

theorem pairwise_le_of_pairwise_lt {a : List Int} (h : a.Pairwise (fun p q => p < q)) :
    a.Pairwise (fun p q => p ≤ q) :=
  h.imp (fun hpq => le_of_lt hpq)

/-! ## `std::upper_bound` on a sorted array -/

/-- On a non-decreasing array the loop terminates within `count` iterations and
returns the partition point of `[first, first + count)`: everything before it is
`≤ value`, everything from it on is `> value`. -/
theorem upper_bound_loop_spec (a : List Int) (value : Int)
    (hs : a.Pairwise (fun p q => p ≤ q)) :
    ∀ (fuel first count : Nat), count ≤ fuel → first + count ≤ a.length →
      ∃ r, upper_bound_loop a value fuel first count = some r ∧
        first ≤ r ∧ r ≤ first + count ∧
        (∀ i x, first ≤ i → i < r → a[i]? = some x → x ≤ value) ∧
        (∀ i x, r ≤ i → i < first + count → a[i]? = some x → value < x) := by
  intro fuel
  induction fuel with
  | zero =>
    intro first count hc _
    have hc0 : count = 0 := Nat.le_zero.mp hc
    subst hc0
    refine ⟨first, by simp [upper_bound_loop], le_refl _, le_refl _, ?_, ?_⟩
    · intro i x h1 h2; omega
    · intro i x h1 h2; omega
  | succ fuel ih =>
    intro first count hc hlen
    by_cases hc0 : count = 0
    · subst hc0
      refine ⟨first, by simp [upper_bound_loop], le_refl _, le_refl _, ?_, ?_⟩
      · intro i x h1 h2; omega
      · intro i x h1 h2; omega
    · have hstep : count / 2 < count := Nat.div_lt_self (Nat.pos_of_ne_zero hc0) (by decide)
      have hmid : first + count / 2 < a.length := by omega
      obtain ⟨m, hm⟩ : ∃ m, a[first + count / 2]? = some m :=
        ⟨a[first + count / 2], List.getElem?_eq_getElem hmid⟩
      by_cases hlt : value < m
      · obtain ⟨r, hr, h1, h2, h3, h4⟩ := ih first (count / 2) (by omega) (by omega)
        refine ⟨r, ?_, h1, by omega, h3, ?_⟩
        · simp only [upper_bound_loop, if_neg hc0, hm, not_lt]
          rw [if_neg (not_le.mpr hlt)]
          exact hr
        · intro i x hi1 hi2 hx
          by_cases hi3 : i < first + count / 2
          · exact h4 i x hi1 hi3 hx
          · exact lt_of_lt_of_le hlt (read_le_of_pairwise_le hs (by omega) hm hx)
      · obtain ⟨r, hr, h1, h2, h3, h4⟩ :=
          ih (first + count / 2 + 1) (count - (count / 2 + 1)) (by omega) (by omega)
        refine ⟨r, ?_, by omega, by omega, ?_, ?_⟩
        · simp only [upper_bound_loop, if_neg hc0, hm, not_lt]
          rw [if_pos (not_lt.mp hlt)]
          exact hr
        · intro i x hi1 hi2 hx
          by_cases hi3 : first + count / 2 + 1 ≤ i
          · exact h3 i x hi3 hi2 hx
          · exact le_trans (read_le_of_pairwise_le hs (by omega) hx hm) (not_lt.mp hlt)
        · intro i x hi1 hi2 hx
          exact h4 i x hi1 (by omega) hx

/-! ## Range lookup on a sorted partition -/

theorem wrap_of_fits {w : Nat} (hw : 0 < w) {x : Int} (hx : fits w x) : wrap w x = x := by
  obtain ⟨h1, h2⟩ := hx
  have hp : (2 : Int) ^ w = 2 * 2 ^ (w - 1) := by
    obtain ⟨k, rfl⟩ : ∃ k, w = k + 1 := ⟨w - 1, by omega⟩
    simp [pow_succ, mul_comm]
  unfold wrap
  rw [hp, Int.emod_eq_of_lt (by omega) (by omega)]
  omega

/-- The binary search alone, on a shaped partition with non-decreasing bounds:
it returns the range id `r ≤ num_ranges` such that the bounds `1 .. r` are
`≤ g` and the bounds `r + 1 .. num_ranges` are `> g`. -/
theorem find_range_fallback_spec (P : Partition) (g : Int)
    (hshape : P.shaped) (hsorted : P.non_decreasing) :
    ∃ r, find_range_fallback P g = some r ∧ r ≤ P.num_ranges ∧
      (∀ i x, 1 ≤ i → i ≤ r → P.range_bounds[i]? = some x → x ≤ g) ∧
      (∀ i x, r < i → i ≤ P.num_ranges → P.range_bounds[i]? = some x → g < x) := by
  obtain ⟨hlen, -, -⟩ := hshape
  obtain ⟨r, hr, h1, h2, h3, h4⟩ :=
    upper_bound_loop_spec P.range_bounds g hsorted P.num_ranges 1 P.num_ranges
      (le_refl _) (by omega)
  refine ⟨r - 1, ?_, by omega, ?_, ?_⟩
  · simp [find_range_fallback, upper_bound, hr]
  · intro i x hi1 hi2 hx
    exact h3 i x hi1 (by omega) hx
  · intro i x hi1 hi2 hx
    exact h4 i x (by omega) (by omega) hx

/-- With a hint below `num_ranges`, `find_range` is the binary search. -/
theorem find_range_eq_fallback (P : Partition) (g : Int) (hint : Nat)
    (hshape : P.shaped) (hsorted : P.non_decreasing) (hhint : hint < P.num_ranges) :
    find_range P g hint = find_range_fallback P g := by
  obtain ⟨r, hr, hrn, hlow, hhigh⟩ := find_range_fallback_spec P g hshape hsorted
  obtain ⟨hlen, -, -⟩ := hshape
  obtain ⟨lo, hlo⟩ : ∃ lo, P.range_bounds[hint]? = some lo :=
    ⟨P.range_bounds[hint], List.getElem?_eq_getElem (by omega)⟩
  obtain ⟨hi, hhi⟩ : ∃ hi, P.range_bounds[hint + 1]? = some hi :=
    ⟨P.range_bounds[hint + 1], List.getElem?_eq_getElem (by omega)⟩
  unfold find_range
  simp only [hlo, hhi]
  by_cases h1 : lo ≤ g
  · rw [if_pos h1]
    by_cases h2 : g < hi
    · rw [if_pos h2, hr]
      rcases Nat.lt_trichotomy r hint with h | h | h
      · exact absurd (hhigh hint lo h (by omega) hlo) (not_lt.mpr h1)
      · rw [h]
      · exact absurd (hlow (hint + 1) hi (by omega) (by omega) hhi) (not_le.mpr h2)
    · rw [if_neg h2]
  · rw [if_neg h1]

/-- A row below the partition's size is looked up to a range id below
`num_ranges`, the same for every hint, and the reads that follow are in bounds. -/
theorem lookup_defined (gw lw : Nat) (P : Partition) (g : Int) (hint : Nat)
    (hshape : P.shaped) (hsorted : P.non_decreasing) (hhint : hint < P.num_ranges)
    (hg : g < P.size) :
    ∃ r part l, r < P.num_ranges ∧ find_range P g hint = some r ∧
      find_range P g 0 = some r ∧ P.part_ids[r]? = some part ∧
      map_to_local gw lw P g r = some l := by
  obtain ⟨r, hr, hrn, hlow, hhigh⟩ := find_range_fallback_spec P g hshape hsorted
  have hlen := hshape
  obtain ⟨hlen1, hlen2, hlen3⟩ := hlen
  have hrlt : r < P.num_ranges := by
    rcases Nat.lt_or_ge r P.num_ranges with h | h
    · exact h
    · have hr' : r = P.num_ranges := by omega
      have hn : P.range_bounds[P.num_ranges]? = some P.size := by
        unfold Partition.size
        rw [List.getD_eq_getElem?_getD, List.getElem?_eq_getElem (by omega)]
        rfl
      exact absurd (hlow P.num_ranges P.size (by omega) (by omega) hn) (not_le.mpr hg)
  have hb : P.range_bounds[r]? = some P.range_bounds[r] :=
    List.getElem?_eq_getElem (by omega)
  have hs : P.range_starting_indices[r]? = some P.range_starting_indices[r] :=
    List.getElem?_eq_getElem (by omega)
  refine ⟨r, P.part_ids[r],
    wrap lw (wrap lw (wrap gw (g - P.range_bounds[r])) + P.range_starting_indices[r]),
    hrlt, ?_, ?_, List.getElem?_eq_getElem (by omega), ?_⟩
  · rw [find_range_eq_fallback P g hint hshape hsorted hhint, hr]
  · rw [find_range_eq_fallback P g 0 hshape hsorted (by omega), hr]
  · simp only [map_to_local, hb, hs]

/-! ## The two passes on a sorted partition -/

theorem filter_map_cons_kept {V : Type} (gw lw : Nat) (P : Partition) (p : Int)
    (e : matrix_data_entry V) (rest : List (matrix_data_entry V)) (l : Int)
    (hown : owning_part P e.row = some p) (hloc : local_index gw lw P e.row = some l) :
    build_local_filter_map gw lw P p (e :: rest) =
      ⟨l, e.column, e.value⟩ :: build_local_filter_map gw lw P p rest := by
  simp [build_local_filter_map, hown, hloc]

theorem filter_map_cons_dropped {V : Type} (gw lw : Nat) (P : Partition) (p : Int)
    (e : matrix_data_entry V) (rest : List (matrix_data_entry V))
    (hown : owning_part P e.row ≠ some p) :
    build_local_filter_map gw lw P p (e :: rest) = build_local_filter_map gw lw P p rest := by
  simp [build_local_filter_map, hown]

theorem owned_cons_kept {V : Type} (P : Partition) (p : Int)
    (e : matrix_data_entry V) (rest : List (matrix_data_entry V))
    (hown : owning_part P e.row = some p) :
    ((e :: rest).filter (fun e => owning_part P e.row = some p)).length =
      (rest.filter (fun e => owning_part P e.row = some p)).length + 1 := by
  simp [hown]

theorem owned_cons_dropped {V : Type} (P : Partition) (p : Int)
    (e : matrix_data_entry V) (rest : List (matrix_data_entry V))
    (hown : owning_part P e.row ≠ some p) :
    ((e :: rest).filter (fun e => owning_part P e.row = some p)).length =
      (rest.filter (fun e => owning_part P e.row = some p)).length := by
  simp [hown]

/-- The counting loop on rows below the partition's size: it ends, every read
is in bounds, and it adds the number of entries owned by `p`. -/
theorem count_pass_spec {V : Type} (P : Partition) (p : Int)
    (hshape : P.shaped) (hsorted : P.non_decreasing) :
    ∀ (input : List (matrix_data_entry V)) (count hint : Nat), hint < P.num_ranges →
      (∀ e ∈ input, e.row < P.size) →
      ∃ hint2, hint2 < P.num_ranges ∧
        count_pass P p input count hint =
          some (count + (input.filter (fun e => owning_part P e.row = some p)).length, hint2) := by
  intro input
  induction input with
  | nil =>
    intro count hint hh _
    exact ⟨hint, hh, by simp [count_pass]⟩
  | cons e rest ih =>
    intro count hint hh hrows
    obtain ⟨r, part, l, hr, hfind, hfind0, hpart, -⟩ :=
      lookup_defined 0 0 P e.row hint hshape hsorted hh (hrows e (List.mem_cons_self _ _))
    have hown : owning_part P e.row = some part := by simp [owning_part, hfind0, hpart]
    have hrest : ∀ x ∈ rest, x.row < P.size := fun x hx => hrows x (List.mem_cons_of_mem _ hx)
    by_cases hp : part = p
    · obtain ⟨h2, hh2, hc⟩ := ih (count + 1) r hr hrest
      refine ⟨h2, hh2, ?_⟩
      rw [owned_cons_kept P p e rest (by rw [hown, hp])]
      simp only [count_pass, hfind, hpart, if_pos hp, hc]
      congr 2
      omega
    · obtain ⟨h2, hh2, hc⟩ := ih count r hr hrest
      refine ⟨h2, hh2, ?_⟩
      rw [owned_cons_dropped P p e rest (by rw [hown]; intro h; exact hp (Option.some.inj h))]
      simp only [count_pass, hfind, hpart, if_neg hp, hc]

/-- The filling loop on rows below the partition's size, started on an array
whose first `done.length` slots are written and whose `k` remaining slots are
free: when the kept entries fit in the free slots, it ends, every read and
write is in bounds, the kept entries are written in input order right after
`done`, and `idx` advances by their number. -/
theorem fill_pass_spec {V : Type} (gw lw : Nat) (P : Partition) (p : Int)
    (hshape : P.shaped) (hsorted : P.non_decreasing) :
    ∀ (input : List (matrix_data_entry V)) (done : List (Option (matrix_data_entry V)))
      (k hint : Nat), hint < P.num_ranges → (∀ e ∈ input, e.row < P.size) →
      (build_local_filter_map gw lw P p input).length ≤ k →
      ∃ hint2, hint2 < P.num_ranges ∧
        fill_pass gw lw P p input (done ++ List.replicate k none) done.length hint =
          some (done ++ ((build_local_filter_map gw lw P p input).map
                  (fun o => some (narrow_column lw o)) ++
                List.replicate (k - (build_local_filter_map gw lw P p input).length) none),
                done.length + (build_local_filter_map gw lw P p input).length, hint2) := by
  intro input
  induction input with
  | nil =>
    intro done k hint hh _ _
    exact ⟨hint, hh, by simp [fill_pass, build_local_filter_map]⟩
  | cons e rest ih =>
    intro done k hint hh hrows hk
    obtain ⟨r, part, l, hr, hfind, hfind0, hpart, hmap⟩ :=
      lookup_defined gw lw P e.row hint hshape hsorted hh (hrows e (List.mem_cons_self _ _))
    have hown : owning_part P e.row = some part := by simp [owning_part, hfind0, hpart]
    have hloc : local_index gw lw P e.row = some l := by simp [local_index, hfind0, hmap]
    have hrest : ∀ x ∈ rest, x.row < P.size := fun x hx => hrows x (List.mem_cons_of_mem _ hx)
    by_cases hp : part = p
    · have hcons := filter_map_cons_kept gw lw P p e rest l (by rw [hown, hp]) hloc
      rw [hcons] at hk ⊢
      simp only [List.length_cons] at hk ⊢
      obtain ⟨k2, rfl⟩ : ∃ k2, k = k2 + 1 := ⟨k - 1, by omega⟩
      obtain ⟨h2, hh2, hc⟩ :=
        ih (done ++ [some ⟨l, wrap lw e.column, e.value⟩]) k2 r hr hrest (by omega)
      refine ⟨h2, hh2, ?_⟩
      have hset : (done ++ List.replicate (k2 + 1) none).set done.length
          (some (⟨l, wrap lw e.column, e.value⟩ : matrix_data_entry V)) =
          (done ++ [some ⟨l, wrap lw e.column, e.value⟩]) ++ List.replicate k2 none := by
        rw [List.set_append_right _ _ (le_refl _)]
        simp [List.replicate_succ]
      have hidx : done.length <
          (done ++ List.replicate (k2 + 1) (none : Option (matrix_data_entry V))).length := by
        simp
      have hlen :
          (done ++ [some (⟨l, wrap lw e.column, e.value⟩ : matrix_data_entry V)]).length =
            done.length + 1 := by simp
      rw [hlen] at hc
      simp only [fill_pass, hfind, hpart, if_pos hp, hmap, if_pos hidx, hset, hc]
      simp [narrow_column, List.append_assoc, Nat.add_assoc, Nat.add_comm 1]
    · have hcons := filter_map_cons_dropped gw lw P p e rest
        (by rw [hown]; intro h; exact hp (Option.some.inj h))
      rw [hcons] at hk ⊢
      obtain ⟨h2, hh2, hc⟩ := ih done k r hr hrest hk
      refine ⟨h2, hh2, ?_⟩
      simp only [fill_pass, hfind, hpart, if_neg hp, hc]

theorem filter_map_length {V : Type} (gw lw : Nat) (P : Partition) (p : Int)
    (hshape : P.shaped) (hsorted : P.non_decreasing) (hn : 0 < P.num_ranges) :
    ∀ (input : List (matrix_data_entry V)), (∀ e ∈ input, e.row < P.size) →
      (build_local_filter_map gw lw P p input).length =
        (input.filter (fun e => owning_part P e.row = some p)).length := by
  intro input
  induction input with
  | nil => intro _; simp [build_local_filter_map]
  | cons e rest ih =>
    intro hrows
    obtain ⟨r, part, l, hr, -, hfind0, hpart, hmap⟩ :=
      lookup_defined gw lw P e.row 0 hshape hsorted hn (hrows e (List.mem_cons_self _ _))
    have hown : owning_part P e.row = some part := by simp [owning_part, hfind0, hpart]
    have hloc : local_index gw lw P e.row = some l := by simp [local_index, hfind0, hmap]
    have hrest : ∀ x ∈ rest, x.row < P.size := fun x hx => hrows x (List.mem_cons_of_mem _ hx)
    by_cases hp : part = p
    · rw [filter_map_cons_kept gw lw P p e rest l (by rw [hown, hp]) hloc,
        owned_cons_kept P p e rest (by rw [hown, hp]), List.length_cons, ih hrest]
    · have hne : owning_part P e.row ≠ some p := by
        rw [hown]; intro h; exact hp (Option.some.inj h)
      rw [filter_map_cons_dropped gw lw P p e rest hne, owned_cons_dropped P p e rest hne,
        ih hrest]

/-- Both loops together: the kernel's output on rows below the partition's
size is the filter-map of the input, columns converted to `LocalIndexType`. -/
theorem build_local_eq {V : Type} (gw lw : Nat) (P : Partition) (p : Int)
    (input : List (matrix_data_entry V))
    (hshape : P.shaped) (hsorted : P.non_decreasing) (hn : 0 < P.num_ranges)
    (hrows : ∀ e ∈ input, e.row < P.size) :
    build_local gw lw P p input =
      some ((build_local_filter_map gw lw P p input).map (fun o => some (narrow_column lw o))) := by
  obtain ⟨h1, hh1, hc⟩ := count_pass_spec P p hshape hsorted input 0 0 hn hrows
  rw [← filter_map_length gw lw P p hshape hsorted hn input hrows, Nat.zero_add] at hc
  obtain ⟨h2, -, hf⟩ := fill_pass_spec gw lw P p hshape hsorted input [] _ h1 hh1 hrows
    (le_refl _)
  simp only [List.nil_append, List.length_nil, Nat.sub_self, List.replicate_zero,
    List.append_nil, Nat.zero_add] at hf
  simp only [build_local, hc, hf]

theorem wrap_spec (w : Nat) (x : Int) : ∃ k : Int, wrap w x = x + k * 2 ^ w := by
  refine ⟨-((x + 2 ^ (w - 1)) / 2 ^ w), ?_⟩
  unfold wrap
  rw [Int.emod_def]
  ring

theorem wrap_add_mul (w : Nat) (x k : Int) : wrap w (x + k * 2 ^ w) = wrap w x := by
  unfold wrap
  have h : x + k * 2 ^ w + 2 ^ (w - 1) = x + 2 ^ (w - 1) + k * 2 ^ w := by ring
  rw [h, Int.add_mul_emod_self]

/-- When `LocalIndexType` is no wider than `GlobalIndexType`, the value
`map_to_local` computes is the exact local index as soon as that index is
representable in `LocalIndexType`. -/
theorem wrap_chain_of_fits {gw lw : Nat} (hlw : 0 < lw) (hle : lw ≤ gw) (d s : Int)
    (hfit : fits lw (s + d)) : wrap lw (wrap lw (wrap gw d) + s) = s + d := by
  obtain ⟨k1, h1⟩ := wrap_spec gw d
  have hpow : (2 : Int) ^ gw = 2 ^ (gw - lw) * 2 ^ lw := by
    rw [← pow_add]; congr 1; omega
  have e1 : wrap lw (wrap gw d) = wrap lw d := by
    rw [h1, hpow, ← mul_assoc, wrap_add_mul]
  obtain ⟨k2, h2⟩ := wrap_spec lw d
  rw [e1, h2]
  have e2 : d + k2 * 2 ^ lw + s = (s + d) + k2 * 2 ^ lw := by ring
  rw [e2, wrap_add_mul, wrap_of_fits hlw hfit]

theorem map_to_local_of_fits (gw lw : Nat) (P : Partition) (g : Int) (r : Nat) (b s : Int)
    (hlw : 0 < lw) (hle : lw ≤ gw)
    (hb : P.range_bounds[r]? = some b) (hs : P.range_starting_indices[r]? = some s)
    (hfit : fits lw (s + (g - b))) :
    map_to_local gw lw P g r = some (s + (g - b)) := by
  simp only [map_to_local, hb, hs, wrap_chain_of_fits hlw hle (g - b) s hfit]

/-- On a shaped partition whose bounds increase strictly from `0`, the lookup
of a covered index: the result is below `num_ranges`, its bounds enclose the
index, and no other range does. -/
theorem find_range_encloses (P : Partition) (g : Int) (hint : Nat)
    (hshape : P.shaped) (hinc : P.increasing_from_zero) (hhint : hint < P.num_ranges)
    (hg0 : 0 ≤ g) (hg1 : g < P.size) :
    ∃ i lo hi, find_range P g hint = some i ∧ i < P.num_ranges ∧
      P.range_bounds[i]? = some lo ∧ P.range_bounds[i + 1]? = some hi ∧ lo ≤ g ∧ g < hi ∧
      ∀ j lo2 hi2, P.range_bounds[j]? = some lo2 → P.range_bounds[j + 1]? = some hi2 →
        lo2 ≤ g → g < hi2 → j = i := by
  obtain ⟨hstrict, hzero⟩ := hinc
  have hsorted : P.non_decreasing := pairwise_le_of_pairwise_lt hstrict
  obtain ⟨r, hr, hrn, hlow, hhigh⟩ := find_range_fallback_spec P g hshape hsorted
  obtain ⟨r2, part, l, hr2, hfind, -, -, -⟩ :=
    lookup_defined 0 0 P g hint hshape hsorted hhint hg1
  have hrr : r2 = r := by
    rw [find_range_eq_fallback P g hint hshape hsorted hhint, hr] at hfind
    exact (Option.some.inj hfind).symm
  subst hrr
  obtain ⟨hlen, -, -⟩ := hshape
  obtain ⟨lo, hlo⟩ : ∃ lo, P.range_bounds[r2]? = some lo :=
    ⟨P.range_bounds[r2], List.getElem?_eq_getElem (by omega)⟩
  obtain ⟨hi, hhi⟩ : ∃ hi, P.range_bounds[r2 + 1]? = some hi :=
    ⟨P.range_bounds[r2 + 1], List.getElem?_eq_getElem (by omega)⟩
  refine ⟨r2, lo, hi, hfind, hr2, hlo, hhi, ?_, hhigh (r2 + 1) hi (by omega) (by omega) hhi, ?_⟩
  · rcases Nat.eq_zero_or_pos r2 with h0 | h0
    · subst h0
      rw [hzero] at hlo
      rw [← Option.some.inj hlo]
      exact hg0
    · exact hlow r2 lo h0 (le_refl _) hlo
  · intro j lo2 hi2 hj1 hj2 hle hlt
    have hjn : j + 1 < P.range_bounds.length := (List.getElem?_eq_some.mp hj2).1
    rcases Nat.lt_trichotomy j r2 with h | h | h
    · exact absurd (hlow (j + 1) hi2 (by omega) (by omega) hj2) (not_le.mpr hlt)
    · exact h
    · exact absurd (hhigh j lo2 h (by omega) hj1) (not_lt.mpr hle)

theorem covered_nil_or_ranges {V : Type} (P : Partition) (input : List (matrix_data_entry V))
    (hinc : P.increasing_from_zero)
    (hrows : ∀ e ∈ input, 0 ≤ e.row ∧ e.row < P.size) :
    input = [] ∨ 0 < P.num_ranges := by
  rcases Nat.eq_zero_or_pos P.num_ranges with h0 | h0
  · left
    cases input with
    | nil => rfl
    | cons e rest =>
      exfalso
      obtain ⟨h1, h2⟩ := hrows e (List.mem_cons_self _ _)
      have hsize : P.size = 0 := by
        unfold Partition.size
        rw [h0, List.getD_eq_getElem?_getD, hinc.2]
        rfl
      omega
  · exact Or.inr h0

/-- A row at or past the partition's size is looked up to `num_ranges`, one
past the last range id. -/
theorem find_range_past_end (P : Partition) (g : Int) (hint : Nat)
    (hshape : P.shaped) (hsorted : P.non_decreasing) (hhint : hint < P.num_ranges)
    (hg : P.size ≤ g) : find_range P g hint = some P.num_ranges := by
  obtain ⟨r, hr, hrn, hlow, hhigh⟩ := find_range_fallback_spec P g hshape hsorted
  rw [find_range_eq_fallback P g hint hshape hsorted hhint, hr]
  rcases Nat.lt_or_ge r P.num_ranges with h | h
  · have hn : P.range_bounds[P.num_ranges]? = some P.size := by
      unfold Partition.size
      rw [List.getD_eq_getElem?_getD, List.getElem?_eq_getElem (by have := hshape.1; omega)]
      rfl
    exact absurd (hhigh P.num_ranges P.size h (le_refl _) hn) (not_lt.mpr hg)
  · congr 1
    omega

/-- The counting loop reads `part_ids` out of bounds as soon as one row is at
or past the partition's size. -/
theorem count_pass_past_end {V : Type} (P : Partition) (p : Int)
    (hshape : P.shaped) (hsorted : P.non_decreasing) :
    ∀ (input : List (matrix_data_entry V)) (count hint : Nat), hint < P.num_ranges →
      (∃ e ∈ input, P.size ≤ e.row) → count_pass P p input count hint = none := by
  intro input
  induction input with
  | nil =>
    intro count hint _ hbad
    obtain ⟨e, he, -⟩ := hbad
    exact absurd he (List.not_mem_nil e)
  | cons e rest ih =>
    intro count hint hh hbad
    rcases lt_or_le e.row P.size with hlt | hge
    · obtain ⟨r, part, l, hr, hfind, -, hpart, -⟩ :=
        lookup_defined 0 0 P e.row hint hshape hsorted hh hlt
      have hbad2 : ∃ x ∈ rest, P.size ≤ x.row := by
        obtain ⟨x, hx, hxs⟩ := hbad
        rcases List.mem_cons.mp hx with h | h
        · subst h; omega
        · exact ⟨x, h, hxs⟩
      simp only [count_pass, hfind, hpart, ih _ r hr hbad2, ite_self]
    · have hnone : P.part_ids[P.num_ranges]? = none :=
        List.getElem?_eq_none (by rw [hshape.2.1])
      simp only [count_pass, find_range_past_end P e.row hint hshape hsorted hh hge, hnone]

/-- The kernel as the sequence of its two loops. -/
theorem build_local_as_bind {V : Type} (gw lw : Nat) (P : Partition) (p : Int)
    (input : List (matrix_data_entry V)) :
    build_local gw lw P p input =
      (count_pass P p input 0 0).bind (fun c =>
        (fill_pass gw lw P p input (List.replicate c.1 none) 0 c.2).map (fun s => s.1)) := by
  unfold build_local
  cases count_pass P p input 0 0 with
  | none => rfl
  | some c =>
    obtain ⟨count, h⟩ := c
    simp only [Option.some_bind]
    cases fill_pass gw lw P p input (List.replicate count none) 0 h with
    | none => rfl
    | some s => rfl

/-- The hint the counting loop leaves is a range id whose part id was read in
bounds, hence below `num_ranges`. -/
theorem count_pass_hint_lt {V : Type} (P : Partition) (p : Int) (hshape : P.shaped) :
    ∀ (input : List (matrix_data_entry V)) (count hint : Nat) (res : Nat × Nat),
      hint < P.num_ranges → count_pass P p input count hint = some res →
      res.2 < P.num_ranges := by
  intro input
  induction input with
  | nil =>
    intro count hint res hh hc
    simp only [count_pass, Option.some.injEq] at hc
    rw [← hc]
    exact hh
  | cons e rest ih =>
    intro count hint res hh hc
    simp only [count_pass] at hc
    cases hf : find_range P e.row hint with
    | none => rw [hf] at hc; simp at hc
    | some r =>
      rw [hf] at hc
      simp only at hc
      cases hp : P.part_ids[r]? with
      | none => rw [hp] at hc; simp at hc
      | some part =>
        rw [hp] at hc
        simp only at hc
        have hr : r < P.num_ranges := by
          have := (List.getElem?_eq_some.mp hp).1
          rw [hshape.2.1] at this
          exact this
        by_cases hpp : part = p
        · rw [if_pos hpp] at hc
          exact ih _ r res hr hc
        · rw [if_neg hpp] at hc
          exact ih _ r res hr hc

/-! ## Local numbering -/

theorem getD_of_read {a : List Int} {i : Nat} {x : Int} (h : a[i]? = some x) :
    a.getD i 0 = x := by
  rw [List.getD_eq_getElem?_getD, h]
  rfl

theorem read_bound (P : Partition) (hshape : P.shaped) (i : Nat) (hi : i ≤ P.num_ranges) :
    P.range_bounds[i]? = some (P.range_bounds.getD i 0) := by
  have hlen : i < P.range_bounds.length := by have := hshape.1; omega
  rw [List.getD_eq_getElem?_getD, List.getElem?_eq_getElem hlen]
  rfl

theorem range_length_pos (P : Partition) (hshape : P.shaped)
    (hstrict : P.range_bounds.Pairwise (fun a b => a < b)) (j : Nat) (hj : j < P.num_ranges) :
    0 < P.range_length j := by
  have h := read_lt_of_pairwise_lt hstrict (Nat.lt_succ_self j)
    (read_bound P hshape j (by omega)) (read_bound P hshape (j + 1) (by omega))
  unfold Partition.range_length
  omega

theorem owned_before_step_le (P : Partition) (hshape : P.shaped)
    (hstrict : P.range_bounds.Pairwise (fun a b => a < b)) (p : Int) (i : Nat)
    (hi : i < P.num_ranges) : P.owned_before p i ≤ P.owned_before p (i + 1) := by
  have h := range_length_pos P hshape hstrict i hi
  simp only [Partition.owned_before]
  split <;> omega

theorem owned_before_mono (P : Partition) (hshape : P.shaped)
    (hstrict : P.range_bounds.Pairwise (fun a b => a < b)) (p : Int) (i k : Nat)
    (hik : i ≤ k) (hk : k ≤ P.num_ranges) : P.owned_before p i ≤ P.owned_before p k := by
  induction k, hik using Nat.le_induction with
  | base => exact le_refl _
  | succ m hm ih =>
    exact le_trans (ih (by omega)) (owned_before_step_le P hshape hstrict p m (by omega))

theorem owned_before_nonneg (P : Partition) (hshape : P.shaped)
    (hstrict : P.range_bounds.Pairwise (fun a b => a < b)) (p : Int) (i : Nat)
    (hi : i ≤ P.num_ranges) : 0 ≤ P.owned_before p i :=
  owned_before_mono P hshape hstrict p 0 i (Nat.zero_le i) hi

theorem owned_before_succ_owned (P : Partition) (p : Int) (i : Nat)
    (hp : P.part_ids[i]? = some p) :
    P.owned_before p (i + 1) = P.owned_before p i + P.range_length i := by
  simp only [Partition.owned_before, hp, if_true]

/-- Every local index below the local size lies in one range of the part. -/
theorem owned_range_of_local (P : Partition) (p : Int) (l : Int) (hl : 0 ≤ l) :
    ∀ k, l < P.owned_before p k →
      ∃ i, i < k ∧ P.part_ids[i]? = some p ∧ P.owned_before p i ≤ l ∧
        l < P.owned_before p i + P.range_length i := by
  intro k
  induction k with
  | zero =>
    intro h
    simp only [Partition.owned_before] at h
    omega
  | succ k ih =>
    intro h
    by_cases hk : l < P.owned_before p k
    · obtain ⟨i, hi, h1, h2, h3⟩ := ih hk
      exact ⟨i, by omega, h1, h2, h3⟩
    · by_cases hp : P.part_ids[k]? = some p
      · rw [owned_before_succ_owned P p k hp] at h
        exact ⟨k, Nat.lt_succ_self k, hp, by omega, h⟩
      · simp only [Partition.owned_before, if_neg hp] at h
        omega

theorem ranges_pos_of_covered (P : Partition) (hinc : P.increasing_from_zero) (g : Int)
    (hg0 : 0 ≤ g) (hg1 : g < P.size) : 0 < P.num_ranges := by
  rcases Nat.eq_zero_or_pos P.num_ranges with h0 | h0
  · exfalso
    have hsize : P.size = 0 := by
      unfold Partition.size
      rw [h0]
      exact getD_of_read hinc.2
    omega
  · exact h0

/-- The local index of a covered global index owned by `p`, on a partition with
consistent starting indices whose part `p` is small enough for
`LocalIndexType`: the lengths of the earlier ranges of `p` plus the offset in
the enclosing range. -/
theorem local_index_of_owned (gw lw : Nat) (P : Partition) (p : Int) (g : Int)
    (hshape : P.shaped) (hinc : P.increasing_from_zero) (hcons : P.starts_consistent)
    (hlw : 0 < lw) (hle : lw ≤ gw) (hsize : P.local_size p ≤ 2 ^ (lw - 1))
    (hg0 : 0 ≤ g) (hg1 : g < P.size) (hown : owning_part P g = some p) :
    ∃ i, i < P.num_ranges ∧ find_range P g 0 = some i ∧ P.part_ids[i]? = some p ∧
      P.range_bounds.getD i 0 ≤ g ∧ g < P.range_bounds.getD (i + 1) 0 ∧
      local_index gw lw P g = some (P.owned_before p i + (g - P.range_bounds.getD i 0)) := by
  have hn := ranges_pos_of_covered P hinc g hg0 hg1
  obtain ⟨i, lo, hi, hfind, hi_lt, hlo, hhi, hle1, hlt1, -⟩ :=
    find_range_encloses P g 0 hshape hinc hn hg0 hg1
  have hpart : P.part_ids[i]? = some p := by
    simpa [owning_part, hfind] using hown
  have hstart : P.range_starting_indices[i]? = some (P.owned_before p i) := by
    rw [hcons i hi_lt, hpart]
    rfl
  have hlo2 := getD_of_read hlo
  have hhi2 := getD_of_read hhi
  have hnn := owned_before_nonneg P hshape hinc.1 p i (by omega)
  have hnext := owned_before_mono P hshape hinc.1 p (i + 1) P.num_ranges (by omega) (le_refl _)
  rw [owned_before_succ_owned P p i hpart] at hnext
  have hlen : P.range_length i = hi - lo := by
    unfold Partition.range_length
    rw [hlo2, hhi2]
  have hN : P.owned_before p P.num_ranges ≤ 2 ^ (lw - 1) := hsize
  have hpos : (0 : Int) < 2 ^ (lw - 1) := by positivity
  have hfit : fits lw (P.owned_before p i + (g - lo)) := by
    constructor <;> omega
  refine ⟨i, hi_lt, hfind, hpart, by omega, by omega, ?_⟩
  rw [hlo2]
  simp only [local_index, hfind, Option.some_bind]
  exact map_to_local_of_fits gw lw P g i lo _ hlw hle hlo hstart hfit

/-! ## Classification of matrix entries -/

theorem collect_defined_of_all {α : Type} :
    ∀ (l : List (Option α)), (∀ o ∈ l, o ≠ none) →
      ∃ r, collect_defined l = some r ∧ r.map some = l := by
  intro l
  induction l with
  | nil => intro _; exact ⟨[], rfl, rfl⟩
  | cons o rest ih =>
    intro h
    obtain ⟨r, hr, hmap⟩ := ih (fun x hx => h x (List.mem_cons_of_mem _ hx))
    cases o with
    | none => exact absurd rfl (h none (List.mem_cons_self _ _))
    | some x =>
      refine ⟨x :: r, ?_, ?_⟩
      · simp only [collect_defined, hr, Option.map_some']
      · simp only [List.map_cons, hmap]

/-- The classification pass on sorted partitions, for rows and columns below
the sizes of their partitions: it ends with every read in bounds; the local
block is, in input order, the entries whose row and column are owned by `p`,
both translated; the non-local block is, in input order, the entries whose row
is owned by `p` and whose column is not, the row translated, the column kept
and paired with its owning part; and the two blocks together have as many
entries as there are rows owned by `p`. -/
theorem classify_entries_spec {V : Type} (gw lw : Nat) (R C : Partition) (p : Int)
    (hRshape : R.shaped) (hRsorted : R.non_decreasing)
    (hCshape : C.shaped) (hCsorted : C.non_decreasing) :
    ∀ (input : List (matrix_data_entry V)) (row_hint col_hint : Nat),
      row_hint < R.num_ranges → col_hint < C.num_ranges →
      (∀ e ∈ input, e.row < R.size ∧ e.column < C.size) →
      ∃ loc nl, classify_entries gw lw R C p input row_hint col_hint = some (loc, nl) ∧
        loc.map (fun o => (some o.row, some o.column, o.value)) =
          (input.filter (fun e => owning_part R e.row = some p ∧
              owning_part C e.column = some p)).map
            (fun e => (local_index gw lw R e.row, local_index gw lw C e.column, e.value)) ∧
        nl.map (fun x => (some x.1, some x.2.row, x.2.column, x.2.value)) =
          (input.filter (fun e => owning_part R e.row = some p ∧
              ¬ owning_part C e.column = some p)).map
            (fun e => (owning_part C e.column, local_index gw lw R e.row, e.column,
              e.value)) ∧
        loc.length + nl.length =
          (input.filter (fun e => owning_part R e.row = some p)).length := by
  intro input
  induction input with
  | nil =>
    intro rh ch _ _ _
    exact ⟨[], [], rfl, rfl, rfl, rfl⟩
  | cons e rest ih =>
    intro rh ch hrh hch hcov
    have hrest : ∀ x ∈ rest, x.row < R.size ∧ x.column < C.size :=
      fun x hx => hcov x (List.mem_cons_of_mem _ hx)
    obtain ⟨he1, he2⟩ := hcov e (List.mem_cons_self _ _)
    obtain ⟨rr, rpart, lrow, hrr, hfindr, hfindr0, hrpart, hmapr⟩ :=
      lookup_defined gw lw R e.row rh hRshape hRsorted hrh he1
    have hn : 0 < R.num_ranges := by omega
    have hownr : owning_part R e.row = some rpart := by
      simp only [owning_part, hfindr0, Option.some_bind, hrpart]
    have hlocr : local_index gw lw R e.row = some lrow := by
      simp only [local_index, hfindr0, Option.some_bind, hmapr]
    by_cases hp : rpart = p
    · obtain ⟨cr, cpart, lcol, hcr, hfindc, hfindc0, hcpart, hmapc⟩ :=
        lookup_defined gw lw C e.column ch hCshape hCsorted hch he2
      have hownc : owning_part C e.column = some cpart := by
        simp only [owning_part, hfindc0, Option.some_bind, hcpart]
      have hlocc : local_index gw lw C e.column = some lcol := by
        simp only [local_index, hfindc0, Option.some_bind, hmapc]
      obtain ⟨loc, nl, hcl, h1, h2, h3⟩ := ih rr cr hrr hcr hrest
      have hrp : owning_part R e.row = some p := by rw [hownr, hp]
      by_cases hq : cpart = p
      · have hcp : owning_part C e.column = some p := by rw [hownc, hq]
        refine ⟨⟨lrow, lcol, e.value⟩ :: loc, nl, ?_, ?_, ?_, ?_⟩
        · simp only [classify_entries, hfindr, hrpart, if_pos hp, hmapr, hfindc, hcpart,
            if_pos hq, hmapc, hcl, Option.map_some']
        · simp [List.filter_cons, hrp, hcp, h1, hlocr, hlocc]
        · simp [List.filter_cons, hrp, hcp, h2]
        · simp [List.filter_cons, hrp, ← h3]
          omega
      · have hcp : ¬ owning_part C e.column = some p := by
          rw [hownc]; intro h; exact hq (Option.some.inj h)
        refine ⟨loc, (cpart, ⟨lrow, e.column, e.value⟩) :: nl, ?_, ?_, ?_, ?_⟩
        · simp only [classify_entries, hfindr, hrpart, if_pos hp, hmapr, hfindc, hcpart,
            if_neg hq, hcl, Option.map_some']
        · simp [List.filter_cons, hrp, hcp, h1]
        · simp [List.filter_cons, hrp, hq, h2, hlocr, hownc]
        · simp [List.filter_cons, hrp, ← h3]
          omega
    · obtain ⟨loc, nl, hcl, h1, h2, h3⟩ := ih rr ch hrr hch hrest
      have hrp : ¬ owning_part R e.row = some p := by
        rw [hownr]; intro h; exact hp (Option.some.inj h)
      refine ⟨loc, nl, ?_, ?_, ?_, ?_⟩
      · simp only [classify_entries, hfindr, hrpart, if_neg hp, hcl]
      · simp [List.filter_cons, hrp, h1]
      · simp [List.filter_cons, hrp, h2]
      · simp [List.filter_cons, hrp, h3]

/-- The matrix kernel on sorted partitions with at least one range each, for
rows and columns below the sizes of their partitions: classification and
gathering both succeed, and the nine arrays are built from the two blocks. -/
theorem build_local_nonlocal_blocks {V : Type} (gw lw : Nat) (R C : Partition) (p : Int)
    (input : List (matrix_data_entry V))
    (hRshape : R.shaped) (hRsorted : R.non_decreasing) (hRn : 0 < R.num_ranges)
    (hCshape : C.shaped) (hCsorted : C.non_decreasing) (hCn : 0 < C.num_ranges)
    (hcov : ∀ e ∈ input, e.row < R.size ∧ e.column < C.size) :
    ∃ loc nl gather d,
      classify_entries gw lw R C p input 0 0 = some (loc, nl) ∧
      gather.map some = (compact_columns nl).map (fun k => local_index gw lw C k.2) ∧
      build_local_nonlocal gw lw R C p input = some d ∧
      d.local_row_idxs = loc.map (fun o => o.row) ∧
      d.local_col_idxs = loc.map (fun o => o.column) ∧
      d.local_values = loc.map (fun o => o.value) ∧
      d.non_local_row_idxs = nl.map (fun x => x.2.row) ∧
      d.non_local_col_idxs =
        nl.map (fun x => (((compact_columns nl).indexOf (x.1, x.2.column) : Nat) : Int)) ∧
      d.non_local_values = nl.map (fun x => x.2.value) ∧
      d.gather_idxs = gather ∧
      d.recv_sizes = (List.range R.num_parts).map
        (fun (q : Nat) =>
          ((((compact_columns nl).filter (fun k => k.1 = (q : Int))).length : Nat) : Int)) ∧
      d.local_to_global_col = (compact_columns nl).map (fun k => k.2) := by
  obtain ⟨loc, nl, hcl, h1, h2, h3⟩ :=
    classify_entries_spec gw lw R C p hRshape hRsorted hCshape hCsorted input 0 0 hRn hCn hcov
  have hdef : ∀ o ∈ (compact_columns nl).map (fun k => local_index gw lw C k.2), o ≠ none := by
    intro o ho
    simp only [List.mem_map] at ho
    obtain ⟨k, hk, rfl⟩ := ho
    have hk2 : k ∈ nl.map (fun x => (x.1, x.2.column)) := by
      have := (List.mem_insertionSort key_le).mp hk
      exact List.mem_dedup.mp this
    simp only [List.mem_map] at hk2
    obtain ⟨x, hx, rfl⟩ := hk2
    have hx2 : (some x.1, some x.2.row, x.2.column, x.2.value) ∈
        nl.map (fun x => (some x.1, some x.2.row, x.2.column, x.2.value)) :=
      List.mem_map.mpr ⟨x, hx, rfl⟩
    rw [h2] at hx2
    simp only [List.mem_map, List.mem_filter, Prod.mk.injEq] at hx2
    obtain ⟨e, ⟨he, -⟩, -, -, hcol, -⟩ := hx2
    obtain ⟨cr, cpart, lcol, -, -, hfindc0, -, hmapc⟩ :=
      lookup_defined gw lw C e.column 0 hCshape hCsorted hCn (hcov e he).2
    simp only [← hcol, local_index, hfindc0, Option.some_bind, hmapc]
    exact Option.some_ne_none _
  obtain ⟨gather, hg, hgmap⟩ := collect_defined_of_all _ hdef
  refine ⟨loc, nl, gather,
    { local_row_idxs := loc.map (fun o => o.row)
      local_col_idxs := loc.map (fun o => o.column)
      local_values := loc.map (fun o => o.value)
      non_local_row_idxs := nl.map (fun x => x.2.row)
      non_local_col_idxs :=
        nl.map (fun x => (((compact_columns nl).indexOf (x.1, x.2.column) : Nat) : Int))
      non_local_values := nl.map (fun x => x.2.value)
      gather_idxs := gather
      recv_sizes := (List.range R.num_parts).map
        (fun (q : Nat) =>
          ((((compact_columns nl).filter (fun k => k.1 = (q : Int))).length : Nat) : Int))
      local_to_global_col := (compact_columns nl).map (fun k => k.2) },
    hcl, hgmap, ?_, rfl, rfl, rfl, rfl, rfl, rfl, rfl, rfl, rfl⟩
  simp only [build_local_nonlocal, hcl, hg]

theorem compact_columns_nil {V : Type} :
    compact_columns ([] : List (Int × matrix_data_entry V)) = [] := by
  simp [compact_columns]

/-- The matrix kernel on the empty input. -/
theorem build_local_nonlocal_nil {V : Type} (gw lw : Nat) (R C : Partition) (p : Int) :
    build_local_nonlocal gw lw R C p ([] : List (matrix_data_entry V)) =
      some ⟨[], [], [], [], [], [], [], (List.range R.num_parts).map (fun _ => 0), []⟩ := by
  simp only [build_local_nonlocal, classify_entries, compact_columns_nil, List.map_nil,
    collect_defined, List.filter_nil, List.length_nil, Nat.cast_zero]

/-- Inside range `k` the owning part is `part_ids[k]`. -/
theorem owning_part_in_range (P : Partition) (hshape : P.shaped)
    (hinc : P.increasing_from_zero) (k : Nat) (hk : k < P.num_ranges) (g : Int)
    (h1 : P.range_bounds.getD k 0 ≤ g) (h2 : g < P.range_bounds.getD (k + 1) 0) :
    owning_part P g = P.part_ids[k]? := by
  have hsorted : P.non_decreasing := pairwise_le_of_pairwise_lt hinc.1
  have hb0 : (0 : Int) ≤ P.range_bounds.getD k 0 :=
    read_le_of_pairwise_le hsorted (Nat.zero_le k) hinc.2 (read_bound P hshape k (by omega))
  have hbn : P.range_bounds.getD (k + 1) 0 ≤ P.size :=
    read_le_of_pairwise_le hsorted (show k + 1 ≤ P.num_ranges by omega)
      (read_bound P hshape (k + 1) (by omega)) (read_bound P hshape P.num_ranges (le_refl _))
  obtain ⟨j, lo, hi, hfind, -, -, -, -, -, huniq⟩ :=
    find_range_encloses P g 0 hshape hinc (by omega) (by omega) (by omega)
  have hkj : k = j := huniq k _ _ (read_bound P hshape k (by omega))
    (read_bound P hshape (k + 1) (by omega)) h1 h2
  subst hkj
  simp only [owning_part, hfind, Option.some_bind]

/-- The global indices below `range_bounds[k]` that `p` owns are as many as the
total length of the ranges before `k` that `p` owns. -/
theorem owned_count_upto (P : Partition) (p : Int) (hshape : P.shaped)
    (hinc : P.increasing_from_zero) :
    ∀ k, k ≤ P.num_ranges →
      ((((List.range (P.range_bounds.getD k 0).toNat).filter
        (fun (g : Nat) => owning_part P (g : Int) = some p)).length : Nat) : Int) =
        P.owned_before p k := by
  have hsorted : P.non_decreasing := pairwise_le_of_pairwise_lt hinc.1
  intro k
  induction k with
  | zero =>
    intro _
    rw [getD_of_read hinc.2]
    simp [Partition.owned_before]
  | succ k ih =>
    intro hk
    have ih2 := ih (by omega)
    have hb0 : (0 : Int) ≤ P.range_bounds.getD k 0 :=
      read_le_of_pairwise_le hsorted (Nat.zero_le k) hinc.2 (read_bound P hshape k (by omega))
    have hpos := range_length_pos P hshape hinc.1 k (by omega)
    have hlen : P.range_length k = P.range_bounds.getD (k + 1) 0 - P.range_bounds.getD k 0 :=
      rfl
    obtain ⟨a, ha⟩ : ∃ a : Nat, P.range_bounds.getD k 0 = (a : Int) :=
      ⟨(P.range_bounds.getD k 0).toNat, (Int.toNat_of_nonneg hb0).symm⟩
    obtain ⟨b, hb⟩ : ∃ b : Nat, P.range_length k = (b : Int) :=
      ⟨(P.range_length k).toNat, (Int.toNat_of_nonneg (le_of_lt hpos)).symm⟩
    have hnext : P.range_bounds.getD (k + 1) 0 = ((a + b : Nat) : Int) := by
      push_cast; omega
    rw [hnext, Int.toNat_ofNat, List.range_add, List.filter_append, List.length_append]
    rw [ha, Int.toNat_ofNat] at ih2
    push_cast
    rw [ih2]
    simp only [Partition.owned_before]
    congr 1
    by_cases hp : P.part_ids[k]? = some p
    · rw [if_pos hp, hb]
      congr 1
      rw [List.filter_eq_self.mpr, List.length_map, List.length_range]
      intro g hg
      simp only [List.mem_map, List.mem_range] at hg
      obtain ⟨j, hj, rfl⟩ := hg
      have := owning_part_in_range P hshape hinc k (by omega) ((a + j : Nat) : Int)
        (by push_cast; omega) (by push_cast; omega)
      push_cast at this
      simp [this, hp]
    · rw [if_neg hp]
      have : ((List.map (fun x => a + x) (List.range b)).filter
          (fun (g : Nat) => owning_part P (g : Int) = some p)) = [] := by
        rw [List.filter_eq_nil_iff]
        intro g hg
        simp only [List.mem_map, List.mem_range] at hg
        obtain ⟨j, hj, rfl⟩ := hg
        have := owning_part_in_range P hshape hinc k (by omega) ((a + j : Nat) : Int)
          (by push_cast; omega) (by push_cast; omega)
        push_cast at this
        simp [this, hp]
      rw [this]
      rfl

/-- The number of global indices `p` owns is the total length of its ranges. -/
theorem owned_count_eq (P : Partition) (p : Int) (hshape : P.shaped)
    (hinc : P.increasing_from_zero) : (P.owned_count p : Int) = P.local_size p := by
  unfold Partition.owned_count Partition.local_size Partition.size
  exact owned_count_upto P p hshape hinc P.num_ranges (le_refl _)

/-! ## Compaction of the non-local columns -/

theorem key_le_total (a b : Int × Int) : key_le a b ∨ key_le b a := by
  unfold key_le
  omega

theorem key_le_trans (a b c : Int × Int) (h1 : key_le a b) (h2 : key_le b c) :
    key_le a c := by
  unfold key_le at *
  omega

instance : IsTotal (Int × Int) key_le := ⟨key_le_total⟩

instance : IsTrans (Int × Int) key_le := ⟨key_le_trans⟩

theorem key_le_antisymm (a b : Int × Int) (h1 : key_le a b) (h2 : key_le b a) : a = b := by
  unfold key_le at *
  apply Prod.ext <;> omega

theorem mem_compact_columns {V : Type} (nl : List (Int × matrix_data_entry V))
    (k : Int × Int) : k ∈ compact_columns nl ↔ ∃ x ∈ nl, (x.1, x.2.column) = k := by
  unfold compact_columns
  rw [List.mem_insertionSort, List.mem_dedup, List.mem_map]

theorem compact_columns_nodup {V : Type} (nl : List (Int × matrix_data_entry V)) :
    (compact_columns nl).Nodup :=
  (List.perm_insertionSort key_le _).nodup_iff.mpr (List.nodup_dedup _)

theorem compact_columns_sorted {V : Type} (nl : List (Int × matrix_data_entry V)) :
    (compact_columns nl).Pairwise key_le :=
  List.sorted_insertionSort key_le _

/-- In a duplicate-free list sorted by `key_le`, earlier keys are strictly
smaller: a smaller part, or the same part and a smaller column. -/
theorem strict_of_sorted_nodup (l : List (Int × Int)) (hs : l.Pairwise key_le)
    (hn : l.Nodup) :
    l.Pairwise (fun a b => a.1 < b.1 ∨ (a.1 = b.1 ∧ a.2 < b.2)) := by
  have h := hs.and hn
  refine h.imp ?_
  intro a b hab
  obtain ⟨hle, hne⟩ := hab
  unfold key_le at hle
  rcases hle with h1 | ⟨h1, h2⟩
  · exact Or.inl h1
  · refine Or.inr ⟨h1, lt_of_le_of_ne h2 ?_⟩
    intro h3
    exact hne (Prod.ext h1 h3)

/-- Projection to the second component keeps a list duplicate-free, and keeps
positions, when the first component is a function of the second. -/
theorem nodup_map_snd_of_determined (f : Int → Option Int) (l : List (Int × Int))
    (hf : ∀ k ∈ l, f k.2 = some k.1) (hn : l.Nodup) : (l.map (fun k => k.2)).Nodup := by
  refine (List.nodup_map_iff_inj_on hn).mpr ?_
  intro a ha b hb hab
  have h1 := hf a ha
  have h2 := hf b hb
  rw [hab, h2] at h1
  exact Prod.ext (Option.some.inj h1).symm hab

theorem indexOf_cons_self_eq {α : Type} [BEq α] [LawfulBEq α] (a : α) (l : List α) :
    (a :: l).indexOf a = 0 := by
  rw [List.indexOf_cons, beq_self_eq_true]
  rfl

theorem indexOf_cons_of_ne {α : Type} [BEq α] [LawfulBEq α] (a k : α) (l : List α)
    (h : a ≠ k) : (a :: l).indexOf k = l.indexOf k + 1 := by
  rw [List.indexOf_cons, beq_eq_false_iff_ne.mpr h]
  rfl

theorem indexOf_lt_of_mem {α : Type} [BEq α] [LawfulBEq α] :
    ∀ (l : List α) (k : α), k ∈ l → l.indexOf k < l.length := by
  intro l
  induction l with
  | nil => intro k hk; exact absurd hk (List.not_mem_nil k)
  | cons a rest ih =>
    intro k hk
    by_cases h : a = k
    · subst h
      rw [indexOf_cons_self_eq]
      simp
    · have hk2 : k ∈ rest := by
        rcases List.mem_cons.mp hk with h2 | h2
        · exact absurd h2.symm h
        · exact h2
      rw [indexOf_cons_of_ne a k rest h, List.length_cons]
      have := ih k hk2
      omega

theorem read_indexOf_of_mem {α : Type} [BEq α] [LawfulBEq α] :
    ∀ (l : List α) (k : α), k ∈ l → l[l.indexOf k]? = some k := by
  intro l
  induction l with
  | nil => intro k hk; exact absurd hk (List.not_mem_nil k)
  | cons a rest ih =>
    intro k hk
    by_cases h : a = k
    · subst h
      rw [indexOf_cons_self_eq, List.getElem?_cons_zero]
    · have hk2 : k ∈ rest := by
        rcases List.mem_cons.mp hk with h2 | h2
        · exact absurd h2.symm h
        · exact h2
      rw [indexOf_cons_of_ne a k rest h, List.getElem?_cons_succ]
      exact ih k hk2

theorem indexOf_map_snd_of_determined (f : Int → Option Int) :
    ∀ (l : List (Int × Int)), (∀ k ∈ l, f k.2 = some k.1) → ∀ k ∈ l,
      l.indexOf k = (l.map (fun k => k.2)).indexOf k.2 := by
  intro l
  induction l with
  | nil => intro _ k hk; exact absurd hk (List.not_mem_nil k)
  | cons a rest ih =>
    intro hf k hk
    by_cases hak : a = k
    · subst hak
      rw [List.map_cons, indexOf_cons_self_eq, indexOf_cons_self_eq]
    · have hk2 : k ∈ rest := by
        rcases List.mem_cons.mp hk with h | h
        · exact absurd h.symm hak
        · exact h
      have hne : a.2 ≠ k.2 := by
        intro h
        have h1 := hf a (List.mem_cons_self _ _)
        have h2 := hf k hk
        rw [h, h2] at h1
        exact hak (Prod.ext (Option.some.inj h1).symm h)
      rw [indexOf_cons_of_ne a k rest hak, List.map_cons, indexOf_cons_of_ne _ _ _ hne,
        ih (fun x hx => hf x (List.mem_cons_of_mem _ hx)) k hk2]

/-- The matrix kernel on shaped partitions with bounds strictly increasing from
`0` that cover every row and column of the input: it returns its nine arrays;
the non-local block pairs, in input order, the owning part and the global column
of each entry whose row is owned by `p` and whose column is not; and the
compaction arrays are built from the compacted columns of that block. -/
theorem build_local_nonlocal_result {V : Type} (gw lw : Nat) (R C : Partition) (p : Int)
    (input : List (matrix_data_entry V))
    (hRshape : R.shaped) (hRinc : R.increasing_from_zero)
    (hCshape : C.shaped) (hCinc : C.increasing_from_zero)
    (hcov : ∀ e ∈ input, (0 ≤ e.row ∧ e.row < R.size) ∧ (0 ≤ e.column ∧ e.column < C.size)) :
    ∃ (nl : List (Int × matrix_data_entry V)) (gather : List Int) (d : decomposition V),
      build_local_nonlocal gw lw R C p input = some d ∧
      nl.map (fun x => (some x.1, x.2.column)) =
        (input.filter (fun e => owning_part R e.row = some p ∧
          ¬ owning_part C e.column = some p)).map
          (fun e => (owning_part C e.column, e.column)) ∧
      gather.map some = (compact_columns nl).map (fun k => local_index gw lw C k.2) ∧
      d.non_local_col_idxs =
        nl.map (fun x => (((compact_columns nl).indexOf (x.1, x.2.column) : Nat) : Int)) ∧
      d.gather_idxs = gather ∧
      d.recv_sizes = (List.range R.num_parts).map
        (fun (q : Nat) =>
          ((((compact_columns nl).filter (fun k => k.1 = (q : Int))).length : Nat) : Int)) ∧
      d.local_to_global_col = (compact_columns nl).map (fun k => k.2) := by
  cases input with
  | nil =>
    refine ⟨[], [], _, build_local_nonlocal_nil gw lw R C p, rfl, ?_, rfl, rfl, ?_, ?_⟩
    · simp [compact_columns_nil]
    · simp [compact_columns_nil]
    · simp [compact_columns_nil]
  | cons e0 rest =>
    obtain ⟨⟨r0, r1⟩, c0, c1⟩ := hcov e0 (List.mem_cons_self _ _)
    have hRn := ranges_pos_of_covered R hRinc e0.row r0 r1
    have hCn := ranges_pos_of_covered C hCinc e0.column c0 c1
    obtain ⟨loc, nl, gather, d, hcl, hg, hd, -, -, -, -, h5, -, h7, h8, h9⟩ :=
      build_local_nonlocal_blocks gw lw R C p (e0 :: rest) hRshape
        (pairwise_le_of_pairwise_lt hRinc.1) hRn hCshape (pairwise_le_of_pairwise_lt hCinc.1) hCn
        (fun e he => ⟨(hcov e he).1.2, (hcov e he).2.2⟩)
    obtain ⟨loc2, nl2, hcl2, -, hnl, -⟩ :=
      classify_entries_spec gw lw R C p hRshape (pairwise_le_of_pairwise_lt hRinc.1) hCshape
        (pairwise_le_of_pairwise_lt hCinc.1) (e0 :: rest) 0 0 hRn hCn
        (fun e he => ⟨(hcov e he).1.2, (hcov e he).2.2⟩)
    rw [hcl] at hcl2
    obtain ⟨rfl, rfl⟩ := Prod.mk.inj (Option.some.inj hcl2)
    refine ⟨nl, gather, d, hd, ?_, hg, h5, h7, h8, h9⟩
    have := congrArg
      (List.map (fun t : Option Int × Option Int × Int × V => (t.1, t.2.2.1))) hnl
    simpa [List.map_map, Function.comp_def] using this

/-- Every compacted column is the column of an input entry whose row is owned
by `p` and whose column is owned by another part, and is paired with that
owning part. -/
theorem compact_columns_owned {V : Type} (C : Partition)
    (nl : List (Int × matrix_data_entry V)) (others : List (matrix_data_entry V))
    (hnl : nl.map (fun x => (some x.1, x.2.column)) =
      others.map (fun e => (owning_part C e.column, e.column))) :
    ∀ k, k ∈ compact_columns nl ↔
      ∃ e ∈ others, e.column = k.2 ∧ owning_part C e.column = some k.1 := by
  intro k
  rw [mem_compact_columns]
  constructor
  · rintro ⟨x, hx, rfl⟩
    have hx2 : (some x.1, x.2.column) ∈ nl.map (fun x => (some x.1, x.2.column)) :=
      List.mem_map.mpr ⟨x, hx, rfl⟩
    rw [hnl] at hx2
    simp only [List.mem_map, Prod.mk.injEq] at hx2
    obtain ⟨e, he, h1, h2⟩ := hx2
    exact ⟨e, he, h2, h1⟩
  · rintro ⟨e, he, h1, h2⟩
    have he2 : (owning_part C e.column, e.column) ∈
        others.map (fun e => (owning_part C e.column, e.column)) :=
      List.mem_map.mpr ⟨e, he, rfl⟩
    rw [← hnl] at he2
    simp only [List.mem_map, Prod.mk.injEq] at he2
    obtain ⟨x, hx, h3, h4⟩ := he2
    refine ⟨x, hx, ?_⟩
    rw [h2] at h3
    exact Prod.ext (Option.some.inj h3) (h4.trans h1)

/-! ## Receive sizes -/

theorem sum_indicator_range (a : Int) :
    ∀ n : Nat, ((List.range n).map (fun (q : Nat) => if a = (q : Int) then (1 : Int) else 0)).sum =
      if 0 ≤ a ∧ a < (n : Int) then 1 else 0 := by
  intro n
  induction n with
  | zero =>
    have h0 : ¬ (0 ≤ a ∧ a < ((0 : Nat) : Int)) := by omega
    rw [if_neg h0]
    rfl
  | succ n ih =>
    rw [List.range_succ, List.map_append, List.sum_append, ih]
    simp only [List.map_cons, List.map_nil, List.sum_cons, List.sum_nil, add_zero]
    push_cast
    split_ifs <;> omega

/-- Counting the keys of each part below `n` counts every key once, when all
parts lie in `[0, n)`. -/
theorem sum_counts_by_part (n : Nat) :
    ∀ (l : List (Int × Int)), (∀ k ∈ l, 0 ≤ k.1 ∧ k.1 < (n : Int)) →
      ((List.range n).map
        (fun (q : Nat) => (((l.filter (fun k => k.1 = (q : Int))).length : Nat) : Int))).sum =
        (l.length : Int) := by
  intro l
  induction l with
  | nil => intro _; simp
  | cons a rest ih =>
    intro h
    have hrest := ih (fun k hk => h k (List.mem_cons_of_mem _ hk))
    have ha := h a (List.mem_cons_self _ _)
    have hsplit : ∀ q : Nat,
        ((((a :: rest).filter (fun k => k.1 = (q : Int))).length : Nat) : Int) =
          (((rest.filter (fun k => k.1 = (q : Int))).length : Nat) : Int) +
            (if a.1 = (q : Int) then 1 else 0) := by
      intro q
      by_cases hq : a.1 = (q : Int)
      · simp [List.filter_cons, hq]
      · simp [List.filter_cons, hq]
    simp only [hsplit]
    rw [List.sum_map_add, hrest, sum_indicator_range a.1 n, if_pos ha]
    simp

theorem owning_part_mem (P : Partition) (g q : Int) (h : owning_part P g = some q) :
    q ∈ P.part_ids := by
  unfold owning_part at h
  cases hf : find_range P g 0 with
  | none => rw [hf] at h; simp at h
  | some r =>
    rw [hf] at h
    simp only [Option.some_bind] at h
    obtain ⟨hr, rfl⟩ := List.getElem?_eq_some.mp h
    exact List.getElem_mem _


/-! ## Segmented reduction -/

/-- Inside a segment with key `k`, for a predicate that is equality of keys and
an addition that is associative: the rest of the input is further values of the
segment followed by runs (key and non-empty values) whose neighbours differ and
the first of which differs from `k`; the loop writes `k` with the sum of all
values of the segment, then one entry per run. -/
theorem reduce_segment_loop_spec {K V : Type} [AddCommMonoid V] (binary_pred : K → K → Bool)
    (hpred : ∀ a b, binary_pred a b = true ↔ a = b) :
    ∀ (rest : List (K × V)) (k : K) (acc : V),
      ∃ (vs : List V) (runs : List (K × List V)),
        rest = vs.map (fun v => (k, v)) ++
          runs.flatMap (fun r => r.2.map (fun v => (r.1, v))) ∧
        (∀ r ∈ runs, r.2 ≠ []) ∧
        runs.Chain' (fun r s => r.1 ≠ s.1) ∧
        (∀ r ∈ runs.head?, r.1 ≠ k) ∧
        reduce_segment_loop binary_pred (fun a b => a + b) k k acc rest =
          (k, acc + vs.sum) :: runs.map (fun r => (r.1, r.2.sum)) := by
  intro rest
  induction rest with
  | nil =>
    intro k acc
    exact ⟨[], [], rfl, by simp, List.chain'_nil, by simp, by simp [reduce_segment_loop]⟩
  | cons x rest ih =>
    intro k acc
    obtain ⟨k2, v⟩ := x
    by_cases hk : k = k2
    · subst hk
      obtain ⟨vs, runs, h1, h2, h3, h4, h5⟩ := ih k (acc + v)
      refine ⟨v :: vs, runs, ?_, h2, h3, h4, ?_⟩
      · rw [h1]
        rfl
      · simp only [reduce_segment_loop, (hpred k k).mpr rfl, if_true, h5, List.sum_cons,
          add_assoc]
    · obtain ⟨vs, runs, h1, h2, h3, h4, h5⟩ := ih k2 v
      have hp : ¬ binary_pred k k2 = true := fun h => hk ((hpred k k2).mp h)
      refine ⟨[], (k2, v :: vs) :: runs, ?_, ?_, ?_, ?_, ?_⟩
      · rw [h1]
        simp [List.flatMap]
      · intro r hr
        rcases List.mem_cons.mp hr with h | h
        · subst h
          exact List.cons_ne_nil _ _
        · exact h2 r h
      · exact List.Chain'.cons' h3 (fun r hr => Ne.symm (h4 r hr))
      · intro r hr
        simp only [List.head?_cons, Option.mem_def, Option.some.injEq] at hr
        subst hr
        exact Ne.symm hk
      · simp only [reduce_segment_loop, hp, if_false, h5, List.sum_nil, add_zero,
          List.map_cons, List.sum_cons, Bool.false_eq_true]

/-- Segmented reduction by key equality: the input is a sequence of runs (key
and non-empty values) whose neighbours have different keys, and the output has
one entry per run, in order, with the key and the sum of the values. -/
theorem reduce_by_segment_runs {K V : Type} [AddCommMonoid V] (binary_pred : K → K → Bool)
    (hpred : ∀ a b, binary_pred a b = true ↔ a = b) (input : List (K × V)) :
    ∃ runs : List (K × List V),
      input = runs.flatMap (fun r => r.2.map (fun v => (r.1, v))) ∧
      (∀ r ∈ runs, r.2 ≠ []) ∧
      runs.Chain' (fun r s => r.1 ≠ s.1) ∧
      reduce_by_segment binary_pred (fun a b => a + b) input =
        runs.map (fun r => (r.1, r.2.sum)) := by
  cases input with
  | nil => exact ⟨[], rfl, by simp, List.chain'_nil, rfl⟩
  | cons x rest =>
    obtain ⟨k, v⟩ := x
    obtain ⟨vs, runs, h1, h2, h3, h4, h5⟩ :=
      reduce_segment_loop_spec binary_pred hpred rest k v
    refine ⟨(k, v :: vs) :: runs, ?_, ?_, ?_, ?_⟩
    · rw [h1]
      simp [List.flatMap]
    · intro r hr
      rcases List.mem_cons.mp hr with h | h
      · subst h
        exact List.cons_ne_nil _ _
      · exact h2 r h
    · exact List.Chain'.cons' h3 (fun r hr => Ne.symm (h4 r hr))
    · simp only [reduce_by_segment, h5, List.map_cons, List.sum_cons]

theorem tuple_less_iff (x y : Int × Int) :
    tuple_less x y = true ↔ x.1 < y.1 ∨ (x.1 = y.1 ∧ x.2 < y.2) := by
  simp only [tuple_less, Bool.or_eq_true, Bool.and_eq_true, Bool.not_eq_true',
    decide_eq_true_eq, decide_eq_false_iff_not]
  omega

theorem tuple_less_false_iff (x y : Int × Int) :
    tuple_less x y = false ↔ ¬ (x.1 < y.1 ∨ (x.1 = y.1 ∧ x.2 < y.2)) := by
  rw [← tuple_less_iff, Bool.not_eq_true]

theorem tuple_equal_iff (x y : Int × Int) : tuple_equal (x.1, x.2) (y.1, y.2) = true ↔ x = y := by
  simp only [tuple_equal, Bool.and_eq_true, decide_eq_true_eq]
  constructor
  · rintro ⟨h1, h2⟩
    exact Prod.ext h1 h2
  · rintro rfl
    exact ⟨rfl, rfl⟩

/-- Runs in sorted order whose neighbours have different keys have strictly
increasing keys. -/
theorem runs_strictly_increasing {V : Type} :
    ∀ (runs : List ((Int × Int) × List V)),
      runs.Pairwise (fun r s => tuple_less s.1 r.1 = false) →
      runs.Chain' (fun r s => r.1 ≠ s.1) →
      runs.Pairwise (fun r s => tuple_less r.1 s.1 = true) := by
  intro runs
  induction runs with
  | nil => intro _ _; exact List.Pairwise.nil
  | cons r rest ih =>
    intro hs hc
    rw [List.pairwise_cons] at hs ⊢
    rw [List.chain'_cons'] at hc
    refine ⟨?_, ih hs.2 hc.2⟩
    cases rest with
    | nil => intro s hs2; exact absurd hs2 (List.not_mem_nil s)
    | cons h t =>
      have hne : r.1 ≠ h.1 := hc.1 h rfl
      have hrh := (tuple_less_false_iff _ _).mp (hs.1 h (List.mem_cons_self _ _))
      have hlt : tuple_less r.1 h.1 = true := by
        rw [tuple_less_iff]
        have : ¬ (r.1.1 = h.1.1 ∧ r.1.2 = h.1.2) := fun hh => hne (Prod.ext hh.1 hh.2)
        omega
      intro s hs2
      rcases List.mem_cons.mp hs2 with h1 | h1
      · subst h1
        exact hlt
      · have hhs := (tuple_less_false_iff _ _).mp ((List.pairwise_cons.mp hs.2).1 s h1)
        rw [tuple_less_iff] at hlt ⊢
        omega

/-- When the keys of the runs are pairwise different, the values of the input
entries with the key of a run are the values of that run. -/
theorem values_of_key {K V : Type} [DecidableEq K] :
    ∀ (runs : List (K × List V)), runs.Pairwise (fun r s => r.1 ≠ s.1) → ∀ r ∈ runs,
      ((runs.flatMap (fun r => r.2.map (fun v => (r.1, v)))).filter
        (fun x => x.1 = r.1)).map (fun x => x.2) = r.2 := by
  intro runs
  induction runs with
  | nil => intro _ r hr; exact absurd hr (List.not_mem_nil r)
  | cons h t ih =>
    intro hp r hr
    rw [List.pairwise_cons] at hp
    have hself : ∀ (s : K × List V),
        ((s.2.map (fun v => (s.1, v))).filter (fun x => x.1 = s.1)).map (fun x => x.2) =
          s.2 := by
      intro s
      rw [List.filter_eq_self.mpr]
      · simp [List.map_map, Function.comp_def]
      · intro x hx
        simp only [List.mem_map] at hx
        obtain ⟨v, -, rfl⟩ := hx
        simp
    have hother : ∀ (s : K × List V) (k : K), s.1 ≠ k →
        (s.2.map (fun v => (s.1, v))).filter (fun x => x.1 = k) = [] := by
      intro s k hsk
      rw [List.filter_eq_nil_iff]
      intro x hx
      simp only [List.mem_map] at hx
      obtain ⟨v, -, rfl⟩ := hx
      simpa using hsk
    have hcons : (h :: t).flatMap (fun r => r.2.map (fun v => (r.1, v))) =
        h.2.map (fun v => (h.1, v)) ++ t.flatMap (fun r => r.2.map (fun v => (r.1, v))) := by
      simp [List.flatMap]
    rw [hcons, List.filter_append, List.map_append]
    rcases List.mem_cons.mp hr with h1 | h1
    · subst h1
      have htail : (t.flatMap (fun r => r.2.map (fun v => (r.1, v)))).filter
          (fun x => x.1 = r.1) = [] := by
        rw [List.filter_eq_nil_iff]
        intro x hx
        simp only [List.mem_flatMap, List.mem_map] at hx
        obtain ⟨s, hs, v, -, rfl⟩ := hx
        simpa using Ne.symm (hp.1 s hs)
      rw [hself, htail]
      simp
    · rw [hother h r.1 (hp.1 r h1), ih hp.2 r h1]
      simp

/-! ## Ranges of a mapping -/

/-- The merged runs of a mapping: expanding each run to its part id repeated
gives back the mapping; no run is empty; neighbouring runs have different part
ids. -/
theorem merge_runs_spec :
    ∀ m : List Int,
      (merge_runs m).flatMap (fun r => List.replicate r.2 r.1) = m ∧
      (∀ r ∈ merge_runs m, 0 < r.2) ∧
      (merge_runs m).Chain' (fun r s => r.1 ≠ s.1) := by
  intro m
  induction m with
  | nil => exact ⟨rfl, by simp [merge_runs], by simp [merge_runs]⟩
  | cons q rest ih =>
    obtain ⟨ih1, ih2, ih3⟩ := ih
    cases h : merge_runs rest with
    | nil =>
      rw [h] at ih1
      have hrest : rest = [] := by simpa using ih1.symm
      subst hrest
      refine ⟨?_, ?_, ?_⟩
      · simp [merge_runs]
      · simp [merge_runs]
      · simp [merge_runs]
    | cons r ranges =>
      obtain ⟨q2, k⟩ := r
      rw [h] at ih1 ih2 ih3
      have hexp : List.replicate k q2 ++
          ranges.flatMap (fun r => List.replicate r.2 r.1) = rest := by
        simpa [List.flatMap] using ih1
      by_cases hq : q = q2
      · subst hq
        have hm : merge_runs (q :: rest) = (q, k + 1) :: ranges := by
          simp only [merge_runs, h, if_true]
        rw [hm]
        refine ⟨?_, ?_, ?_⟩
        · rw [← hexp]
          simp [List.flatMap, List.replicate_succ]
        · intro r hr
          rcases List.mem_cons.mp hr with h1 | h1
          · subst h1
            exact Nat.succ_pos k
          · exact ih2 r (List.mem_cons_of_mem _ h1)
        · rw [List.chain'_cons'] at ih3 ⊢
          exact ih3
      · have hm : merge_runs (q :: rest) = (q, 1) :: (q2, k) :: ranges := by
          simp only [merge_runs, h, if_neg hq]
        rw [hm]
        refine ⟨?_, ?_, ?_⟩
        · rw [← hexp]
          simp [List.flatMap]
        · intro r hr
          rcases List.mem_cons.mp hr with h1 | h1
          · subst h1
            exact Nat.one_pos
          · exact ih2 r h1
        · exact List.chain'_cons.mpr ⟨hq, ih3⟩

theorem range_bounds_from_length :
    ∀ (ranges : List (Int × Nat)) (pos : Int),
      (range_bounds_from pos ranges).length = ranges.length + 1 := by
  intro ranges
  induction ranges with
  | nil => intro pos; rfl
  | cons r rest ih =>
    intro pos
    obtain ⟨q, k⟩ := r
    simp only [range_bounds_from, List.length_cons, ih]

theorem range_bounds_from_head (ranges : List (Int × Nat)) (pos : Int) :
    (range_bounds_from pos ranges)[0]? = some pos := by
  cases ranges with
  | nil => simp [range_bounds_from]
  | cons r rest =>
    obtain ⟨q, k⟩ := r
    simp [range_bounds_from]

theorem range_bounds_from_increasing :
    ∀ (ranges : List (Int × Nat)) (pos : Int), (∀ r ∈ ranges, 0 < r.2) →
      (range_bounds_from pos ranges).Pairwise (fun a b => a < b) ∧
      ∀ b ∈ range_bounds_from pos ranges, pos ≤ b := by
  intro ranges
  induction ranges with
  | nil =>
    intro pos _
    simp [range_bounds_from]
  | cons r rest ih =>
    intro pos hpos
    obtain ⟨q, k⟩ := r
    have hk : 0 < k := hpos (q, k) (List.mem_cons_self _ _)
    obtain ⟨h1, h2⟩ := ih (pos + (k : Int)) (fun r hr => hpos r (List.mem_cons_of_mem _ hr))
    simp only [range_bounds_from, List.pairwise_cons, List.mem_cons]
    refine ⟨⟨?_, h1⟩, ?_⟩
    · intro b hb
      have := h2 b hb
      omega
    · intro b hb
      rcases hb with rfl | hb
      · exact le_refl _
      · have := h2 b hb
        omega

theorem range_bounds_from_last :
    ∀ (ranges : List (Int × Nat)) (pos : Int),
      (range_bounds_from pos ranges)[ranges.length]? =
        some (pos + ((ranges.flatMap (fun r => List.replicate r.2 r.1)).length : Int)) := by
  intro ranges
  induction ranges with
  | nil => intro pos; simp [range_bounds_from]
  | cons r rest ih =>
    intro pos
    obtain ⟨q, k⟩ := r
    simp only [range_bounds_from, List.length_cons, List.getElem?_cons_succ, ih]
    simp [List.flatMap]
    omega

/-- Every position of the expanded runs lies in one range, whose part id is
the value at that position. -/
theorem range_of_position :
    ∀ (ranges : List (Int × Nat)) (pos : Int) (j : Nat),
      j < (ranges.flatMap (fun r => List.replicate r.2 r.1)).length →
      ∃ i b1 b2, i < ranges.length ∧
        (range_bounds_from pos ranges)[i]? = some b1 ∧
        (range_bounds_from pos ranges)[i + 1]? = some b2 ∧
        b1 ≤ pos + (j : Int) ∧ pos + (j : Int) < b2 ∧
        (ranges.map (fun r => r.1))[i]? =
          (ranges.flatMap (fun r => List.replicate r.2 r.1))[j]? := by
  intro ranges
  induction ranges with
  | nil =>
    intro pos j hj
    simp at hj
  | cons r rest ih =>
    intro pos j hj
    obtain ⟨q, k⟩ := r
    have hexp : ((q, k) :: rest).flatMap (fun r => List.replicate r.2 r.1) =
        List.replicate k q ++ rest.flatMap (fun r => List.replicate r.2 r.1) := by
      simp [List.flatMap]
    rw [hexp] at hj ⊢
    by_cases hjk : j < k
    · refine ⟨0, pos, pos + (k : Int), by simp, range_bounds_from_head _ _, ?_, by omega,
        by omega, ?_⟩
      · simp only [range_bounds_from, List.getElem?_cons_succ, range_bounds_from_head]
      · rw [List.getElem?_append_left (by simpa using hjk)]
        simp [hjk]
    · have hj2 : j - k < (rest.flatMap (fun r => List.replicate r.2 r.1)).length := by
        simp only [List.length_append, List.length_replicate] at hj
        omega
      obtain ⟨i, b1, b2, hi, h1, h2, h3, h4, h5⟩ := ih (pos + (k : Int)) (j - k) hj2
      refine ⟨i + 1, b1, b2, by simpa using hi, ?_, ?_, ?_, ?_, ?_⟩
      · simpa only [range_bounds_from, List.getElem?_cons_succ] using h1
      · simpa only [range_bounds_from, List.getElem?_cons_succ] using h2
      · have : ((j - k : Nat) : Int) = (j : Int) - (k : Int) := by omega
        omega
      · have : ((j - k : Nat) : Int) = (j : Int) - (k : Int) := by omega
        omega
      · rw [List.getElem?_append_right (by simp; omega)]
        simpa using h5

theorem owned_before_congr (P1 P2 : Partition) (hb : P1.range_bounds = P2.range_bounds)
    (hq : P1.part_ids = P2.part_ids) (p : Int) :
    ∀ i, P1.owned_before p i = P2.owned_before p i := by
  intro i
  induction i with
  | zero => rfl
  | succ i ih =>
    simp only [Partition.owned_before, Partition.range_length, ih, hb, hq]

theorem owned_before_cons (P1 P2 : Partition) (b q : Int)
    (hb : P1.range_bounds = b :: P2.range_bounds) (hq : P1.part_ids = q :: P2.part_ids)
    (p : Int) :
    ∀ i, P1.owned_before p (i + 1) =
      (if q = p then P2.range_bounds.getD 0 0 - b else 0) + P2.owned_before p i := by
  intro i
  induction i with
  | zero =>
    simp only [Partition.owned_before, Partition.range_length, hb, hq, List.getElem?_cons_zero,
      Option.some.injEq, List.getD_cons_succ, List.getD_cons_zero, zero_add, add_zero]
  | succ i ih =>
    rw [Partition.owned_before, ih]
    simp only [Partition.owned_before, Partition.range_length, hb, hq,
      List.getElem?_cons_succ, List.getD_cons_succ]
    ring

theorem starting_indices_from_length :
    ∀ (ranges : List (Int × Nat)) (counts : Int → Int),
      (starting_indices_from counts ranges).length = ranges.length := by
  intro ranges
  induction ranges with
  | nil => intro counts; rfl
  | cons r rest ih =>
    intro counts
    obtain ⟨q, k⟩ := r
    simp only [starting_indices_from, List.length_cons, ih]

/-- The starting index of a range is the running count its part had at the
start of the scan plus the total length of the earlier ranges of that part. -/
theorem starting_indices_from_spec :
    ∀ (ranges : List (Int × Nat)) (pos : Int) (counts : Int → Int) (i : Nat) (q : Int),
      (ranges.map (fun r => r.1))[i]? = some q →
      (starting_indices_from counts ranges)[i]? =
        some (counts q +
          (⟨range_bounds_from pos ranges, ranges.map (fun r => r.1), [], 0, 0⟩ :
            Partition).owned_before q i) := by
  intro ranges
  induction ranges with
  | nil =>
    intro pos counts i q hq
    simp at hq
  | cons r rest ih =>
    intro pos counts i q hq
    obtain ⟨q0, k⟩ := r
    cases i with
    | zero =>
      simp only [List.map_cons, List.getElem?_cons_zero, Option.some.injEq] at hq
      subst hq
      simp only [starting_indices_from, List.getElem?_cons_zero, Partition.owned_before,
        add_zero]
    | succ i =>
      simp only [List.map_cons, List.getElem?_cons_succ] at hq
      have h := ih (pos + (k : Int)) (fun x => if x = q0 then counts x + (k : Int) else counts x)
        i q hq
      simp only [starting_indices_from, List.getElem?_cons_succ, h]
      rw [owned_before_cons
        (⟨range_bounds_from pos ((q0, k) :: rest), ((q0, k) :: rest).map (fun r => r.1), [], 0,
          0⟩ : Partition)
        (⟨range_bounds_from (pos + (k : Int)) rest, rest.map (fun (r : Int × Nat) => r.1), [],
          0, 0⟩ : Partition) pos q0 rfl rfl q i]
      have hhead : (range_bounds_from (pos + (k : Int)) rest).getD 0 0 = pos + (k : Int) := by
        rw [List.getD_eq_getElem?_getD, range_bounds_from_head]
        rfl
      simp only [hhead]
      congr 1
      by_cases hqq : q = q0
      · subst hqq
        simp
        ring
      · have hqq2 : ¬ q0 = q := fun h => hqq h.symm
        simp [hqq, hqq2]

theorem check_part_ids_ok (num_parts : Nat) :
    ∀ m : List Int, (∀ q ∈ m, 0 ≤ q ∧ q < (num_parts : Int)) →
      check_part_ids num_parts m = .ok () := by
  intro m
  induction m with
  | nil => intro _; rfl
  | cons q rest ih =>
    intro h
    simp only [check_part_ids, if_pos (h q (List.mem_cons_self _ _))]
    exact ih (fun x hx => h x (List.mem_cons_of_mem _ hx))

theorem check_part_ids_error (num_parts : Nat) :
    ∀ m : List Int, (∃ q ∈ m, ¬ (0 ≤ q ∧ q < (num_parts : Int))) →
      check_part_ids num_parts m = .error .InvalidArgument := by
  intro m
  induction m with
  | nil =>
    rintro ⟨q, hq, -⟩
    exact absurd hq (List.not_mem_nil q)
  | cons q rest ih =>
    intro h
    by_cases hq : 0 ≤ q ∧ q < (num_parts : Int)
    · simp only [check_part_ids, if_pos hq]
      apply ih
      obtain ⟨x, hx, hxo⟩ := h
      rcases List.mem_cons.mp hx with h1 | h1
      · subst h1
        exact absurd hq hxo
      · exact ⟨x, h1, hxo⟩
    · simp only [check_part_ids, if_neg hq]

/-! ## Accumulation -/

theorem accumulate_eq_foldl {V : Type} [Add V] :
    ∀ (arr : List V) (init : V), accumulate arr init = arr.foldl (fun s x => s + x) init := by
  intro arr
  induction arr with
  | nil => intro init; rfl
  | cons x rest ih => intro init; simp only [accumulate, List.foldl_cons, ih]

/-- Over an associative addition with zero, accumulating from `init` adds the
sum of the array to `init`. -/
theorem accumulate_add_sum {V : Type} [AddMonoid V] :
    ∀ (arr : List V) (init : V), accumulate arr init = init + arr.sum := by
  intro arr
  induction arr with
  | nil => intro init; simp [accumulate]
  | cons x rest ih => intro init; simp only [accumulate, ih, List.sum_cons, add_assoc]

/-! ## Entries counted by owner -/

/-- Counting the elements of each owner below `n` counts every element once,
when every element has an owner in `[0, n)`. -/
theorem sum_lengths_by_owner {α : Type} (n : Nat) (owner : α → Option Int) :
    ∀ (l : List α), (∀ a ∈ l, ∃ q : Int, owner a = some q ∧ 0 ≤ q ∧ q < (n : Int)) →
      ((List.range n).map
        (fun (p : Nat) =>
          (((l.filter (fun a => owner a = some (p : Int))).length : Nat) : Int))).sum =
        (l.length : Int) := by
  intro l
  induction l with
  | nil => intro _; simp
  | cons a rest ih =>
    intro h
    have hrest := ih (fun k hk => h k (List.mem_cons_of_mem _ hk))
    obtain ⟨q, hq, hq0, hqn⟩ := h a (List.mem_cons_self _ _)
    have hsplit : ∀ p : Nat,
        ((((a :: rest).filter (fun a => owner a = some (p : Int))).length : Nat) : Int) =
          (((rest.filter (fun a => owner a = some (p : Int))).length : Nat) : Int) +
            (if q = (p : Int) then (1 : Int) else 0) := by
      intro p
      by_cases hp : q = (p : Int)
      · simp [List.filter_cons, hq, hp]
      · simp [List.filter_cons, hq, hp]
    simp only [hsplit]
    rw [List.sum_map_add, hrest, sum_indicator_range q n, if_pos ⟨hq0, hqn⟩]
    simp

/-! ## Reads and stores through zip references -/

theorem collect_tuple_of_all {α : Type} {n : Nat} (f : Fin n → Option α) (g : Fin n → α)
    (h : ∀ k, f k = some (g k)) : collect_tuple f = some g := by
  have hall : ∀ k, (f k).isSome := by
    intro k
    rw [h k]
    rfl
  unfold collect_tuple
  rw [dif_pos hall]
  congr 1
  funext k
  simp only [h k, Option.get_some]

theorem read_at_of_bounds {V : Type} (xs : List V) (p : Int) (h0 : 0 ≤ p)
    (h1 : p.toNat < xs.length) : read_at xs p = some xs[p.toNat] := by
  unfold read_at
  rw [if_pos h0]
  exact List.getElem?_eq_getElem h1

theorem write_at_of_bounds {V : Type} (xs : List V) (p : Int) (v : V) (h0 : 0 ≤ p)
    (h1 : p.toNat < xs.length) : write_at xs p v = some (xs.set p.toNat v) := by
  unfold write_at
  rw [if_pos ⟨h0, h1⟩]

/-- A read after a store: the stored value at the position stored to, the old
element elsewhere. -/
theorem read_at_set {V : Type} (xs : List V) (p i : Int) (v : V) (h0 : 0 ≤ p)
    (h1 : p.toNat < xs.length) :
    read_at (xs.set p.toNat v) i = if i = p then some v else read_at xs i := by
  by_cases hi : i = p
  · subst hi
    rw [if_pos rfl]
    unfold read_at
    rw [if_pos h0]
    simp [List.getElem?_set, h1]
  · rw [if_neg hi]
    unfold read_at
    by_cases hi0 : 0 ≤ i
    · rw [if_pos hi0, if_pos hi0]
      have hne : p.toNat ≠ i.toNat := by omega
      rw [List.getElem?_set_ne hne]
    · rw [if_neg hi0, if_neg hi0]

theorem set_same {V : Type} (xs : List V) (i : Nat) (h : i < xs.length) :
    xs.set i (xs.get ⟨i, h⟩) = xs := by
  apply List.ext_getElem?
  intro j
  by_cases hj : j = i
  · subst hj
    simp [List.getElem?_set, h]
  · rw [List.getElem?_set_ne (Ne.symm hj)]

/-- The three steps of `swap` through in-bounds references: the arrays after
the call are the arrays with the element of `b` stored at the position of `a`
and then the element of `a` stored at the position of `b`. -/
theorem swap_steps {n : Nat} {V : Type} (arrays : Fin (n + 1) → List V)
    (a b : zip_iterator_reference n)
    (ha : ∀ k, 0 ≤ a.positions k ∧ (a.positions k).toNat < (arrays k).length)
    (hb : ∀ k, 0 ≤ b.positions k ∧ (b.positions k).toNat < (arrays k).length) :
    swap arrays a b = some (fun k =>
      ((arrays k).set (a.positions k).toNat
        ((arrays k).get ⟨(b.positions k).toNat, (hb k).2⟩)).set (b.positions k).toNat
        ((arrays k).get ⟨(a.positions k).toNat, (ha k).2⟩)) := by
  have hva : a.copy arrays =
      some (fun k => (arrays k).get ⟨(a.positions k).toNat, (ha k).2⟩) :=
    collect_tuple_of_all _ _ (fun k => read_at_of_bounds _ _ (ha k).1 (ha k).2)
  have hvb : b.cast_impl arrays =
      some (fun k => (arrays k).get ⟨(b.positions k).toNat, (hb k).2⟩) :=
    collect_tuple_of_all _ _ (fun k => read_at_of_bounds _ _ (hb k).1 (hb k).2)
  have h1 : a.assign_impl arrays
      (fun k => (arrays k).get ⟨(b.positions k).toNat, (hb k).2⟩) =
      some (fun k => (arrays k).set (a.positions k).toNat
        ((arrays k).get ⟨(b.positions k).toNat, (hb k).2⟩)) :=
    collect_tuple_of_all _ _ (fun k => write_at_of_bounds _ _ _ (ha k).1 (ha k).2)
  have h2 : b.assign_impl (fun k => (arrays k).set (a.positions k).toNat
        ((arrays k).get ⟨(b.positions k).toNat, (hb k).2⟩))
      (fun k => (arrays k).get ⟨(a.positions k).toNat, (ha k).2⟩) =
      some (fun k => ((arrays k).set (a.positions k).toNat
        ((arrays k).get ⟨(b.positions k).toNat, (hb k).2⟩)).set (b.positions k).toNat
        ((arrays k).get ⟨(a.positions k).toNat, (ha k).2⟩)) :=
    collect_tuple_of_all _ _
      (fun k => write_at_of_bounds _ _ _ (hb k).1 (by rw [List.length_set]; exact (hb k).2))
  simp only [swap, hva, hvb, h1, h2, Option.bind_eq_bind, Option.some_bind]

/-! ## Sorting by the lexicographic comparator -/

/-- Not less in the other direction, for the lexicographic comparator on keys:
a total relation. -/
theorem not_less_total {α : Type} (key : α → Int × Int) (x y : α) :
    tuple_less (key y) (key x) = false ∨ tuple_less (key x) (key y) = false := by
  rw [tuple_less_false_iff, tuple_less_false_iff]
  omega

theorem not_less_trans {α : Type} (key : α → Int × Int) (x y z : α)
    (h1 : tuple_less (key y) (key x) = false) (h2 : tuple_less (key z) (key y) = false) :
    tuple_less (key z) (key x) = false := by
  rw [tuple_less_false_iff] at *
  omega

/-- Every sequence has a result of `std::sort` by a comparator that is the
lexicographic order of keys. -/
theorem std_sort_exists {α : Type} (key : α → Int × Int) (l : List α) :
    ∃ s, std_sort (fun x y => tuple_less (key x) (key y)) l s ∧ s.length = l.length := by
  haveI : IsTotal α (fun x y => tuple_less (key y) (key x) = false) :=
    ⟨not_less_total key⟩
  haveI : IsTrans α (fun x y => tuple_less (key y) (key x) = false) :=
    ⟨not_less_trans key⟩
  refine ⟨l.insertionSort (fun x y => tuple_less (key y) (key x) = false), ⟨?_, ?_⟩, ?_⟩
  · exact List.perm_insertionSort _ l
  · exact List.sorted_insertionSort _ l
  · exact List.length_insertionSort _ l

/-- Two results of `std::sort` by the lexicographic comparator on pairs, of
inputs with the same elements, are equal. -/
theorem std_sort_pairs_unique (l1 l2 s1 s2 : List (Int × Int)) (hperm : l1.Perm l2)
    (h1 : std_sort sort_agg_comp l1 s1) (h2 : std_sort sort_agg_comp l2 s2) : s1 = s2 := by
  haveI : IsAntisymm (Int × Int) (fun x y => sort_agg_comp y x = false) := by
    constructor
    intro a b hab hba
    simp only [sort_agg_comp] at hab hba
    rw [tuple_less_false_iff] at hab hba
    simp only at hab hba
    apply Prod.ext <;> omega
  exact List.eq_of_perm_of_sorted ((h1.1.trans hperm).trans h2.1.symm) h1.2 h2.2

/-- Sorted by the comparator means non-decreasing keys in lexicographic
order. -/
theorem not_less_iff_lex (a b : Int × Int) :
    tuple_less b a = false ↔ a.1 < b.1 ∨ (a.1 = b.1 ∧ a.2 ≤ b.2) := by
  rw [tuple_less_false_iff]
  omega

/-- Arrays rebuilt from a sequence of pairs in front and the old elements
behind. -/
theorem zip_rebuild (num : Nat) (r c : List Int) (s : List (Int × Int))
    (hs : s.length = num) (hr : num ≤ r.length) (hc : num ≤ c.length) :
    (s.map (fun x => x.1) ++ r.drop num).length = r.length ∧
    (s.map (fun x => x.2) ++ c.drop num).length = c.length ∧
    ((s.map (fun x => x.1) ++ r.drop num).zip (s.map (fun x => x.2) ++ c.drop num)).take num
      = s ∧
    (s.map (fun x => x.1) ++ r.drop num).drop num = r.drop num ∧
    (s.map (fun x => x.2) ++ c.drop num).drop num = c.drop num := by
  have hzip : (s.map (fun x => x.1)).zip (s.map (fun x => x.2)) = s := by
    clear hs
    induction s with
    | nil => rfl
    | cons x rest ih => simp only [List.map_cons, List.zip_cons_cons, ih]
  refine ⟨?_, ?_, ?_, ?_, ?_⟩
  · simp only [List.length_append, List.length_map, List.length_drop]
    omega
  · simp only [List.length_append, List.length_map, List.length_drop]
    omega
  · rw [List.zip_append (by simp), hzip, List.take_left' hs]
  · exact List.drop_left' (by simp [hs])
  · exact List.drop_left' (by simp [hs])

/-- Three arrays rebuilt from a sequence of entries in front and the old
elements behind. -/
theorem zipped_rebuild {V : Type} (num : Nat) (r c : List Int) (v : List V)
    (s : List ((Int × Int) × V)) (hs : s.length = num)
    (hr : num ≤ r.length) (hc : num ≤ c.length) (hv : num ≤ v.length) :
    (s.map (fun x => x.1.1) ++ r.drop num).length = r.length ∧
    (s.map (fun x => x.1.2) ++ c.drop num).length = c.length ∧
    (s.map (fun x => x.2) ++ v.drop num).length = v.length ∧
    zipped_entries num (s.map (fun x => x.1.1) ++ r.drop num)
      (s.map (fun x => x.1.2) ++ c.drop num) (s.map (fun x => x.2) ++ v.drop num) = s ∧
    (s.map (fun x => x.1.1) ++ r.drop num).drop num = r.drop num ∧
    (s.map (fun x => x.1.2) ++ c.drop num).drop num = c.drop num ∧
    (s.map (fun x => x.2) ++ v.drop num).drop num = v.drop num := by
  have hzip : ((s.map (fun x => x.1.1)).zip (s.map (fun x => x.1.2))).zip
      (s.map (fun x => x.2)) = s := by
    clear hs
    induction s with
    | nil => rfl
    | cons x rest ih => simp only [List.map_cons, List.zip_cons_cons, ih]
  refine ⟨?_, ?_, ?_, ?_, ?_, ?_, ?_⟩
  · simp only [List.length_append, List.length_map, List.length_drop]
    omega
  · simp only [List.length_append, List.length_map, List.length_drop]
    omega
  · simp only [List.length_append, List.length_map, List.length_drop]
    omega
  · unfold zipped_entries
    rw [List.zip_append (by simp), List.zip_append (by simp), hzip, List.take_left' hs]
  · exact List.drop_left' (by simp [hs])
  · exact List.drop_left' (by simp [hs])
  · exact List.drop_left' (by simp [hs])

theorem length_zip_take (num : Nat) (r c : List Int) (hr : num ≤ r.length)
    (hc : num ≤ c.length) : ((r.zip c).take num).length = num := by
  simp only [List.length_take, List.length_zip]
  omega

theorem length_zipped_entries {V : Type} (num : Nat) (r c : List Int) (v : List V)
    (hr : num ≤ r.length) (hc : num ≤ c.length) (hv : num ≤ v.length) :
    (zipped_entries num r c v).length = num := by
  simp only [zipped_entries, List.length_take, List.length_zip]
  omega

/-! ## Reduction of sorted entries -/

/-- Segmented reduction of entries sorted by key: the keys written are the
keys of the input, each once, strictly increasing, and each value written is
the sum of all input values with that key. -/
theorem reduce_sorted_canonical {V : Type} [AddCommMonoid V] (l : List ((Int × Int) × V))
    (hsorted : l.Pairwise (fun x y => tuple_less y.1 x.1 = false)) :
    ∃ keys : List (Int × Int),
      keys.Pairwise (fun a b => tuple_less a b = true) ∧
      (∀ k, k ∈ keys ↔ ∃ x ∈ l, x.1 = k) ∧
      reduce_by_segment (fun a b => tuple_equal (a.1, a.2) (b.1, b.2)) (fun a b => a + b) l =
        keys.map (fun k => (k, ((l.filter (fun x => x.1 = k)).map (fun x => x.2)).sum)) := by
  obtain ⟨runs, h1, h2, h3, h4⟩ :=
    reduce_by_segment_runs (V := V) (fun a b => tuple_equal (a.1, a.2) (b.1, b.2))
      tuple_equal_iff l
  have hflat := hsorted
  rw [h1, List.pairwise_flatMap] at hflat
  have hnonstrict : runs.Pairwise (fun r s => tuple_less s.1 r.1 = false) := by
    refine hflat.2.imp_of_mem ?_
    intro r s hr hs hrs
    obtain ⟨v, hv⟩ := List.exists_mem_of_ne_nil _ (h2 r hr)
    obtain ⟨w, hw⟩ := List.exists_mem_of_ne_nil _ (h2 s hs)
    exact hrs (r.1, v) (List.mem_map.mpr ⟨v, hv, rfl⟩) (s.1, w)
      (List.mem_map.mpr ⟨w, hw, rfl⟩)
  have hstrict := runs_strictly_increasing runs hnonstrict h3
  have hdiff : runs.Pairwise (fun r s => r.1 ≠ s.1) := by
    refine hstrict.imp ?_
    intro a b hab hEq
    rw [hEq, tuple_less_iff] at hab
    omega
  refine ⟨runs.map (fun r => r.1), ?_, ?_, ?_⟩
  · rw [List.pairwise_map]
    exact hstrict
  · intro k
    rw [List.mem_map]
    constructor
    · rintro ⟨r, hr, rfl⟩
      obtain ⟨v, hv⟩ := List.exists_mem_of_ne_nil _ (h2 r hr)
      refine ⟨(r.1, v), ?_, rfl⟩
      rw [h1, List.mem_flatMap]
      exact ⟨r, hr, List.mem_map.mpr ⟨v, hv, rfl⟩⟩
    · rintro ⟨x, hx, rfl⟩
      rw [h1, List.mem_flatMap] at hx
      obtain ⟨r, hr, hxr⟩ := hx
      obtain ⟨v, -, rfl⟩ := List.mem_map.mp hxr
      exact ⟨r, hr, rfl⟩
  · rw [h4, List.map_map]
    apply List.map_congr_left
    intro r hr
    simp only [Function.comp_apply]
    have hval := values_of_key runs hdiff r hr
    rw [← h1] at hval
    rw [hval]

/-- Strictly increasing lists of keys with the same members are equal. -/
theorem strict_keys_ext (k1 k2 : List (Int × Int))
    (h1 : k1.Pairwise (fun a b => tuple_less a b = true))
    (h2 : k2.Pairwise (fun a b => tuple_less a b = true))
    (hmem : ∀ k, k ∈ k1 ↔ k ∈ k2) : k1 = k2 := by
  haveI : IsAntisymm (Int × Int) (fun a b => tuple_less a b = true) := by
    constructor
    intro a b hab hba
    rw [tuple_less_iff] at hab hba
    apply Prod.ext <;> omega
  have hnodup : ∀ l : List (Int × Int), l.Pairwise (fun a b => tuple_less a b = true) →
      l.Nodup := by
    intro l hl
    refine hl.imp ?_
    intro a b hab hEq
    rw [hEq, tuple_less_iff] at hab
    omega
  exact List.eq_of_perm_of_sorted
    ((List.perm_ext_iff_of_nodup (hnodup k1 h1) (hnodup k2 h2)).mpr hmem) h1 h2

/-- Segmented reduction of two sorted sequences with the same entries gives the
same output. -/
theorem reduce_sorted_perm {V : Type} [AddCommMonoid V] (l1 l2 : List ((Int × Int) × V))
    (hperm : l1.Perm l2)
    (hs1 : l1.Pairwise (fun x y => tuple_less y.1 x.1 = false))
    (hs2 : l2.Pairwise (fun x y => tuple_less y.1 x.1 = false)) :
    reduce_by_segment (fun a b => tuple_equal (a.1, a.2) (b.1, b.2)) (fun a b => a + b) l1 =
      reduce_by_segment (fun a b => tuple_equal (a.1, a.2) (b.1, b.2)) (fun a b => a + b) l2 := by
  obtain ⟨k1, hk1, hm1, hr1⟩ := reduce_sorted_canonical l1 hs1
  obtain ⟨k2, hk2, hm2, hr2⟩ := reduce_sorted_canonical l2 hs2
  have hkeys : k1 = k2 := by
    apply strict_keys_ext k1 k2 hk1 hk2
    intro k
    rw [hm1, hm2]
    constructor
    · rintro ⟨x, hx, hk⟩
      exact ⟨x, hperm.mem_iff.mp hx, hk⟩
    · rintro ⟨x, hx, hk⟩
      exact ⟨x, hperm.mem_iff.mpr hx, hk⟩
  rw [hr1, hr2, hkeys]
  apply List.map_congr_left
  intro k _
  have hp : ((l1.filter (fun x => x.1 = k)).map (fun x => x.2)).Perm
      ((l2.filter (fun x => x.1 = k)).map (fun x => x.2)) :=
    (hperm.filter _).map _
  rw [hp.sum_eq]

/-! ## Lanes of a subwarp -/

/-- The lane `i ^ 2 ^ j`: `2 ^ j` above `i` when bit `j` of `i` is clear, `2 ^ j`
below when it is set. -/
theorem xor_two_pow (j : Nat) :
    ∀ i : Nat, (i / 2 ^ j % 2 = 0 → i ^^^ 2 ^ j = i + 2 ^ j) ∧
      (i / 2 ^ j % 2 = 1 → 2 ^ j ≤ i ∧ i ^^^ 2 ^ j = i - 2 ^ j) := by
  induction j with
  | zero =>
    intro i
    have hd : (i ^^^ 1) / 2 = i / 2 := by
      rw [Nat.xor_div_two]
      simp
    have hm : (i ^^^ 1) % 2 = 1 ↔ ¬ (i % 2 = 1) := by
      rw [Nat.xor_mod_two_eq_one]
      simp
    simp only [pow_zero, Nat.div_one]
    omega
  | succ j ih =>
    intro i
    have hpow : 2 ^ (j + 1) = 2 * 2 ^ j := by rw [pow_succ, mul_comm]
    have hd : (i ^^^ 2 ^ (j + 1)) / 2 = (i / 2) ^^^ 2 ^ j := by
      rw [Nat.xor_div_two, hpow, Nat.mul_div_cancel_left _ (by decide : 0 < 2)]
    have hm : (i ^^^ 2 ^ (j + 1)) % 2 = 1 ↔ i % 2 = 1 := by
      rw [Nat.xor_mod_two_eq_one, hpow, Nat.mul_mod_right]
      simp
    have hdd : i / 2 / 2 ^ j = i / 2 ^ (j + 1) := by
      rw [Nat.div_div_eq_div_mul, hpow]
    obtain ⟨h0, h1⟩ := ih (i / 2)
    rw [hdd] at h0 h1
    rw [hpow] at *
    constructor
    · intro h
      have := h0 h
      omega
    · intro h
      have := h1 h
      omega

theorem and_two_pow_ne_zero (i j : Nat) : i &&& 2 ^ j ≠ 0 ↔ i / 2 ^ j % 2 = 1 := by
  rw [Nat.and_two_pow]
  have hpos : 0 < 2 ^ j := Nat.pow_pos (by decide)
  have ht : i.testBit j = decide (i / 2 ^ j % 2 = 1) := Nat.testBit_to_div_mod
  by_cases h : i / 2 ^ j % 2 = 1
  · simp [ht, h, hpos.ne']
  · simp [ht, h]

/-- Blocks of `B` lanes and of `2 * B` lanes around lane `i`: where they start,
and where the block of the neighbour lane `B` above or below starts. -/
theorem block_facts (B : Nat) (hB : 0 < B) (i : Nat) :
    i / B * B ≤ i ∧ i < i / B * B + B ∧
    (i / B % 2 = 0 → i / (2 * B) * (2 * B) = i / B * B ∧ (i + B) / B * B = i / B * B + B) ∧
    (i / B % 2 = 1 → i / (2 * B) * (2 * B) + B = i / B * B ∧
      (i - B) / B * B + B = i / B * B ∧ B ≤ i) := by
  have h1 : i / B * B ≤ i := Nat.div_mul_le_self i B
  have h2 : i < i / B * B + B := Nat.lt_div_mul_add hB
  have h3 : i / (2 * B) = i / B / 2 := by
    rw [Nat.div_div_eq_div_mul, Nat.mul_comm]
  refine ⟨h1, h2, ?_, ?_⟩
  · intro he
    have hq : i / B = 2 * (i / B / 2) := by omega
    constructor
    · rw [h3]
      nth_rewrite 2 [hq]
      ring
    · rw [Nat.add_div_right i hB]
      ring
  · intro ho
    have hq : i / B = 2 * (i / B / 2) + 1 := by omega
    have hBi : B ≤ i := by
      have : 1 ≤ i / B := by omega
      calc B = 1 * B := (Nat.one_mul B).symm
        _ ≤ i / B * B := Nat.mul_le_mul_right B this
        _ ≤ i := h1
    have hsub : (i - B) / B + 1 = i / B := by
      have := Nat.add_div_right (i - B) hB
      rw [Nat.sub_add_cancel hBi] at this
      omega
    refine ⟨?_, ?_, hBi⟩
    · rw [h3]
      nth_rewrite 2 [hq]
      ring
    · rw [← hsub]
      ring

/-- One iteration of the loop of `subwarp_prefix_sum` with `step = 2 ^ j`, in
lane `i`: from the sums over the blocks of `2 ^ j` lanes to the sums over the
blocks of `2 ^ (j + 1)` lanes. -/
theorem subwarp_step {V : Type} [AddCommMonoid V] (inclusive : Bool) (element : Nat → V)
    (j i : Nat) :
    block_prefix_sum inclusive element j i +
        (if i &&& 2 ^ j ≠ 0 then shfl_xor (block_total element j) (2 ^ j) i else 0) =
      block_prefix_sum inclusive element (j + 1) i ∧
    block_total element j i + shfl_xor (block_total element j) (2 ^ j) i =
      block_total element (j + 1) i := by
  have hB : 0 < 2 ^ j := Nat.pow_pos (by decide)
  have hpow : 2 ^ (j + 1) = 2 * 2 ^ j := by rw [pow_succ, mul_comm]
  obtain ⟨h1, h2, he, ho⟩ := block_facts (2 ^ j) hB i
  obtain ⟨hx0, hx1⟩ := xor_two_pow j i
  rcases Nat.mod_two_eq_zero_or_one (i / 2 ^ j) with hbit | hbit
  · obtain ⟨ha2, hnb⟩ := he hbit
    have hand : ¬ (i &&& 2 ^ j ≠ 0) := by
      rw [and_two_pow_ne_zero]
      omega
    simp only [block_prefix_sum, block_total, shfl_xor, hx0 hbit, hpow, ha2, hnb, if_neg hand,
      add_zero, true_and]
    rw [Finset.sum_Ico_consecutive element (by omega) (by omega)]
    congr 2
    omega
  · obtain ⟨ha2, hnb, hBi⟩ := ho hbit
    have hand : i &&& 2 ^ j ≠ 0 := by
      rw [and_two_pow_ne_zero]
      exact hbit
    have hstart : (i - 2 ^ j) / 2 ^ j * 2 ^ j = i / (2 * 2 ^ j) * (2 * 2 ^ j) := by omega
    have hmid : i / (2 * 2 ^ j) * (2 * 2 ^ j) + 2 ^ j = i / 2 ^ j * 2 ^ j := ha2
    simp only [block_prefix_sum, block_total, shfl_xor, (hx1 hbit).2, hpow, if_pos hand, hstart,
      hmid]
    constructor
    · rw [add_right_comm, add_comm (Finset.sum (Finset.Ico (i / 2 ^ j * 2 ^ j) i) element),
        ← hmid, Finset.sum_Ico_consecutive element (by omega) (by omega)]
    · rw [add_comm, ← hmid, Finset.sum_Ico_consecutive element (by omega) (by omega)]
      congr 2
      omega

/-- The loop of `subwarp_prefix_sum` for a subwarp of `2 ^ k` lanes, entered
with `step = 2 ^ j` and the sums over the blocks of `2 ^ j` lanes: with more
iterations allowed than the `k - j` that remain, it ends with the sums over the
blocks of `2 ^ k` lanes. -/
theorem subwarp_loop_spec {V : Type} [AddCommMonoid V] (inclusive : Bool) (element : Nat → V)
    (k : Nat) :
    ∀ (n j fuel : Nat), j + n = k → n < fuel →
      subwarp_prefix_sum_loop (2 ^ k) fuel (2 ^ j) (block_prefix_sum inclusive element j)
          (block_total element j) =
        (block_prefix_sum inclusive element k, block_total element k) := by
  intro n
  induction n with
  | zero =>
    intro j fuel hj hfuel
    have hjk : j = k := by omega
    subst hjk
    cases fuel with
    | zero => omega
    | succ f => simp only [subwarp_prefix_sum_loop, lt_irrefl, if_false]
  | succ n ih =>
    intro j fuel hj hfuel
    cases fuel with
    | zero => omega
    | succ f =>
      have hlt : 2 ^ j < 2 ^ k := Nat.pow_lt_pow_right (by decide) (by omega)
      have hp : (fun rank => block_prefix_sum inclusive element j rank +
          (if rank &&& 2 ^ j ≠ 0 then shfl_xor (block_total element j) (2 ^ j) rank else 0)) =
          block_prefix_sum inclusive element (j + 1) :=
        funext (fun i => (subwarp_step inclusive element j i).1)
      have ht : (fun rank => block_total element j rank +
          shfl_xor (block_total element j) (2 ^ j) rank) = block_total element (j + 1) :=
        funext (fun i => (subwarp_step inclusive element j i).2)
      have hstep : 2 ^ j * 2 = 2 ^ (j + 1) := (pow_succ 2 j).symm
      simp only [subwarp_prefix_sum_loop, hlt, if_true, hp, ht, hstep]
      exact ih (j + 1) f (by omega) (by omega)

theorem sum_range_eq_list {V : Type} [AddCommMonoid V] (f : Nat → V) (n : Nat) :
    Finset.sum (Finset.range n) f = ((List.range n).map f).sum := by
  induction n with
  | zero => simp
  | succ n ih =>
    rw [Finset.sum_range_succ, List.range_succ, List.map_append, List.sum_append, ih]
    simp

/-! ## Threads of a block between two barriers -/

theorem for_each_thread_succ {S : Type} (m : Nat) (body : Nat → S → S) (state : S) :
    for_each_thread (m + 1) body state = body m (for_each_thread m body state) := by
  simp only [for_each_thread, List.range_succ, List.foldl_append, List.foldl_cons,
    List.foldl_nil]

theorem mul_pred_inj (P X Y : Nat) (hP : 0 < P) (hX : 0 < X) (hY : 0 < Y)
    (h : P * X - 1 = P * Y - 1) : X = Y := by
  have h1 : 0 < P * X := Nat.mul_pos hP hX
  have h2 : 0 < P * Y := Nat.mul_pos hP hY
  exact Nat.eq_of_mul_eq_mul_left hP (by omega)

/-- One iteration of the reduction loop, run by the first `m` threads: the
element at `bi` of every thread below `m` has the element at `ai` added, every
other element is unchanged. -/
theorem up_phase_spec {V : Type} [Add V] (B P : Nat) (hP : 0 < P) (h : Nat → V) :
    ∀ m : Nat,
      (∀ e, e < m → P * (2 * e + 2) - 1 < B →
        for_each_thread m (up_sweep_thread B P) h (P * (2 * e + 2) - 1) =
          h (P * (2 * e + 2) - 1) + h (P * (2 * e + 1) - 1)) ∧
      (∀ j, (∀ e, e < m → P * (2 * e + 2) - 1 < B → j ≠ P * (2 * e + 2) - 1) →
        for_each_thread m (up_sweep_thread B P) h j = h j) := by
  intro m
  induction m with
  | zero =>
    exact ⟨fun e he => absurd he (Nat.not_lt_zero e), fun j _ => rfl⟩
  | succ m ih =>
    obtain ⟨ih1, ih2⟩ := ih
    have hbi : for_each_thread m (up_sweep_thread B P) h (P * (2 * m + 2) - 1) =
        h (P * (2 * m + 2) - 1) := by
      apply ih2
      intro e he _ heq
      have := mul_pred_inj P _ _ hP (by omega) (by omega) heq
      omega
    have hai : for_each_thread m (up_sweep_thread B P) h (P * (2 * m + 1) - 1) =
        h (P * (2 * m + 1) - 1) := by
      apply ih2
      intro e he _ heq
      have := mul_pred_inj P _ _ hP (by omega) (by omega) heq
      omega
    constructor
    · intro e he hb
      rw [for_each_thread_succ]
      by_cases hem : e = m
      · subst hem
        simp only [up_sweep_thread, if_pos hb, Function.update_same, hbi, hai]
      · have hne : P * (2 * e + 2) - 1 ≠ P * (2 * m + 2) - 1 := by
          intro heq
          have := mul_pred_inj P _ _ hP (by omega) (by omega) heq
          omega
        simp only [up_sweep_thread]
        split_ifs
        · rw [Function.update_noteq hne]
          exact ih1 e (by omega) hb
        · exact ih1 e (by omega) hb
    · intro j hj
      rw [for_each_thread_succ]
      have hrest := ih2 j (fun e he hb => hj e (by omega) hb)
      simp only [up_sweep_thread]
      split_ifs with hb
      · rw [Function.update_noteq (hj m (by omega) hb)]
        exact hrest
      · exact hrest

/-- One iteration of the down-sweep loop, run by the first `m` threads: for
every thread below `m`, the element at `ai` becomes the old element at `bi` and
the element at `bi` has the old element at `ai` added; every other element is
unchanged. -/
theorem down_phase_spec {V : Type} [Add V] (B P : Nat) (hP : 0 < P) (h : Nat → V) :
    ∀ m : Nat,
      (∀ e, e < m → P * (2 * e + 2) - 1 < B →
        for_each_thread m (down_sweep_thread B P) h (P * (2 * e + 2) - 1) =
          h (P * (2 * e + 2) - 1) + h (P * (2 * e + 1) - 1) ∧
        for_each_thread m (down_sweep_thread B P) h (P * (2 * e + 1) - 1) =
          h (P * (2 * e + 2) - 1)) ∧
      (∀ j, (∀ e, e < m → P * (2 * e + 2) - 1 < B →
          j ≠ P * (2 * e + 2) - 1 ∧ j ≠ P * (2 * e + 1) - 1) →
        for_each_thread m (down_sweep_thread B P) h j = h j) := by
  intro m
  induction m with
  | zero =>
    exact ⟨fun e he => absurd he (Nat.not_lt_zero e), fun j _ => rfl⟩
  | succ m ih =>
    obtain ⟨ih1, ih2⟩ := ih
    have hdiff : ∀ e, e ≠ m → ∀ X Y, (X = 2 * e + 1 ∨ X = 2 * e + 2) →
        (Y = 2 * m + 1 ∨ Y = 2 * m + 2) → P * X - 1 ≠ P * Y - 1 := by
      intro e hem X Y hX hY heq
      have := mul_pred_inj P X Y hP (by omega) (by omega) heq
      omega
    have hab : P * (2 * m + 1) - 1 ≠ P * (2 * m + 2) - 1 := by
      intro heq
      have := mul_pred_inj P _ _ hP (by omega) (by omega) heq
      omega
    have hbi : for_each_thread m (down_sweep_thread B P) h (P * (2 * m + 2) - 1) =
        h (P * (2 * m + 2) - 1) := by
      apply ih2
      intro e he _
      exact ⟨(hdiff e (by omega) _ _ (Or.inr rfl) (Or.inr rfl)).symm,
        (hdiff e (by omega) _ _ (Or.inl rfl) (Or.inr rfl)).symm⟩
    have hai : for_each_thread m (down_sweep_thread B P) h (P * (2 * m + 1) - 1) =
        h (P * (2 * m + 1) - 1) := by
      apply ih2
      intro e he _
      exact ⟨(hdiff e (by omega) _ _ (Or.inr rfl) (Or.inl rfl)).symm,
        (hdiff e (by omega) _ _ (Or.inl rfl) (Or.inl rfl)).symm⟩
    constructor
    · intro e he hb
      rw [for_each_thread_succ]
      by_cases hem : e = m
      · subst hem
        simp only [down_sweep_thread, if_pos hb, Function.update_same,
          Function.update_noteq hab.symm, Function.update_noteq hab, hbi, hai, and_self]
      · simp only [down_sweep_thread]
        split_ifs
        · rw [Function.update_noteq (hdiff e hem _ _ (Or.inr rfl) (Or.inr rfl)),
            Function.update_noteq (hdiff e hem _ _ (Or.inr rfl) (Or.inl rfl)),
            Function.update_noteq (hdiff e hem _ _ (Or.inl rfl) (Or.inr rfl)),
            Function.update_noteq (hdiff e hem _ _ (Or.inl rfl) (Or.inl rfl))]
          exact ih1 e (by omega) hb
        · exact ih1 e (by omega) hb
    · intro j hj
      rw [for_each_thread_succ]
      have hrest := ih2 j (fun e he hb => hj e (by omega) hb)
      simp only [down_sweep_thread]
      split_ifs with hb
      · rw [Function.update_noteq (hj m (by omega) hb).1,
          Function.update_noteq (hj m (by omega) hb).2]
        exact hrest
      · exact hrest

/-! ## The tree of partial sums in shared memory -/

/-- An odd multiple of `2 ^ t` is no multiple of a larger power of two. -/
theorem odd_mul_ne (t d c m : Nat) (h : t < d) : 2 ^ t * (2 * c + 1) ≠ 2 ^ d * m := by
  intro heq
  obtain ⟨s, rfl⟩ : ∃ s, d = t + (s + 1) := ⟨d - t - 1, by omega⟩
  have hpow : 2 ^ (t + (s + 1)) * m = 2 ^ t * (2 * (2 ^ s * m)) := by
    rw [pow_add, pow_succ]
    ring
  rw [hpow] at heq
  have := Nat.eq_of_mul_eq_mul_left (Nat.pow_pos (by decide : 0 < 2)) heq
  omega

/-- An odd multiple of `2 ^ t` is no even multiple of `2 ^ d` for `t ≤ d`. -/
theorem odd_mul_ne_even (t d c m : Nat) (h : t ≤ d) :
    2 ^ t * (2 * c + 1) ≠ 2 ^ d * (2 * m) := by
  intro heq
  obtain ⟨s, rfl⟩ : ∃ s, d = t + s := ⟨d - t, by omega⟩
  have hpow : 2 ^ (t + s) * (2 * m) = 2 ^ t * (2 * (2 ^ s * m)) := by
    rw [pow_add]
    ring
  rw [hpow] at heq
  have := Nat.eq_of_mul_eq_mul_left (Nat.pow_pos (by decide : 0 < 2)) heq
  omega

/-- Below `2 ^ k`, a left half block of size `2 ^ d` has its right sibling. -/
theorem sibling_room (d k e : Nat) (h : d < k) (hle : 2 ^ d * (2 * e + 1) ≤ 2 ^ k) :
    2 ^ d * (2 * e + 2) ≤ 2 ^ k := by
  obtain ⟨s, rfl⟩ : ∃ s, k = d + (s + 1) := ⟨k - d - 1, by omega⟩
  have hpow : 2 ^ (d + (s + 1)) = 2 ^ d * (2 * 2 ^ s) := by
    rw [pow_add, pow_succ]
    ring
  rw [hpow] at hle ⊢
  have := Nat.le_of_mul_le_mul_left hle (Nat.pow_pos (by decide : 0 < 2))
  exact Nat.mul_le_mul_left _ (by omega)

theorem pred_ne_of_ne (a b : Nat) (ha : 0 < a) (hb : 0 < b) (h : a ≠ b) : a - 1 ≠ b - 1 := by
  omega

theorem le_of_mul_succ_le (P c B : Nat) (hP : 0 < P) (h : P * (c + 1) ≤ B) : c < B := by
  have : c + 1 ≤ P * (c + 1) := Nat.le_mul_of_pos_left (c + 1) hP
  omega

/-- The iteration `i = 2 ^ d` of the reduction loop takes the sums over the
blocks of `2 ^ d` elements to the sums over the blocks of `2 ^ (d + 1)`. -/
theorem up_level_step {V : Type} [AddCommMonoid V] (k d : Nat) (x h : Nat → V)
    (hinv : up_swept (2 ^ k) x h d) :
    up_swept (2 ^ k) x (for_each_thread (2 ^ k) (up_sweep_thread (2 ^ k) (2 ^ d)) h) (d + 1) := by
  have hP : 0 < 2 ^ d := Nat.pow_pos (by decide)
  have hpow : 2 ^ (d + 1) = 2 ^ d * 2 := pow_succ 2 d
  obtain ⟨p1, p2⟩ := up_phase_spec (2 ^ k) (2 ^ d) hP h (2 ^ k)
  obtain ⟨i1, i2⟩ := hinv
  constructor
  · intro c hc
    have hidx : 2 ^ (d + 1) * (c + 1) = 2 ^ d * (2 * c + 2) := by rw [hpow]; ring
    have hlo : 2 ^ (d + 1) * c = 2 ^ d * (2 * c) := by rw [hpow]; ring
    rw [hidx] at hc ⊢
    rw [hlo]
    have hpos : 0 < 2 ^ d * (2 * c + 2) := Nat.mul_pos hP (by omega)
    have hcB : c < 2 ^ k := by
      have : 2 * c + 1 < 2 ^ k := le_of_mul_succ_le _ _ _ hP hc
      omega
    have hmid : 2 ^ d * (2 * c + 1) ≤ 2 ^ d * (2 * c + 2) := Nat.mul_le_mul_left _ (by omega)
    have hlow : 2 ^ d * (2 * c) ≤ 2 ^ d * (2 * c + 1) := Nat.mul_le_mul_left _ (by omega)
    rw [p1 c hcB (by omega)]
    have hb := i1 (2 * c + 1) hc
    have ha := i1 (2 * c) (by omega)
    rw [hb, ha, add_comm, Finset.sum_Ico_consecutive x hlow hmid]
  · intro t ht c hc
    have hpos : 0 < 2 ^ t * (2 * c + 1) := Nat.mul_pos (Nat.pow_pos (by decide)) (by omega)
    have hkeep : for_each_thread (2 ^ k) (up_sweep_thread (2 ^ k) (2 ^ d)) h
        (2 ^ t * (2 * c + 1) - 1) = h (2 ^ t * (2 * c + 1) - 1) := by
      apply p2
      intro e _ _
      apply pred_ne_of_ne _ _ hpos (Nat.mul_pos hP (by omega))
      have := odd_mul_ne_even t d c (e + 1) (by omega)
      rw [show 2 * e + 2 = 2 * (e + 1) by ring]
      exact this
    rw [hkeep]
    rcases Nat.lt_or_ge t d with htd | htd
    · exact i2 t htd c hc
    · have htd2 : t = d := by omega
      subst htd2
      exact i1 (2 * c) hc

/-- The iteration `i = 2 ^ d` of the down-sweep loop takes the sums before the
blocks of `2 ^ (d + 1)` elements to the sums before the blocks of `2 ^ d`. -/
theorem down_level_step {V : Type} [AddCommMonoid V] (k d : Nat) (hdk : d < k) (x h : Nat → V)
    (hinv : down_swept (2 ^ k) x h (d + 1)) :
    down_swept (2 ^ k) x (for_each_thread (2 ^ k) (down_sweep_thread (2 ^ k) (2 ^ d)) h) d := by
  have hP : 0 < 2 ^ d := Nat.pow_pos (by decide)
  have hpow : 2 ^ (d + 1) = 2 ^ d * 2 := pow_succ 2 d
  obtain ⟨p1, p2⟩ := down_phase_spec (2 ^ k) (2 ^ d) hP h (2 ^ k)
  obtain ⟨i1, i2⟩ := hinv
  constructor
  · intro c hc
    rcases Nat.even_or_odd' c with ⟨e, he | he⟩
    · subst he
      have hroom := sibling_room d k e hdk hc
      have hpos : 0 < 2 ^ d * (2 * e + 2) := Nat.mul_pos hP (by omega)
      have heB : e < 2 ^ k := by
        have : 2 * e + 1 < 2 ^ k := le_of_mul_succ_le _ _ _ hP hroom
        omega
      rw [(p1 e heB (by omega)).2]
      have hidx : 2 ^ d * (2 * e + 2) = 2 ^ (d + 1) * (e + 1) := by rw [hpow]; ring
      have hlo : 2 ^ d * (2 * e) = 2 ^ (d + 1) * e := by rw [hpow]; ring
      rw [hidx, hlo]
      exact i1 e (by rw [← hidx]; exact hroom)
    · subst he
      have hc2 : 2 ^ d * (2 * e + 2) ≤ 2 ^ k := hc
      have hpos : 0 < 2 ^ d * (2 * e + 2) := Nat.mul_pos hP (by omega)
      have heB : e < 2 ^ k := by
        have : 2 * e + 1 < 2 ^ k := le_of_mul_succ_le _ _ _ hP hc2
        omega
      have hidx : 2 ^ d * (2 * e + 2) = 2 ^ (d + 1) * (e + 1) := by rw [hpow]; ring
      have hlo : 2 ^ d * (2 * e) = 2 ^ (d + 1) * e := by rw [hpow]; ring
      have hmid : 2 ^ d * (2 * e) ≤ 2 ^ d * (2 * e + 1) := Nat.mul_le_mul_left _ (by omega)
      show for_each_thread (2 ^ k) (down_sweep_thread (2 ^ k) (2 ^ d)) h
        (2 ^ d * (2 * e + 2) - 1) = _
      rw [(p1 e heB (by omega)).1]
      have hb := i1 e (by rw [← hidx]; exact hc2)
      rw [← hidx, ← hlo] at hb
      have ha := i2 d (by omega) e (le_trans (Nat.mul_le_mul_left _ (by omega)) hc2)
      rw [hb, ha, Finset.sum_Ico_consecutive x (Nat.zero_le _) hmid]
  · intro t ht c hc
    have hpos : 0 < 2 ^ t * (2 * c + 1) := Nat.mul_pos (Nat.pow_pos (by decide)) (by omega)
    have hkeep : for_each_thread (2 ^ k) (down_sweep_thread (2 ^ k) (2 ^ d)) h
        (2 ^ t * (2 * c + 1) - 1) = h (2 ^ t * (2 * c + 1) - 1) := by
      apply p2
      intro e _ _
      exact ⟨pred_ne_of_ne _ _ hpos (Nat.mul_pos hP (by omega)) (odd_mul_ne t d c _ ht),
        pred_ne_of_ne _ _ hpos (Nat.mul_pos hP (by omega)) (odd_mul_ne t d c _ ht)⟩
    rw [hkeep]
    exact i2 t (by omega) c hc

/-- The reduction loop on `2 ^ k` elements, entered with `i = 2 ^ d` and the
sums over the blocks of `2 ^ d` elements: with more iterations allowed than the
`k - d` that remain, it ends with the sums over the blocks of `2 ^ k`. -/
theorem up_loop_spec {V : Type} [AddCommMonoid V] (k : Nat) (x : Nat → V) :
    ∀ (n d fuel : Nat) (h : Nat → V), d + n = k → n < fuel → up_swept (2 ^ k) x h d →
      up_swept (2 ^ k) x (up_sweep_loop (2 ^ k) fuel (2 ^ d) h) k := by
  intro n
  induction n with
  | zero =>
    intro d fuel h hd hfuel hinv
    have hdk : d = k := by omega
    subst hdk
    cases fuel with
    | zero => omega
    | succ f =>
      simp only [up_sweep_loop, lt_irrefl, if_false]
      exact hinv
  | succ n ih =>
    intro d fuel h hd hfuel hinv
    cases fuel with
    | zero => omega
    | succ f =>
      have hlt : 2 ^ d < 2 ^ k := Nat.pow_lt_pow_right (by decide) (by omega)
      have hstep : 2 ^ d * 2 = 2 ^ (d + 1) := (pow_succ 2 d).symm
      simp only [up_sweep_loop, hlt, if_true, hstep]
      exact ih (d + 1) f _ (by omega) (by omega) (up_level_step k d x h hinv)

/-- The down-sweep loop on `2 ^ k` elements, entered with `i = 2 ^ d / 2` and
the sums before the blocks of `2 ^ d` elements: with more iterations allowed
than the `d` that remain, it ends with the sum before every element. -/
theorem down_loop_spec {V : Type} [AddCommMonoid V] (k : Nat) (x : Nat → V) :
    ∀ (d fuel : Nat) (h : Nat → V), d ≤ k → d < fuel → down_swept (2 ^ k) x h d →
      down_swept (2 ^ k) x (down_sweep_loop (2 ^ k) fuel (2 ^ d / 2) h) 0 := by
  intro d
  induction d with
  | zero =>
    intro fuel h _ hfuel hinv
    cases fuel with
    | zero => omega
    | succ f =>
      have h0 : 2 ^ 0 / 2 = 0 := by decide
      simp only [down_sweep_loop, h0, lt_irrefl, if_false]
      exact hinv
  | succ d ih =>
    intro fuel h hdk hfuel hinv
    cases fuel with
    | zero => omega
    | succ f =>
      have hhalf : 2 ^ (d + 1) / 2 = 2 ^ d := by
        rw [pow_succ, Nat.mul_div_cancel _ (by decide : 0 < 2)]
      have hpos : 0 < 2 ^ d := Nat.pow_pos (by decide)
      simp only [down_sweep_loop, hhalf, hpos, if_true]
      exact ih f _ (by omega) (by omega) (down_level_step k d (by omega) x h hinv)

/-- Threads that each update one element of their own, run one after the
other: the element of every thread that passes the test is updated from its
old value, every other element is unchanged. -/
theorem own_cell_spec {V : Type} (test : Nat → Prop) [DecidablePred test] (loc : Nat → Nat)
    (F : Nat → V → V) (hinj : ∀ a b, loc a = loc b → a = b) (s : Nat → V) :
    ∀ m : Nat,
      (∀ e, e < m → test e →
        for_each_thread m
          (fun e s => if test e then Function.update s (loc e) (F e (s (loc e))) else s) s
          (loc e) = F e (s (loc e))) ∧
      (∀ j, (∀ e, e < m → test e → j ≠ loc e) →
        for_each_thread m
          (fun e s => if test e then Function.update s (loc e) (F e (s (loc e))) else s) s j =
          s j) := by
  intro m
  induction m with
  | zero =>
    exact ⟨fun e he => absurd he (Nat.not_lt_zero e), fun j _ => rfl⟩
  | succ m ih =>
    obtain ⟨ih1, ih2⟩ := ih
    have hown := ih2 (loc m) (fun e he _ heq => by have := hinj _ _ heq; omega)
    constructor
    · intro e he ht
      rw [for_each_thread_succ]
      by_cases hem : e = m
      · subst hem
        simp only [if_pos ht, Function.update_same, hown]
      · have hne : loc e ≠ loc m := fun heq => hem (hinj _ _ heq)
        split_ifs
        · rw [Function.update_noteq hne]
          exact ih1 e (by omega) ht
        · exact ih1 e (by omega) ht
    · intro j hj
      rw [for_each_thread_succ]
      have hrest := ih2 j (fun e he ht => hj e (by omega) ht)
      split_ifs with ht
      · rw [Function.update_noteq (hj m (by omega) ht)]
        exact hrest
      · exact hrest

/-- A step that only thread `0` takes. -/
theorem for_each_thread_first {S : Type} (body : Nat → S → S)
    (hid : ∀ e s, e ≠ 0 → body e s = s) (state : S) :
    ∀ m : Nat, for_each_thread (m + 1) body state = body 0 state := by
  intro m
  induction m with
  | zero => rfl
  | succ m ih => rw [for_each_thread_succ, hid _ _ (by omega), ih]

/-! ## One thread block of `start_prefix_sum` -/

/-- The values the threads of block `g` load into shared memory. -/
theorem load_spec {V : Type} [Zero V] (B n g : Nat) (elements uninitialized : Nat → V)
    (c : Nat) (hc : c < B) :
    for_each_thread B (load_thread B n g elements) uninitialized c =
      if g * B + c + 1 < n then elements (g * B + c) else 0 := by
  have hbody : load_thread B n g elements =
      (fun e s => if True then Function.update s ((fun e => e) e)
        ((fun e _ => if g * B + e + 1 < n then elements (g * B + e) else 0) e
          (s ((fun e => e) e))) else s) := by
    funext e s
    simp [load_thread, get_thread_id_flat]
  rw [hbody]
  exact (own_cell_spec (fun _ => True) (fun e => e)
    (fun e _ => if g * B + e + 1 < n then elements (g * B + e) else 0)
    (fun a b h => h) uninitialized B).1 c hc trivial

/-- The elements the threads of block `g` store back. -/
theorem store_spec {V : Type} (B n g : Nat) (helper elements : Nat → V) :
    (∀ c, c < B → g * B + c < n →
      for_each_thread B (store_thread B n g helper) elements (g * B + c) = helper c) ∧
    (∀ j, (j < g * B ∨ g * B + B ≤ j ∨ n ≤ j) →
      for_each_thread B (store_thread B n g helper) elements j = elements j) := by
  have hbody : store_thread B n g helper =
      (fun e s => if g * B + e < n then Function.update s ((fun e => g * B + e) e)
        ((fun e _ => helper e) e (s ((fun e => g * B + e) e))) else s) := by
    funext e s
    simp [store_thread, get_thread_id_flat]
  rw [hbody]
  obtain ⟨h1, h2⟩ := own_cell_spec (fun e => g * B + e < n) (fun e => g * B + e)
    (fun e _ => helper e)
    (fun a b h => by
      have h2 : g * B + a = g * B + b := h
      omega) elements B
  refine ⟨fun c hc hn => h1 c hc hn, fun j hj => h2 j ?_⟩
  intro e he hen
  omega

/-- The sum of shared values that were loaded from the block's elements is a
sum of elements. -/
theorem sum_loaded {V : Type} [AddCommMonoid V] (x elements : Nat → V) (a c : Nat)
    (hx : ∀ i, i < c → x i = elements (a + i)) :
    Finset.sum (Finset.Ico 0 c) x = Finset.sum (Finset.Ico a (a + c)) elements := by
  rw [Finset.sum_Ico_eq_sum_range, Finset.sum_Ico_eq_sum_range, Nat.add_sub_cancel_left,
    Nat.sub_zero]
  apply Finset.sum_congr rfl
  intro i hi
  rw [Nat.zero_add]
  exact hx i (Finset.mem_range.mp hi)

/-- Thread `0` alone stores the total and clears the last shared element. -/
theorem store_total_spec {V : Type} [Zero V] (B g G : Nat) (hB : 0 < B) (hu block_sum : Nat → V) :
    for_each_thread B (store_total_thread B g G) (hu, block_sum) =
      (Function.update hu (B - 1) 0,
        if g + 1 < G then Function.update block_sum g (hu (B - 1)) else block_sum) := by
  obtain ⟨m, rfl⟩ : ∃ m, B = m + 1 := ⟨B - 1, by omega⟩
  rw [for_each_thread_first _ _ _ m]
  · simp only [store_total_thread, if_true]
  · intro e s he
    simp only [store_total_thread, if_neg he]

/-- The shared array of a block of `2 ^ k` threads after the two loops: every
element holds the sum of the loaded values before it; and before the last
element was cleared it held the sum of all loaded values. -/
theorem sweeps_spec {V : Type} [AddCommMonoid V] (k : Nat) (x : Nat → V) :
    up_sweep_loop (2 ^ k) (2 ^ k) 1 x (2 ^ k - 1) = Finset.sum (Finset.Ico 0 (2 ^ k)) x ∧
    ∀ c, c < 2 ^ k →
      down_sweep_loop (2 ^ k) (2 ^ k) (2 ^ k / 2)
          (Function.update (up_sweep_loop (2 ^ k) (2 ^ k) 1 x) (2 ^ k - 1) 0) c =
        Finset.sum (Finset.Ico 0 c) x := by
  have hB : 0 < 2 ^ k := Nat.pow_pos (by decide)
  have hinit : up_swept (2 ^ k) x x 0 := by
    constructor
    · intro c _
      simp
    · intro t ht
      exact absurd ht (Nat.not_lt_zero t)
  have hU := up_loop_spec k x k 0 (2 ^ k) x (by omega) (Nat.lt_two_pow k) hinit
  rw [pow_zero] at hU
  generalize up_sweep_loop (2 ^ k) (2 ^ k) 1 x = hu at hU ⊢
  have hD0 : down_swept (2 ^ k) x (Function.update hu (2 ^ k - 1) 0) k := by
    constructor
    · intro c hc
      have hc1 : c + 1 ≤ 1 := by
        have h1 : 2 ^ k * (c + 1) ≤ 2 ^ k * 1 := by rw [Nat.mul_one]; exact hc
        exact Nat.le_of_mul_le_mul_left h1 hB
      have hc0 : c = 0 := by omega
      subst hc0
      rw [Nat.zero_add, Nat.mul_one, Function.update_same, Nat.mul_zero]
      simp
    · intro t ht c hc
      have hpos : 0 < 2 ^ t * (2 * c + 1) := Nat.mul_pos (Nat.pow_pos (by decide)) (by omega)
      have hne : 2 ^ t * (2 * c + 1) - 1 ≠ 2 ^ k - 1 := by
        have := odd_mul_ne t k c 1 ht
        rw [Nat.mul_one] at this
        omega
      rw [Function.update_noteq hne]
      exact hU.2 t ht c hc
  have hD := down_loop_spec k x k (2 ^ k) _ (le_refl k) (Nat.lt_two_pow k) hD0
  constructor
  · have := hU.1 0 (by rw [Nat.zero_add, Nat.mul_one])
    rw [Nat.zero_add, Nat.mul_one, Nat.mul_zero] at this
    exact this
  · intro c hc
    have := hD.1 c (by rw [pow_zero, Nat.one_mul]; omega)
    rw [pow_zero, Nat.one_mul, Nat.one_mul, Nat.add_sub_cancel] at this
    exact this

/-- Block `g` of `start_prefix_sum` with `2 ^ k` threads: every element of the
block below `num_elements` becomes the sum of the elements of the block before
it, every other element is unchanged; when the block is not the last one of
the grid and lies entirely below `num_elements - 1`, `block_sum[g]` becomes the
sum of the elements of the block, and nothing else of `block_sum` changes. -/
theorem start_block_spec {V : Type} [AddCommMonoid V] (k n g G : Nat)
    (uninitialized elements block_sum : Nat → V) :
    (∀ c, c < 2 ^ k → g * 2 ^ k + c < n →
      (start_prefix_sum_block (2 ^ k) n g G uninitialized elements block_sum).1
          (g * 2 ^ k + c) =
        Finset.sum (Finset.Ico (g * 2 ^ k) (g * 2 ^ k + c)) elements) ∧
    (∀ j, (j < g * 2 ^ k ∨ g * 2 ^ k + 2 ^ k ≤ j ∨ n ≤ j) →
      (start_prefix_sum_block (2 ^ k) n g G uninitialized elements block_sum).1 j =
        elements j) ∧
    (g + 1 < G → g * 2 ^ k + 2 ^ k < n →
      (start_prefix_sum_block (2 ^ k) n g G uninitialized elements block_sum).2 g =
        Finset.sum (Finset.Ico (g * 2 ^ k) (g * 2 ^ k + 2 ^ k)) elements) ∧
    (∀ b, (b ≠ g ∨ ¬ g + 1 < G) →
      (start_prefix_sum_block (2 ^ k) n g G uninitialized elements block_sum).2 b =
        block_sum b) := by
  have hB : 0 < 2 ^ k := Nat.pow_pos (by decide)
  have hx : ∀ c, c < 2 ^ k →
      for_each_thread (2 ^ k) (load_thread (2 ^ k) n g elements) uninitialized c =
        if g * 2 ^ k + c + 1 < n then elements (g * 2 ^ k + c) else 0 :=
    fun c hc => load_spec (2 ^ k) n g elements uninitialized c hc
  obtain ⟨htotal, hbefore⟩ := sweeps_spec k
    (for_each_thread (2 ^ k) (load_thread (2 ^ k) n g elements) uninitialized)
  obtain ⟨hs1, hs2⟩ := store_spec (2 ^ k) n g
    (down_sweep_loop (2 ^ k) (2 ^ k) (2 ^ k / 2)
      (Function.update (up_sweep_loop (2 ^ k) (2 ^ k) 1
        (for_each_thread (2 ^ k) (load_thread (2 ^ k) n g elements) uninitialized))
        (2 ^ k - 1) 0)) elements
  simp only [start_prefix_sum_block, store_total_spec (2 ^ k) g G hB]
  refine ⟨?_, ?_, ?_, ?_⟩
  · intro c hc hn
    rw [hs1 c hc hn, hbefore c hc]
    apply sum_loaded
    intro i hi
    rw [hx i (by omega), if_pos (by omega)]
  · intro j hj
    exact hs2 j hj
  · intro hg hn
    rw [if_pos hg, Function.update_same, htotal]
    apply sum_loaded
    intro i hi
    rw [hx i hi, if_pos (by omega)]
  · intro b hb
    rcases hb with hb | hb
    · split_ifs
      · rw [Function.update_noteq hb]
      · rfl
    · rw [if_neg hb]

/-! ## The two launches -/

theorem block_bounds (B g m : Nat) (h : g < m) : g * B + B ≤ m * B := by
  have h1 : (g + 1) * B ≤ m * B := Nat.mul_le_mul_right B h
  rw [Nat.add_mul, Nat.one_mul] at h1
  exact h1

/-- The launch of `start_prefix_sum` with `2 ^ k` threads per block, after the
first `m` blocks: every element of these blocks below `num_elements` holds the
sum of the elements of its block before it, the blocks that are not the last
one of the grid have stored their sums, and nothing else has changed. -/
theorem start_grid_spec {V : Type} [AddCommMonoid V] (k n G : Nat)
    (hG : ∀ b, b + 1 < G → b * 2 ^ k + 2 ^ k < n)
    (uninitialized : Nat → Nat → V) (elements block_sum : Nat → V) :
    ∀ m : Nat, ∃ memory : (Nat → V) × (Nat → V),
      (List.range m).foldl
        (fun memory group => start_prefix_sum_block (2 ^ k) n group G
          (uninitialized group) memory.1 memory.2) (elements, block_sum) = memory ∧
      (∀ g c, g < m → c < 2 ^ k → g * 2 ^ k + c < n →
        memory.1 (g * 2 ^ k + c) =
          Finset.sum (Finset.Ico (g * 2 ^ k) (g * 2 ^ k + c)) elements) ∧
      (∀ j, (m * 2 ^ k ≤ j ∨ n ≤ j) → memory.1 j = elements j) ∧
      (∀ b, b < m → b + 1 < G →
        memory.2 b = Finset.sum (Finset.Ico (b * 2 ^ k) (b * 2 ^ k + 2 ^ k)) elements) ∧
      (∀ b, (m ≤ b ∨ ¬ b + 1 < G) → memory.2 b = block_sum b) := by
  intro m
  induction m with
  | zero =>
    refine ⟨(elements, block_sum), rfl, ?_, ?_, ?_, ?_⟩
    · intro g c hg
      exact absurd hg (Nat.not_lt_zero g)
    · intro j _
      rfl
    · intro b hb
      exact absurd hb (Nat.not_lt_zero b)
    · intro b _
      rfl
  | succ m ih =>
    obtain ⟨memory, hfold, p1, p2, p3, p4⟩ := ih
    obtain ⟨ba, bb, bc, bd⟩ :=
      start_block_spec k n m G (uninitialized m) memory.1 memory.2
    refine ⟨start_prefix_sum_block (2 ^ k) n m G (uninitialized m) memory.1 memory.2, ?_,
      ?_, ?_, ?_, ?_⟩
    · rw [List.range_succ, List.foldl_append, hfold]
      rfl
    · intro g c hg hc hn
      rcases Nat.lt_or_ge g m with hgm | hgm
      · have := block_bounds (2 ^ k) g m hgm
        rw [bb _ (Or.inl (by omega))]
        exact p1 g c hgm hc hn
      · have hgm2 : g = m := by omega
        subst hgm2
        rw [ba c hc hn]
        apply Finset.sum_congr rfl
        intro j hj
        exact p2 j (Or.inl (Finset.mem_Ico.mp hj).1)
    · intro j hj
      have hsucc : (m + 1) * 2 ^ k = m * 2 ^ k + 2 ^ k := by rw [Nat.add_mul, Nat.one_mul]
      rcases hj with hj | hj
      · rw [hsucc] at hj
        rw [bb j (Or.inr (Or.inl hj))]
        exact p2 j (Or.inl (le_trans (Nat.le_add_right _ _) hj))
      · rw [bb j (Or.inr (Or.inr hj))]
        exact p2 j (Or.inr hj)
    · intro b hb hbG
      rcases Nat.lt_or_ge b m with hbm | hbm
      · rw [bd b (Or.inl (by omega))]
        exact p3 b hbm hbG
      · have hbm2 : b = m := by omega
        subst hbm2
        rw [bc hbG (hG b hbG)]
        apply Finset.sum_congr rfl
        intro j hj
        exact p2 j (Or.inl (Finset.mem_Ico.mp hj).1)
    · intro b hb
      rcases hb with hb | hb
      · rw [bd b (Or.inl (by omega))]
        exact p4 b (Or.inl (by omega))
      · by_cases hbm : b = m
        · subst hbm
          rw [bd b (Or.inr hb)]
          exact p4 b (Or.inr hb)
        · rw [bd b (Or.inl hbm)]
          exact p4 b (Or.inr hb)

theorem foldl_add_eq_sum {V : Type} [AddCommMonoid V] (f : Nat → V) (g : Nat) :
    (List.range g).foldl (fun s i => s + f i) 0 = Finset.sum (Finset.range g) f := by
  induction g with
  | zero => simp
  | succ g ih =>
    rw [List.range_succ, List.foldl_append, ih, Finset.sum_range_succ]
    rfl

/-- The launch of `finalize_prefix_sum`, after the first `m` blocks: every
element of these blocks below `num_elements` has the sums of the blocks before
its own added, and nothing else has changed. -/
theorem finalize_grid_spec {V : Type} [AddCommMonoid V] (B n : Nat)
    (block_sum elements : Nat → V) :
    ∀ m : Nat, ∃ result : Nat → V,
      (List.range m).foldl
        (fun e group => for_each_thread B
          (finalize_prefix_sum_thread B n group block_sum) e) elements = result ∧
      (∀ g c, g < m → c < B → g * B + c < n →
        result (g * B + c) = elements (g * B + c) + Finset.sum (Finset.range g) block_sum) ∧
      (∀ j, (m * B ≤ j ∨ n ≤ j) → result j = elements j) := by
  intro m
  induction m with
  | zero =>
    refine ⟨elements, rfl, ?_, ?_⟩
    · intro g c hg
      exact absurd hg (Nat.not_lt_zero g)
    · intro j _
      rfl
  | succ m ih =>
    obtain ⟨e, hfold, q1, q2⟩ := ih
    have hbody : finalize_prefix_sum_thread B n m block_sum =
        (fun c s => if m * B + c < n then Function.update s ((fun c => m * B + c) c)
          ((fun _ v => v + Finset.sum (Finset.range m) block_sum) c
            (s ((fun c => m * B + c) c))) else s) := by
      funext c s
      simp only [finalize_prefix_sum_thread, get_thread_id_flat, foldl_add_eq_sum]
    obtain ⟨h1, h2⟩ := own_cell_spec (fun c => m * B + c < n) (fun c => m * B + c)
      (fun _ v => v + Finset.sum (Finset.range m) block_sum)
      (fun a b h => by
        have h2 : m * B + a = m * B + b := h
        omega) e B
    rw [← hbody] at h1 h2
    refine ⟨for_each_thread B (finalize_prefix_sum_thread B n m block_sum) e, ?_, ?_, ?_⟩
    · rw [List.range_succ, List.foldl_append, hfold]
      rfl
    · intro g c hg hc hn
      rcases Nat.lt_or_ge g m with hgm | hgm
      · have := block_bounds B g m hgm
        rw [h2 _ (fun c2 _ _ => by omega)]
        exact q1 g c hgm hc hn
      · have hgm2 : g = m := by omega
        subst hgm2
        rw [h1 c hc hn, q2 _ (Or.inl (by omega))]
    · intro j hj
      have hsucc : (m + 1) * B = m * B + B := by rw [Nat.add_mul, Nat.one_mul]
      rw [h2 j (fun c2 hc2 hn2 => by omega)]
      exact q2 j (by omega)

/-- The sums of the first `g` blocks of `B` elements add up to the sum of the
first `g * B` elements. -/
theorem sum_blocks {V : Type} [AddCommMonoid V] (B : Nat) (f : Nat → V) (g : Nat) :
    Finset.sum (Finset.range g) (fun b => Finset.sum (Finset.Ico (b * B) (b * B + B)) f) =
      Finset.sum (Finset.Ico 0 (g * B)) f := by
  induction g with
  | zero => simp
  | succ g ih =>
    have hsucc : (g + 1) * B = g * B + B := by rw [Nat.add_mul, Nat.one_mul]
    rw [Finset.sum_range_succ, ih, hsucc,
      Finset.sum_Ico_consecutive f (Nat.zero_le _) (Nat.le_add_right _ _)]

theorem ceildiv_spec (n B : Nat) (hB : 0 < B) :
    n ≤ ceildiv n B * B ∧ ∀ b, b + 1 < ceildiv n B → b * B + B < n := by
  have h1 : (n + B - 1) / B * B ≤ n + B - 1 := Nat.div_mul_le_self _ _
  have h2 : n + B - 1 < (n + B - 1) / B * B + B := Nat.lt_div_mul_add hB
  unfold ceildiv
  constructor
  · omega
  · intro b hb
    have h3 : (b + 2) * B ≤ (n + B - 1) / B * B := Nat.mul_le_mul_right B hb
    have h4 : (b + 2) * B = b * B + B + B := by ring
    omega

/-! ## The order of the threads between two barriers -/

/-- Threads whose steps commute may run in any order. -/
theorem any_order {S : Type} (block_size : Nat) (body : Nat → S → S)
    (hcomm : ∀ a b s, body a (body b s) = body b (body a s)) (order : List Nat)
    (horder : order.Perm (List.range block_size)) (state : S) :
    order.foldl (fun s element_id => body element_id s) state =
      for_each_thread block_size body state :=
  List.Perm.foldl_eq' horder (fun x _ y _ z => hcomm y x z) state

theorem load_thread_comm {V : Type} [Zero V] (B n g : Nat) (elements : Nat → V)
    (a b : Nat) (s : Nat → V) :
    load_thread B n g elements a (load_thread B n g elements b s) =
      load_thread B n g elements b (load_thread B n g elements a s) := by
  by_cases hab : a = b
  · subst hab
    rfl
  · simp only [load_thread]
    exact (Function.update_comm hab _ _ _).symm

theorem up_sweep_thread_comm {V : Type} [Add V] (B P : Nat) (hP : 0 < P) (a b : Nat)
    (s : Nat → V) :
    up_sweep_thread B P a (up_sweep_thread B P b s) =
      up_sweep_thread B P b (up_sweep_thread B P a s) := by
  by_cases hab : a = b
  · subst hab
    rfl
  · have h1 : P * (2 * a + 2) - 1 ≠ P * (2 * b + 2) - 1 := fun h => by
      have := mul_pred_inj P _ _ hP (by omega) (by omega) h
      omega
    have h2 : P * (2 * a + 1) - 1 ≠ P * (2 * b + 2) - 1 := fun h => by
      have := mul_pred_inj P _ _ hP (by omega) (by omega) h
      omega
    have h3 : P * (2 * b + 1) - 1 ≠ P * (2 * a + 2) - 1 := fun h => by
      have := mul_pred_inj P _ _ hP (by omega) (by omega) h
      omega
    simp only [up_sweep_thread]
    split_ifs
    · rw [Function.update_noteq h1, Function.update_noteq h2, Function.update_noteq h1.symm,
        Function.update_noteq h3]
      exact (Function.update_comm h1 _ _ _).symm
    · rfl
    · rfl
    · rfl

theorem down_sweep_thread_comm {V : Type} [Add V] (B P : Nat) (hP : 0 < P) (a b : Nat)
    (s : Nat → V) :
    down_sweep_thread B P a (down_sweep_thread B P b s) =
      down_sweep_thread B P b (down_sweep_thread B P a s) := by
  by_cases hab : a = b
  · subst hab
    rfl
  · have hne : ∀ X Y, (X = 2 * a + 1 ∨ X = 2 * a + 2) → (Y = 2 * b + 1 ∨ Y = 2 * b + 2) →
        P * X - 1 ≠ P * Y - 1 := by
      intro X Y hX hY h
      have := mul_pred_inj P X Y hP (by omega) (by omega) h
      omega
    have haa := hne _ _ (Or.inl rfl) (Or.inl rfl)
    have hab2 := hne _ _ (Or.inl rfl) (Or.inr rfl)
    have hba := hne _ _ (Or.inr rfl) (Or.inl rfl)
    have hbb := hne _ _ (Or.inr rfl) (Or.inr rfl)
    have hself : ∀ e, P * (2 * e + 1) - 1 ≠ P * (2 * e + 2) - 1 := fun e h => by
      have := mul_pred_inj P _ _ hP (by omega) (by omega) h
      omega
    have hsa := hself a
    have hsb := hself b
    simp only [down_sweep_thread]
    split_ifs
    · generalize P * (2 * a + 1) - 1 = a1 at *
      generalize P * (2 * a + 2) - 1 = b1 at *
      generalize P * (2 * b + 1) - 1 = a2 at *
      generalize P * (2 * b + 2) - 1 = b2 at *
      simp only [Function.update_apply, haa, hab2, hba, hbb, hsa, hsb, haa.symm, hab2.symm,
        hba.symm, hbb.symm, hsa.symm, hsb.symm, if_false, if_true]
      funext j
      simp only [Function.update_apply]
      split_ifs <;> first | rfl | omega
    · rfl
    · rfl
    · rfl

theorem store_total_thread_comm {V : Type} [Zero V] (B g G a b : Nat)
    (s : (Nat → V) × (Nat → V)) :
    store_total_thread B g G a (store_total_thread B g G b s) =
      store_total_thread B g G b (store_total_thread B g G a s) := by
  by_cases ha : a = 0
  · by_cases hb : b = 0
    · rw [ha, hb]
    · simp only [store_total_thread, if_neg hb]
  · simp only [store_total_thread, if_neg ha]

theorem store_thread_comm {V : Type} (B n g : Nat) (helper : Nat → V) (a b : Nat)
    (s : Nat → V) :
    store_thread B n g helper a (store_thread B n g helper b s) =
      store_thread B n g helper b (store_thread B n g helper a s) := by
  by_cases hab : a = b
  · subst hab
    rfl
  · have hne : g * B + a ≠ g * B + b := by omega
    simp only [store_thread, get_thread_id_flat]
    split_ifs
    · exact (Function.update_comm hne _ _ _).symm
    · rfl
    · rfl
    · rfl

theorem finalize_prefix_sum_thread_comm {V : Type} [Add V] [Zero V] (B n g : Nat)
    (block_sum : Nat → V) (a b : Nat) (s : Nat → V) :
    finalize_prefix_sum_thread B n g block_sum a
        (finalize_prefix_sum_thread B n g block_sum b s) =
      finalize_prefix_sum_thread B n g block_sum b
        (finalize_prefix_sum_thread B n g block_sum a s) := by
  by_cases hab : a = b
  · subst hab
    rfl
  · have hne : g * B + a ≠ g * B + b := by omega
    simp only [finalize_prefix_sum_thread, get_thread_id_flat]
    split_ifs
    · rw [Function.update_noteq hne, Function.update_noteq hne.symm]
      exact (Function.update_comm hne _ _ _).symm
    · rfl
    · rfl
    · rfl

/-- Every step of `start_prefix_sum` and `finalize_prefix_sum` between two
barriers gives the same state in whatever order the threads of the block
run: the reads and writes of different threads do not meet. -/
theorem phases_any_order {V : Type} [Add V] [Zero V] (B n g G i : Nat) (hi : 0 < i)
    (order : List Nat) (horder : order.Perm (List.range B))
    (elements helper block_sum : Nat → V) :
    order.foldl (fun s e => load_thread B n g elements e s) helper =
      for_each_thread B (load_thread B n g elements) helper ∧
    order.foldl (fun s e => up_sweep_thread B i e s) helper =
      for_each_thread B (up_sweep_thread B i) helper ∧
    order.foldl (fun s e => store_total_thread B g G e s) (helper, block_sum) =
      for_each_thread B (store_total_thread B g G) (helper, block_sum) ∧
    order.foldl (fun s e => down_sweep_thread B i e s) helper =
      for_each_thread B (down_sweep_thread B i) helper ∧
    order.foldl (fun s e => store_thread B n g helper e s) elements =
      for_each_thread B (store_thread B n g helper) elements ∧
    order.foldl (fun s e => finalize_prefix_sum_thread B n g block_sum e s) elements =
      for_each_thread B (finalize_prefix_sum_thread B n g block_sum) elements :=
  ⟨any_order B _ (load_thread_comm B n g elements) order horder helper,
    any_order B _ (up_sweep_thread_comm B i hi) order horder helper,
    any_order B _ (store_total_thread_comm B g G) order horder (helper, block_sum),
    any_order B _ (down_sweep_thread_comm B i hi) order horder helper,
    any_order B _ (store_thread_comm B n g helper) order horder elements,
    any_order B _ (finalize_prefix_sum_thread_comm B n g block_sum) order horder elements⟩

/-! ## The outputs of all parts -/

/-- The filter-map over entries whose local index is defined drops none of
them: mapped to the slots of the output, it is the list of the translated
entries, one per entry. -/
theorem filter_map_as_map {V : Type} (gw lw : Nat) (P : Partition) :
    ∀ (l : List (matrix_data_entry V)),
      (∀ e ∈ l, ∃ x, local_index gw lw P e.row = some x) →
      (l.filterMap (fun e => (local_index gw lw P e.row).map
          (fun x => (⟨x, e.column, e.value⟩ : matrix_data_entry V)))).map
          (fun o => some (narrow_column lw o)) =
        l.map (fun e => (local_index gw lw P e.row).map
          (fun x => (⟨x, wrap lw e.column, e.value⟩ : matrix_data_entry V))) := by
  intro l
  induction l with
  | nil => intro _; rfl
  | cons e rest ih =>
    intro h
    obtain ⟨x, hx⟩ := h e (List.mem_cons_self _ _)
    have hrest := ih (fun a ha => h a (List.mem_cons_of_mem _ ha))
    rw [List.filterMap_cons, List.map_cons, hx]
    simp only [Option.map_some', List.map_cons, hrest]
    rfl

/-! ## Claims -/

/-- C1: on a partition whose `range_bounds` (of length `num_ranges + 1`) is
strictly increasing with `range_bounds[0] = 0`, for every hint in
`[0, num_ranges)` and every global index `g` with
`0 <= g < range_bounds[num_ranges]`, `find_range(g, hint)` returns a range id
`i < num_ranges` with `range_bounds[i] <= g < range_bounds[i+1]`, and `i` is the
only range id whose bounds enclose `g`. -/
theorem find_range_correct (P : Partition) (g : Int) (hint : Nat)
    (hshape : P.shaped) (hinc : P.increasing_from_zero) (hhint : hint < P.num_ranges)
    (hg0 : 0 ≤ g) (hg1 : g < P.size) :
    ∃ i lo hi, find_range P g hint = some i ∧ i < P.num_ranges ∧
      P.range_bounds[i]? = some lo ∧ P.range_bounds[i + 1]? = some hi ∧ lo ≤ g ∧ g < hi ∧
      ∀ j lo2 hi2, P.range_bounds[j]? = some lo2 → P.range_bounds[j + 1]? = some hi2 →
        lo2 ≤ g → g < hi2 → j = i :=
  find_range_encloses P g hint hshape hinc hhint hg0 hg1

/-- Instance of C1: global index `3` of the sample partition, looked up with
the hint `5`. -/
theorem find_range_correct_witness :
    (example_partition.shaped ∧ example_partition.increasing_from_zero ∧
      5 < example_partition.num_ranges ∧ (0 : Int) ≤ 3 ∧ 3 < example_partition.size) ∧
    ∃ i lo hi, find_range example_partition 3 5 = some i ∧ i < example_partition.num_ranges ∧
      example_partition.range_bounds[i]? = some lo ∧
      example_partition.range_bounds[i + 1]? = some hi ∧ lo ≤ 3 ∧ 3 < hi ∧
      ∀ j lo2 hi2, example_partition.range_bounds[j]? = some lo2 →
        example_partition.range_bounds[j + 1]? = some hi2 → lo2 ≤ 3 → 3 < hi2 → j = i :=
  ⟨by decide,
    find_range_correct example_partition 3 5 (by decide) (by decide) (by decide) (by decide)
      (by decide)⟩

/-- C2 as stated fails: with a 64-bit `GlobalIndexType` and a 32-bit
`LocalIndexType`, the entry `(3, 2 ^ 31, 13)` of a well-formed input for part
`2` of the sample partition is emitted with column `-2 ^ 31`, not with its
column `2 ^ 31` as the filter-map has it. -/
theorem build_local_column_narrowed :
    example_partition.shaped ∧ example_partition.increasing_from_zero ∧
    (∀ e ∈ [(⟨3, 2 ^ 31, 13⟩ : matrix_data_entry Nat)], 0 ≤ e.row ∧
      e.row < example_partition.size) ∧
    build_local 64 32 example_partition 2 [(⟨3, 2 ^ 31, 13⟩ : matrix_data_entry Nat)] =
      some [some ⟨1, -(2 ^ 31), 13⟩] ∧
    build_local_filter_map 64 32 example_partition 2
      [(⟨3, 2 ^ 31, 13⟩ : matrix_data_entry Nat)] = [⟨1, 2 ^ 31, 13⟩] ∧
    build_local 64 32 example_partition 2 [(⟨3, 2 ^ 31, 13⟩ : matrix_data_entry Nat)] ≠
      some ((build_local_filter_map 64 32 example_partition 2
        [(⟨3, 2 ^ 31, 13⟩ : matrix_data_entry Nat)]).map some) := by
  decide

/-- C2, amended: for every input entry list, every shaped partition with bounds
strictly increasing from `0` that covers all rows, and every target part `p`,
`build_local` fills its output with exactly the filter-map of the input (the
entries whose row's owning part `part_ids[find_range(row)]` is `p`, in their
original relative order, each `(row, column, value)` turned into
`(map_to_local(row, find_range(row)), column, value)`), except that each column
is converted to `LocalIndexType`; no owned entry is lost; and when every column
is representable in `LocalIndexType` the output is the filter-map itself. -/
theorem build_local_is_filter_map {V : Type} (gw lw : Nat) (P : Partition) (p : Int)
    (input : List (matrix_data_entry V))
    (hshape : P.shaped) (hinc : P.increasing_from_zero)
    (hrows : ∀ e ∈ input, 0 ≤ e.row ∧ e.row < P.size) :
    build_local gw lw P p input =
      some ((build_local_filter_map gw lw P p input).map
        (fun o => some (narrow_column lw o))) ∧
    (build_local_filter_map gw lw P p input).length =
      (input.filter (fun e => owning_part P e.row = some p)).length ∧
    (0 < lw → (∀ e ∈ input, fits lw e.column) →
      build_local gw lw P p input =
        some ((build_local_filter_map gw lw P p input).map some)) := by
  have hsorted : P.non_decreasing := pairwise_le_of_pairwise_lt hinc.1
  rcases covered_nil_or_ranges P input hinc hrows with hnil | hn
  · subst hnil
    simp [build_local, count_pass, fill_pass, build_local_filter_map]
  · have hlt : ∀ e ∈ input, e.row < P.size := fun e he => (hrows e he).2
    have heq := build_local_eq gw lw P p input hshape hsorted hn hlt
    refine ⟨heq, filter_map_length gw lw P p hshape hsorted hn input hlt, ?_⟩
    intro hlw hcols
    rw [heq]
    congr 1
    apply List.map_congr_left
    intro o ho
    have hcol : fits lw o.column := by
      simp only [build_local_filter_map, List.mem_filterMap, List.mem_filter,
        Option.map_eq_some'] at ho
      obtain ⟨e, ⟨he, -⟩, l, -, rfl⟩ := ho
      exact hcols e he
    simp only [narrow_column, wrap_of_fits hlw hcol]

/-- Instance of the amended C2: four entries in unsorted row order, part `2` of
the sample partition. -/
theorem build_local_is_filter_map_witness :
    (example_partition.shaped ∧ example_partition.increasing_from_zero ∧
      ∀ e ∈ example_vector_entries, 0 ≤ e.row ∧ e.row < example_partition.size) ∧
    (build_local 64 32 example_partition 2 example_vector_entries =
      some ((build_local_filter_map 64 32 example_partition 2 example_vector_entries).map
        (fun o => some (narrow_column 32 o))) ∧
    (build_local_filter_map 64 32 example_partition 2 example_vector_entries).length =
      (example_vector_entries.filter
        (fun e => owning_part example_partition e.row = some 2)).length ∧
    (0 < 32 → (∀ e ∈ example_vector_entries, fits 32 e.column) →
      build_local 64 32 example_partition 2 example_vector_entries =
        some ((build_local_filter_map 64 32 example_partition 2
          example_vector_entries).map some))) :=
  ⟨by decide,
    build_local_is_filter_map 64 32 example_partition 2 example_vector_entries
      (by decide) (by decide) (by decide)⟩

/-- C3: when neither the subtraction in `GlobalIndexType`, nor the conversion
to `LocalIndexType`, nor the addition in `LocalIndexType` overflows,
`map_to_local(g, r)` is `range_starting_indices[r] + (g - range_bounds[r])`, for
every global index `g` and every range id `r` whose two array reads are in
bounds: nothing relates `r` to the range that contains `g`, so `r` is not
validated. -/
theorem map_to_local_exact (gw lw : Nat) (P : Partition) (g : Int) (r : Nat) (b s : Int)
    (hgw : 0 < gw) (hlw : 0 < lw)
    (hb : P.range_bounds[r]? = some b) (hs : P.range_starting_indices[r]? = some s)
    (hsub : fits gw (g - b)) (hcast : fits lw (g - b)) (hadd : fits lw (s + (g - b))) :
    map_to_local gw lw P g r = some (s + (g - b)) := by
  have hadd2 : fits lw (g - b + s) := by rw [add_comm]; exact hadd
  simp only [map_to_local, hb, hs]
  rw [wrap_of_fits hgw hsub, wrap_of_fits hlw hcast, wrap_of_fits hlw hadd2, add_comm]

/-- Instance of C3: global index `7` of the sample partition lies in range `5`,
and `map_to_local(7, 1)` still returns `0 + (7 - 1)`. -/
theorem map_to_local_exact_witness :
    ((0 < 64 ∧ 0 < 32) ∧ example_partition.range_bounds[1]? = some 1 ∧
      example_partition.range_starting_indices[1]? = some 0 ∧
      fits 64 (7 - 1) ∧ fits 32 (7 - 1) ∧ fits 32 (0 + (7 - 1))) ∧
    map_to_local 64 32 example_partition 7 1 = some (0 + (7 - 1)) :=
  ⟨by decide,
    map_to_local_exact 64 32 example_partition 7 1 1 0 (by decide) (by decide) (by decide)
      (by decide) (by decide) (by decide) (by decide)⟩

/-- C4 as stated fails: with a 64-bit `GlobalIndexType` and a 32-bit
`LocalIndexType`, global index `2 ^ 31` of the one-range partition of `2 ^ 32`
indices is looked up to range `0` and mapped to the local index `-2 ^ 31`, and
the inverse translation `0 + (-2 ^ 31 - 0)` is not `2 ^ 31`. -/
theorem round_trip_narrowing :
    wide_partition.shaped ∧ wide_partition.increasing_from_zero ∧
    (0 : Int) ≤ 2 ^ 31 ∧ (2 : Int) ^ 31 < wide_partition.size ∧
    find_range wide_partition (2 ^ 31) 0 = some 0 ∧
    map_to_local 64 32 wide_partition (2 ^ 31) 0 = some (-(2 ^ 31)) ∧
    (0 : Int) + (-(2 ^ 31) - 0) ≠ 2 ^ 31 := by
  decide

/-- C4, amended: on a shaped partition with bounds strictly increasing from
`0`, for every global index `g` in `[0, range_bounds[num_ranges])` and every
hint below `num_ranges`, with `i = find_range(g, hint)` and
`l = map_to_local(g, i)` (both defined), the inverse translation
`range_bounds[i] + (l - range_starting_indices[i])` equals `g` whenever the
local index `range_starting_indices[i] + (g - range_bounds[i])` is representable
in `LocalIndexType` (of `lw` bits, no wider than `GlobalIndexType`). -/
theorem round_trip_of_fits (gw lw : Nat) (P : Partition) (g : Int) (hint : Nat)
    (hshape : P.shaped) (hinc : P.increasing_from_zero) (hhint : hint < P.num_ranges)
    (hg0 : 0 ≤ g) (hg1 : g < P.size) (hlw : 0 < lw) (hle : lw ≤ gw) :
    ∃ i b s l, find_range P g hint = some i ∧ P.range_bounds[i]? = some b ∧
      P.range_starting_indices[i]? = some s ∧ map_to_local gw lw P g i = some l ∧
      (fits lw (s + (g - b)) → b + (l - s) = g) := by
  obtain ⟨i, lo, hi, hfind, hi_lt, hlo, -, -, -, -⟩ :=
    find_range_encloses P g hint hshape hinc hhint hg0 hg1
  have hi_len : i < P.range_starting_indices.length := by rw [hshape.2.2]; exact hi_lt
  obtain ⟨s, hs⟩ : ∃ s, P.range_starting_indices[i]? = some s :=
    ⟨P.range_starting_indices[i], List.getElem?_eq_getElem hi_len⟩
  refine ⟨i, lo, s, wrap lw (wrap lw (wrap gw (g - lo)) + s), hfind, hlo, hs, ?_, ?_⟩
  · simp only [map_to_local, hlo, hs]
  · intro hfit
    rw [wrap_chain_of_fits hlw hle (g - lo) s hfit]
    ring

/-- Instance of the amended C4: global index `6` of the sample partition, hint
`0`, 64-bit global and 32-bit local indices. -/
theorem round_trip_of_fits_witness :
    (example_partition.shaped ∧ example_partition.increasing_from_zero ∧
      0 < example_partition.num_ranges ∧ (0 : Int) ≤ 6 ∧ 6 < example_partition.size ∧
      0 < 32 ∧ 32 ≤ 64) ∧
    ∃ i b s l, find_range example_partition 6 0 = some i ∧
      example_partition.range_bounds[i]? = some b ∧
      example_partition.range_starting_indices[i]? = some s ∧
      map_to_local 64 32 example_partition 6 i = some l ∧
      (fits 32 (s + (6 - b)) → b + (l - s) = 6) :=
  ⟨by decide,
    round_trip_of_fits 64 32 example_partition 6 0 (by decide) (by decide) (by decide)
      (by decide) (by decide) (by decide) (by decide)⟩

/-- C5 as stated fails: in the one-range partition of `2 ^ 32` indices, whose
starting index is consistent, part `0` owns the global indices `2 ^ 31 - 1` and
`2 ^ 31`; with a 64-bit `GlobalIndexType` and a 32-bit `LocalIndexType` the
first is mapped to `2 ^ 31 - 1` and the second to `-2 ^ 31`, which is neither
larger than the first nor in `[0, n_p)`. -/
theorem local_numbering_narrowed :
    wide_partition.shaped ∧ wide_partition.increasing_from_zero ∧
    wide_partition.starts_consistent ∧ wide_partition.local_size 0 = 2 ^ 32 ∧
    owning_part wide_partition (2 ^ 31 - 1) = some 0 ∧
    owning_part wide_partition (2 ^ 31) = some 0 ∧
    local_index 64 32 wide_partition (2 ^ 31 - 1) = some (2 ^ 31 - 1) ∧
    local_index 64 32 wide_partition (2 ^ 31) = some (-(2 ^ 31)) := by
  decide

/-- C5, amended: on a shaped partition with bounds strictly increasing from `0`
whose `range_starting_indices[i]` is the total length of all earlier ranges
owned by the same part as range `i`, for every part `p` whose number `n_p` of
owned global indices (`owned_count`) does not exceed the number `2 ^ (lw - 1)`
of non-negative `LocalIndexType` values (`LocalIndexType` no wider than
`GlobalIndexType`): the map `g -> map_to_local(g, find_range(g))` sends every
global index owned by `p` into `[0, n_p)`, is strictly increasing on them, and
reaches every value of `[0, n_p)`; hence `build_local` for `p`, on covered rows,
emits only rows in `[0, n_p)`. -/
theorem local_numbering (gw lw : Nat) (P : Partition) (p : Int)
    (hshape : P.shaped) (hinc : P.increasing_from_zero) (hcons : P.starts_consistent)
    (hlw : 0 < lw) (hle : lw ≤ gw) (hsize : (P.owned_count p : Int) ≤ 2 ^ (lw - 1)) :
    (∀ g, 0 ≤ g → g < P.size → owning_part P g = some p →
      ∃ l, local_index gw lw P g = some l ∧ 0 ≤ l ∧ l < (P.owned_count p : Int)) ∧
    (∀ g g2 l l2, 0 ≤ g → g < g2 → g2 < P.size →
      owning_part P g = some p → owning_part P g2 = some p →
      local_index gw lw P g = some l → local_index gw lw P g2 = some l2 → l < l2) ∧
    (∀ l, 0 ≤ l → l < (P.owned_count p : Int) →
      ∃ g, 0 ≤ g ∧ g < P.size ∧ owning_part P g = some p ∧
        local_index gw lw P g = some l) ∧
    (∀ (V : Type) (input : List (matrix_data_entry V)),
      (∀ e ∈ input, 0 ≤ e.row ∧ e.row < P.size) →
      ∃ out, build_local gw lw P p input = some out ∧
        ∀ slot ∈ out, ∃ o, slot = some o ∧ 0 ≤ o.row ∧
          o.row < (P.owned_count p : Int)) := by
  have hsorted : P.non_decreasing := pairwise_le_of_pairwise_lt hinc.1
  rw [owned_count_eq P p hshape hinc] at hsize ⊢
  have hrange : ∀ g, 0 ≤ g → g < P.size → owning_part P g = some p →
      ∃ l, local_index gw lw P g = some l ∧ 0 ≤ l ∧ l < P.local_size p := by
    intro g hg0 hg1 hown
    obtain ⟨i, hi, -, hpart, h1, h2, hloc⟩ :=
      local_index_of_owned gw lw P p g hshape hinc hcons hlw hle hsize hg0 hg1 hown
    have hnn := owned_before_nonneg P hshape hinc.1 p i (by omega)
    have hnext := owned_before_mono P hshape hinc.1 p (i + 1) P.num_ranges (by omega)
      (le_refl _)
    rw [owned_before_succ_owned P p i hpart] at hnext
    refine ⟨_, hloc, by omega, ?_⟩
    unfold Partition.local_size
    unfold Partition.range_length at hnext
    omega
  refine ⟨hrange, ?_, ?_, ?_⟩
  · intro g g2 l l2 hg0 hlt hg2 hown hown2 hl hl2
    obtain ⟨i, hi, -, hpart, h1, h2, hloc⟩ :=
      local_index_of_owned gw lw P p g hshape hinc hcons hlw hle hsize hg0 (by omega) hown
    obtain ⟨k, hk, -, hpartk, k1, k2, hlock⟩ :=
      local_index_of_owned gw lw P p g2 hshape hinc hcons hlw hle hsize (by omega) hg2 hown2
    rw [hloc] at hl
    rw [hlock] at hl2
    rw [← Option.some.inj hl, ← Option.some.inj hl2]
    rcases Nat.lt_trichotomy i k with h | h | h
    · have hstep := owned_before_mono P hshape hinc.1 p (i + 1) k (by omega) (by omega)
      rw [owned_before_succ_owned P p i hpart] at hstep
      unfold Partition.range_length at hstep
      omega
    · subst h
      omega
    · exfalso
      have hb := read_le_of_pairwise_le hsorted (show k + 1 ≤ i by omega)
        (read_bound P hshape (k + 1) (by omega)) (read_bound P hshape i (by omega))
      omega
  · intro l hl0 hl1
    obtain ⟨i, hi, hpart, h1, h2⟩ := owned_range_of_local P p l hl0 P.num_ranges hl1
    have hb0 : (0 : Int) ≤ P.range_bounds.getD i 0 := by
      have := read_le_of_pairwise_le hsorted (Nat.zero_le i) hinc.2
        (read_bound P hshape i (by omega))
      exact this
    have hbn : P.range_bounds.getD (i + 1) 0 ≤ P.size :=
      read_le_of_pairwise_le hsorted (show i + 1 ≤ P.num_ranges by omega)
        (read_bound P hshape (i + 1) (by omega)) (read_bound P hshape P.num_ranges (le_refl _))
    have hlen : P.range_length i =
        P.range_bounds.getD (i + 1) 0 - P.range_bounds.getD i 0 := rfl
    have hg0 : 0 ≤ P.range_bounds.getD i 0 + (l - P.owned_before p i) := by omega
    have hg1 : P.range_bounds.getD i 0 + (l - P.owned_before p i) < P.size := by omega
    have hn : 0 < P.num_ranges := by omega
    obtain ⟨j, lo, hi2, hfind, -, -, -, -, -, huniq⟩ :=
      find_range_encloses P _ 0 hshape hinc hn hg0 hg1
    have hij : i = j := huniq i _ _ (read_bound P hshape i (by omega))
      (read_bound P hshape (i + 1) (by omega)) (by omega) (by omega)
    subst hij
    have hown : owning_part P (P.range_bounds.getD i 0 + (l - P.owned_before p i)) =
        some p := by
      simp only [owning_part, hfind, Option.some_bind, hpart]
    obtain ⟨k, -, hfindk, -, -, -, hloc⟩ :=
      local_index_of_owned gw lw P p _ hshape hinc hcons hlw hle hsize hg0 hg1 hown
    have hki : k = i := by
      rw [hfind] at hfindk
      exact (Option.some.inj hfindk).symm
    subst hki
    refine ⟨_, hg0, hg1, hown, ?_⟩
    rw [hloc]
    congr 1
    omega
  · intro V input hrows
    rcases covered_nil_or_ranges P input hinc hrows with hnil | hn
    · subst hnil
      exact ⟨[], by simp [build_local, count_pass, fill_pass], by simp⟩
    · have hlt : ∀ e ∈ input, e.row < P.size := fun e he => (hrows e he).2
      refine ⟨_, build_local_eq gw lw P p input hshape hsorted hn hlt, ?_⟩
      intro slot hslot
      simp only [List.mem_map] at hslot
      obtain ⟨o, ho, rfl⟩ := hslot
      simp only [build_local_filter_map, List.mem_filterMap, List.mem_filter,
        Option.map_eq_some', decide_eq_true_eq] at ho
      obtain ⟨e, ⟨he, hown⟩, l, hl, rfl⟩ := ho
      obtain ⟨l2, hl2, h0, h1⟩ := hrange e.row (hrows e he).1 (hrows e he).2 hown
      rw [hl] at hl2
      have : l = l2 := Option.some.inj hl2
      subst this
      exact ⟨_, rfl, h0, h1⟩

/-- Instance of the amended C5: part `2` of the sample partition owns the
global indices `2`, `3` and `7`, numbered `0`, `1` and `2`; shown for the pair
`3 < 7`, the local index `1`, and an unsorted input. -/
theorem local_numbering_witness :
    (example_partition.shaped ∧ example_partition.increasing_from_zero ∧
      example_partition.starts_consistent ∧ 0 < 32 ∧ 32 ≤ 64 ∧
      (example_partition.owned_count 2 : Int) ≤ 2 ^ (32 - 1)) ∧
    (∃ l, local_index 64 32 example_partition 7 = some l ∧ 0 ≤ l ∧
      l < (example_partition.owned_count 2 : Int)) ∧
    (1 : Int) < 2 ∧
    (∃ g, 0 ≤ g ∧ g < example_partition.size ∧ owning_part example_partition g = some 2 ∧
      local_index 64 32 example_partition g = some 1) ∧
    (∃ out, build_local 64 32 example_partition 2 example_vector_entries = some out ∧
      ∀ slot ∈ out, ∃ o, slot = some o ∧ 0 ≤ o.row ∧
        o.row < (example_partition.owned_count 2 : Int)) :=
  ⟨by decide,
    (local_numbering 64 32 example_partition 2 (by decide) (by decide) (by decide) (by decide)
      (by decide) (by decide)).1 7 (by decide) (by decide) (by decide),
    (local_numbering 64 32 example_partition 2 (by decide) (by decide) (by decide) (by decide)
      (by decide) (by decide)).2.1 3 7 1 2 (by decide) (by decide) (by decide) (by decide)
      (by decide) (by decide) (by decide),
    (local_numbering 64 32 example_partition 2 (by decide) (by decide) (by decide) (by decide)
      (by decide) (by decide)).2.2.1 1 (by decide) (by decide),
    (local_numbering 64 32 example_partition 2 (by decide) (by decide) (by decide) (by decide)
      (by decide) (by decide)).2.2.2 Nat example_vector_entries (by decide)⟩

/-- C6: on a shaped partition with non-decreasing `range_bounds`, for hints
below `num_ranges`: `find_range(g, hint)` equals the binary-search fallback
alone for every global index `g`; the count of the first loop and the array and
write index of the second loop do not depend on the hint they start from, for
every input in any order; `build_local` is unchanged when its two loops start
from arbitrary hints; and for every input whose rows are below the partition's
size, sorted or not, its output is the filter-map of the input (columns
converted to `LocalIndexType`). -/
theorem fast_path_transparent {V : Type} (gw lw : Nat) (P : Partition) (p : Int)
    (hint hint2 : Nat) (hshape : P.shaped) (hsorted : P.non_decreasing)
    (hhint : hint < P.num_ranges) (hhint2 : hint2 < P.num_ranges) :
    (∀ g, find_range P g hint = find_range_fallback P g) ∧
    (∀ (input : List (matrix_data_entry V)) count,
      (count_pass P p input count hint).map Prod.fst =
        (count_pass P p input count hint2).map Prod.fst) ∧
    (∀ (input : List (matrix_data_entry V)) local_data idx,
      (fill_pass gw lw P p input local_data idx hint).map (fun s => (s.1, s.2.1)) =
        (fill_pass gw lw P p input local_data idx hint2).map (fun s => (s.1, s.2.1))) ∧
    (∀ (input : List (matrix_data_entry V)),
      build_local gw lw P p input =
        (count_pass P p input 0 hint).bind (fun c =>
          (fill_pass gw lw P p input (List.replicate c.1 none) 0 hint2).map
            (fun s => s.1))) ∧
    (∀ (input : List (matrix_data_entry V)), (∀ e ∈ input, e.row < P.size) →
      build_local gw lw P p input =
        some ((build_local_filter_map gw lw P p input).map
          (fun o => some (narrow_column lw o)))) := by
  have hn : 0 < P.num_ranges := by omega
  have hfind : ∀ g h, h < P.num_ranges → find_range P g h = find_range_fallback P g :=
    fun g h hh => find_range_eq_fallback P g h hshape hsorted hh
  have hcount : ∀ (input : List (matrix_data_entry V)) count h h2, h < P.num_ranges →
      h2 < P.num_ranges →
      (count_pass P p input count h).map Prod.fst =
        (count_pass P p input count h2).map Prod.fst := by
    intro input count h h2 hh hh2
    cases input with
    | nil => simp [count_pass]
    | cons e rest => simp only [count_pass, hfind e.row h hh, hfind e.row h2 hh2]
  have hfill : ∀ (input : List (matrix_data_entry V)) local_data idx h h2,
      h < P.num_ranges → h2 < P.num_ranges →
      (fill_pass gw lw P p input local_data idx h).map (fun s => (s.1, s.2.1)) =
        (fill_pass gw lw P p input local_data idx h2).map (fun s => (s.1, s.2.1)) := by
    intro input local_data idx h h2 hh hh2
    cases input with
    | nil => simp [fill_pass]
    | cons e rest => simp only [fill_pass, hfind e.row h hh, hfind e.row h2 hh2]
  refine ⟨fun g => hfind g hint hhint, fun input count => hcount input count _ _ hhint hhint2,
    fun input local_data idx => hfill input local_data idx _ _ hhint hhint2, ?_,
    fun input hrows => build_local_eq gw lw P p input hshape hsorted hn hrows⟩
  intro input
  rw [build_local_as_bind]
  have h1 := hcount input 0 0 hint hn hhint
  cases hc0 : count_pass P p input 0 0 with
  | none =>
    rw [hc0] at h1
    cases hc1 : count_pass P p input 0 hint with
    | none => rfl
    | some c => rw [hc1] at h1; simp at h1
  | some c0 =>
    rw [hc0] at h1
    cases hc1 : count_pass P p input 0 hint with
    | none => rw [hc1] at h1; simp at h1
    | some c1 =>
      rw [hc1] at h1
      simp only [Option.map_some', Option.some.injEq] at h1
      have hcar : c0.2 < P.num_ranges := count_pass_hint_lt P p hshape input 0 0 c0 hn hc0
      have h2 := congrArg (Option.map Prod.fst)
        (hfill input (List.replicate c0.1 none) 0 c0.2 hint2 hcar hhint2)
      simp only [Option.map_map] at h2
      simp only [Option.some_bind, ← h1]
      exact h2

/-- Instance of C6 on the sample partition with the hints `3` and `5`: the
lookup of global index `6`, and `build_local` for part `2` on an input that is
not sorted by row. -/
theorem fast_path_transparent_witness :
    (example_partition.shaped ∧ example_partition.non_decreasing ∧
      3 < example_partition.num_ranges ∧ 5 < example_partition.num_ranges) ∧
    find_range example_partition 6 3 = find_range_fallback example_partition 6 ∧
    build_local 64 32 example_partition 2 example_vector_entries =
      (count_pass example_partition 2 example_vector_entries 0 3).bind
        (fun c => (fill_pass 64 32 example_partition 2 example_vector_entries
          (List.replicate c.1 none) 0 5).map (fun s => s.1)) :=
  ⟨by decide,
    (fast_path_transparent (V := Nat) 64 32 example_partition 2 3 5 (by decide) (by decide)
      (by decide) (by decide)).1 6,
    (fast_path_transparent (V := Nat) 64 32 example_partition 2 3 5 (by decide) (by decide)
      (by decide) (by decide)).2.2.2.1 _⟩

/-- C7: on a partition whose `range_bounds` increase strictly from `0` and whose
three arrays have the lengths `num_ranges + 1`, `num_ranges` and `num_ranges`,
for an input whose rows all lie in `[0, range_bounds[num_ranges])`, no read or
write of `build_local` is out of bounds: each lookup, from any hint below
`num_ranges`, returns a range id below `num_ranges`; the first loop ends with a
count; the second loop, on the array of that many slots, ends with write index
equal to the count, every slot written; and that array is the kernel's
output. -/
theorem build_local_in_bounds {V : Type} (gw lw : Nat) (P : Partition) (p : Int)
    (input : List (matrix_data_entry V))
    (hshape : P.shaped) (hinc : P.increasing_from_zero)
    (hrows : ∀ e ∈ input, 0 ≤ e.row ∧ e.row < P.size) :
    (∀ e ∈ input, ∀ hint, hint < P.num_ranges →
      ∃ r, find_range P e.row hint = some r ∧ r < P.num_ranges) ∧
    ∃ count h1 local_data h2,
      count_pass P p input 0 0 = some (count, h1) ∧
      fill_pass gw lw P p input (List.replicate count none) 0 h1 =
        some (local_data, count, h2) ∧
      local_data.length = count ∧ (∀ slot ∈ local_data, slot ≠ none) ∧
      build_local gw lw P p input = some local_data := by
  have hsorted : P.non_decreasing := pairwise_le_of_pairwise_lt hinc.1
  constructor
  · intro e he hint hh
    obtain ⟨r, part, l, hr, hfind, -, -, -⟩ :=
      lookup_defined gw lw P e.row hint hshape hsorted hh (hrows e he).2
    exact ⟨r, hfind, hr⟩
  · rcases covered_nil_or_ranges P input hinc hrows with hnil | hn
    · subst hnil
      exact ⟨0, 0, [], 0, by simp [count_pass], by simp [fill_pass], rfl,
        by simp, by simp [build_local, count_pass, fill_pass]⟩
    · have hlt : ∀ e ∈ input, e.row < P.size := fun e he => (hrows e he).2
      obtain ⟨h1, hh1, hc⟩ := count_pass_spec P p hshape hsorted input 0 0 hn hlt
      rw [← filter_map_length gw lw P p hshape hsorted hn input hlt, Nat.zero_add] at hc
      obtain ⟨h2, -, hf⟩ := fill_pass_spec gw lw P p hshape hsorted input [] _ h1 hh1 hlt
        (le_refl _)
      simp only [List.nil_append, List.length_nil, Nat.sub_self, List.replicate_zero,
        List.append_nil, Nat.zero_add] at hf
      refine ⟨_, h1, _, h2, hc, hf, by simp, ?_, ?_⟩
      · intro slot hslot
        simp only [List.mem_map] at hslot
        obtain ⟨o, -, rfl⟩ := hslot
        exact Option.some_ne_none _
      · exact build_local_eq gw lw P p input hshape hsorted hn hlt

/-- Instance of C7: four entries for part `2` of the sample partition. -/
theorem build_local_in_bounds_witness :
    (example_partition.shaped ∧ example_partition.increasing_from_zero ∧
      ∀ e ∈ example_vector_entries, 0 ≤ e.row ∧ e.row < example_partition.size) ∧
    ((∀ e ∈ example_vector_entries, ∀ hint, hint < example_partition.num_ranges →
        ∃ r, find_range example_partition e.row hint = some r ∧
          r < example_partition.num_ranges) ∧
    ∃ count h1 local_data h2,
      count_pass example_partition 2 example_vector_entries 0 0 = some (count, h1) ∧
      fill_pass 64 32 example_partition 2 example_vector_entries
        (List.replicate count none) 0 h1 = some (local_data, count, h2) ∧
      local_data.length = count ∧ (∀ slot ∈ local_data, slot ≠ none) ∧
      build_local 64 32 example_partition 2 example_vector_entries = some local_data) :=
  ⟨by decide,
    build_local_in_bounds 64 32 example_partition 2 example_vector_entries
      (by decide) (by decide) (by decide)⟩

/-- C8 as stated fails: the row `-1` is not covered by the sample partition,
and `build_local` for part `1` does not fail on it: it attributes the entry to
range `0` and emits it with the local row `-1`. -/
theorem negative_row_emitted :
    ¬ (0 ≤ (-1 : Int) ∧ (-1 : Int) < example_partition.size) ∧
    find_range example_partition (-1) 0 = some 0 ∧
    build_local 64 32 example_partition 1 [(⟨-1, 0, 10⟩ : matrix_data_entry Nat)] =
      some [some ⟨-1, 0, 10⟩] := by
  decide

/-- C8, amended: `build_local` has no `OutOfRange` error and does not check
that rows are covered; on a shaped partition with at least one range and bounds
strictly increasing from `0`: a row below `0` is looked up to range `0` from
every hint; an input whose rows are all below `range_bounds[num_ranges]`,
negative ones included, yields the filter-map of the input (columns converted to
`LocalIndexType`); and an input with a row at or past `range_bounds[num_ranges]`
makes the kernel read `part_ids[num_ranges]`, past the end of the array, so that
no output is defined. -/
theorem uncovered_row_unchecked {V : Type} (gw lw : Nat) (P : Partition) (p : Int)
    (input : List (matrix_data_entry V))
    (hshape : P.shaped) (hinc : P.increasing_from_zero) (hn : 0 < P.num_ranges) :
    (∀ g hint, g < 0 → hint < P.num_ranges → find_range P g hint = some 0) ∧
    ((∀ e ∈ input, e.row < P.size) →
      build_local gw lw P p input =
        some ((build_local_filter_map gw lw P p input).map
          (fun o => some (narrow_column lw o)))) ∧
    ((∃ e ∈ input, P.size ≤ e.row) → build_local gw lw P p input = none) := by
  have hsorted : P.non_decreasing := pairwise_le_of_pairwise_lt hinc.1
  refine ⟨?_, fun hrows => build_local_eq gw lw P p input hshape hsorted hn hrows, ?_⟩
  · intro g hint hg hh
    obtain ⟨r, hr, hrn, hlow, hhigh⟩ := find_range_fallback_spec P g hshape hsorted
    rw [find_range_eq_fallback P g hint hshape hsorted hh, hr]
    rcases Nat.eq_zero_or_pos r with h0 | h0
    · rw [h0]
    · exfalso
      have hrlen : r < P.range_bounds.length := by have := hshape.1; omega
      obtain ⟨b, hb⟩ : ∃ b, P.range_bounds[r]? = some b :=
        ⟨P.range_bounds[r], List.getElem?_eq_getElem hrlen⟩
      have h1 : b ≤ g := hlow r b h0 (le_refl _) hb
      have h2 : (0 : Int) < b := read_lt_of_pairwise_lt hinc.1 h0 hinc.2 hb
      omega
  · intro hbad
    simp only [build_local, count_pass_past_end P p hshape hsorted input 0 0 hn hbad]

/-- Instance of the amended C8: the sample partition, part `1`, and an input
with a negative row and a row past the end. -/
theorem uncovered_row_unchecked_witness :
    (example_partition.shaped ∧ example_partition.increasing_from_zero ∧
      0 < example_partition.num_ranges) ∧
    find_range example_partition (-5) 3 = some 0 ∧
    build_local 64 32 example_partition 1
      [(⟨-5, 0, 10⟩ : matrix_data_entry Nat), ⟨8, 0, 11⟩] = none :=
  ⟨by decide,
    (uncovered_row_unchecked (V := Nat) 64 32 example_partition 1 [] (by decide) (by decide)
      (by decide)).1 (-5) 3 (by decide) (by decide),
    (uncovered_row_unchecked 64 32 example_partition 1
      [(⟨-5, 0, 10⟩ : matrix_data_entry Nat), ⟨8, 0, 11⟩] (by decide) (by decide)
      (by decide)).2.2 ⟨⟨8, 0, 11⟩, by decide, by decide⟩⟩

/-- C9: for shaped row and column partitions with bounds strictly increasing
from `0` that cover every row and column of the input, and every target part
`p`, `build_local_nonlocal` returns arrays whose local block
`(local_row_idxs, local_col_idxs, local_values)` is exactly the subsequence of
the input entries whose row is owned by `p` under the row partition and whose
column is owned by `p` under the column partition, in original relative order,
the row translated by `map_to_local` under the row partition and the column by
`map_to_local` under the column partition. -/
theorem local_block_is_filter_map {V : Type} (gw lw : Nat) (R C : Partition) (p : Int)
    (input : List (matrix_data_entry V))
    (hRshape : R.shaped) (hRinc : R.increasing_from_zero)
    (hCshape : C.shaped) (hCinc : C.increasing_from_zero)
    (hcov : ∀ e ∈ input, (0 ≤ e.row ∧ e.row < R.size) ∧ (0 ≤ e.column ∧ e.column < C.size)) :
    ∃ d, build_local_nonlocal gw lw R C p input = some d ∧
      d.local_row_idxs.map some =
        (input.filter (fun e => owning_part R e.row = some p ∧
          owning_part C e.column = some p)).map (fun e => local_index gw lw R e.row) ∧
      d.local_col_idxs.map some =
        (input.filter (fun e => owning_part R e.row = some p ∧
          owning_part C e.column = some p)).map (fun e => local_index gw lw C e.column) ∧
      d.local_values =
        (input.filter (fun e => owning_part R e.row = some p ∧
          owning_part C e.column = some p)).map (fun e => e.value) := by
  cases input with
  | nil =>
    exact ⟨_, build_local_nonlocal_nil gw lw R C p, rfl, rfl, rfl⟩
  | cons e0 rest =>
    obtain ⟨⟨r0, r1⟩, c0, c1⟩ := hcov e0 (List.mem_cons_self _ _)
    have hRn := ranges_pos_of_covered R hRinc e0.row r0 r1
    have hCn := ranges_pos_of_covered C hCinc e0.column c0 c1
    obtain ⟨loc, nl, gather, d, hcl, -, hd, h1, h2, h3, -⟩ :=
      build_local_nonlocal_blocks gw lw R C p (e0 :: rest) hRshape
        (pairwise_le_of_pairwise_lt hRinc.1) hRn hCshape (pairwise_le_of_pairwise_lt hCinc.1) hCn
        (fun e he => ⟨(hcov e he).1.2, (hcov e he).2.2⟩)
    obtain ⟨loc2, nl2, hcl2, hloc, -, -⟩ :=
      classify_entries_spec gw lw R C p hRshape (pairwise_le_of_pairwise_lt hRinc.1) hCshape
        (pairwise_le_of_pairwise_lt hCinc.1) (e0 :: rest) 0 0 hRn hCn
        (fun e he => ⟨(hcov e he).1.2, (hcov e he).2.2⟩)
    rw [hcl] at hcl2
    obtain ⟨rfl, rfl⟩ := Prod.mk.inj (Option.some.inj hcl2)
    refine ⟨d, hd, ?_, ?_, ?_⟩
    · have := congrArg (List.map (fun t : Option Int × Option Int × V => t.1)) hloc
      simpa [h1, List.map_map, Function.comp_def] using this
    · have := congrArg (List.map (fun t : Option Int × Option Int × V => t.2.1)) hloc
      simpa [h2, List.map_map, Function.comp_def] using this
    · have := congrArg (List.map (fun t : Option Int × Option Int × V => t.2.2)) hloc
      simpa [h3, List.map_map, Function.comp_def] using this

/-- Instance of C9: part `1` of the sample row and column partitions on the
sample entries. -/
theorem local_block_is_filter_map_witness :
    (example_partition.shaped ∧ example_partition.increasing_from_zero ∧
      example_col_partition.shaped ∧ example_col_partition.increasing_from_zero ∧
      ∀ e ∈ example_entries, (0 ≤ e.row ∧ e.row < example_partition.size) ∧
        (0 ≤ e.column ∧ e.column < example_col_partition.size)) ∧
    ∃ d, build_local_nonlocal 64 32 example_partition example_col_partition 1
        example_entries = some d ∧
      d.local_row_idxs.map some =
        (example_entries.filter (fun e => owning_part example_partition e.row = some 1 ∧
          owning_part example_col_partition e.column = some 1)).map
          (fun e => local_index 64 32 example_partition e.row) ∧
      d.local_col_idxs.map some =
        (example_entries.filter (fun e => owning_part example_partition e.row = some 1 ∧
          owning_part example_col_partition e.column = some 1)).map
          (fun e => local_index 64 32 example_col_partition e.column) ∧
      d.local_values =
        (example_entries.filter (fun e => owning_part example_partition e.row = some 1 ∧
          owning_part example_col_partition e.column = some 1)).map (fun e => e.value) :=
  ⟨by decide,
    local_block_is_filter_map 64 32 example_partition example_col_partition 1 example_entries
      (by decide) (by decide) (by decide) (by decide) (by decide)⟩

/-- C10: for shaped row and column partitions with bounds strictly increasing
from `0` that cover every row and column of the input, and every target part
`p`, the arrays `build_local_nonlocal` returns satisfy
`length(local_row_idxs) + length(non_local_row_idxs) =` the number of input
entries whose row is owned by `p` under the row partition. -/
theorem blocks_conserve_rows {V : Type} (gw lw : Nat) (R C : Partition) (p : Int)
    (input : List (matrix_data_entry V))
    (hRshape : R.shaped) (hRinc : R.increasing_from_zero)
    (hCshape : C.shaped) (hCinc : C.increasing_from_zero)
    (hcov : ∀ e ∈ input, (0 ≤ e.row ∧ e.row < R.size) ∧ (0 ≤ e.column ∧ e.column < C.size)) :
    ∃ d, build_local_nonlocal gw lw R C p input = some d ∧
      d.local_row_idxs.length + d.non_local_row_idxs.length =
        (input.filter (fun e => owning_part R e.row = some p)).length := by
  cases input with
  | nil =>
    exact ⟨_, build_local_nonlocal_nil gw lw R C p, rfl⟩
  | cons e0 rest =>
    obtain ⟨⟨r0, r1⟩, c0, c1⟩ := hcov e0 (List.mem_cons_self _ _)
    have hRn := ranges_pos_of_covered R hRinc e0.row r0 r1
    have hCn := ranges_pos_of_covered C hCinc e0.column c0 c1
    obtain ⟨loc, nl, gather, d, hcl, -, hd, h1, -, -, h4, -⟩ :=
      build_local_nonlocal_blocks gw lw R C p (e0 :: rest) hRshape
        (pairwise_le_of_pairwise_lt hRinc.1) hRn hCshape (pairwise_le_of_pairwise_lt hCinc.1) hCn
        (fun e he => ⟨(hcov e he).1.2, (hcov e he).2.2⟩)
    obtain ⟨loc2, nl2, hcl2, -, -, hlen⟩ :=
      classify_entries_spec gw lw R C p hRshape (pairwise_le_of_pairwise_lt hRinc.1) hCshape
        (pairwise_le_of_pairwise_lt hCinc.1) (e0 :: rest) 0 0 hRn hCn
        (fun e he => ⟨(hcov e he).1.2, (hcov e he).2.2⟩)
    rw [hcl] at hcl2
    obtain ⟨rfl, rfl⟩ := Prod.mk.inj (Option.some.inj hcl2)
    refine ⟨d, hd, ?_⟩
    rw [h1, h4, List.length_map, List.length_map]
    exact hlen

/-- Instance of C10: part `1` of the sample row and column partitions on the
sample entries. -/
theorem blocks_conserve_rows_witness :
    (example_partition.shaped ∧ example_partition.increasing_from_zero ∧
      example_col_partition.shaped ∧ example_col_partition.increasing_from_zero ∧
      ∀ e ∈ example_entries, (0 ≤ e.row ∧ e.row < example_partition.size) ∧
        (0 ≤ e.column ∧ e.column < example_col_partition.size)) ∧
    ∃ d, build_local_nonlocal 64 32 example_partition example_col_partition 1
        example_entries = some d ∧
      d.local_row_idxs.length + d.non_local_row_idxs.length =
        (example_entries.filter
          (fun e => owning_part example_partition e.row = some 1)).length :=
  ⟨by decide,
    blocks_conserve_rows 64 32 example_partition example_col_partition 1 example_entries
      (by decide) (by decide) (by decide) (by decide) (by decide)⟩

/-- C11: for shaped row and column partitions with bounds strictly increasing
from `0` that cover every row and column of the input, `build_local_nonlocal`
returns arrays in which `local_to_global_col` has no duplicate values, every
value of `non_local_col_idxs` lies in `[0, length(local_to_global_col))`, and
`local_to_global_col[non_local_col_idxs[k]]` is, for every `k`, the global
column of the `k`-th input entry (in original order) whose row is owned by `p`
and whose column is owned by another part. -/
theorem compaction_bijective {V : Type} (gw lw : Nat) (R C : Partition) (p : Int)
    (input : List (matrix_data_entry V))
    (hRshape : R.shaped) (hRinc : R.increasing_from_zero)
    (hCshape : C.shaped) (hCinc : C.increasing_from_zero)
    (hcov : ∀ e ∈ input, (0 ≤ e.row ∧ e.row < R.size) ∧ (0 ≤ e.column ∧ e.column < C.size)) :
    ∃ d, build_local_nonlocal gw lw R C p input = some d ∧
      d.local_to_global_col.Nodup ∧
      (∀ v ∈ d.non_local_col_idxs, 0 ≤ v ∧ v < (d.local_to_global_col.length : Int)) ∧
      d.non_local_col_idxs.map (fun v => d.local_to_global_col[v.toNat]?) =
        (remote_entries R C p input).map (fun e => some e.column) := by
  obtain ⟨nl, gather, d, hd, hnl, -, hidx, -, -, hcols⟩ :=
    build_local_nonlocal_result gw lw R C p input hRshape hRinc hCshape hCinc hcov
  have hown := compact_columns_owned C nl _ hnl
  have hdet : ∀ k ∈ compact_columns nl, owning_part C k.2 = some k.1 := by
    intro k hk
    obtain ⟨e, -, h1, h2⟩ := (hown k).mp hk
    rw [← h1]
    exact h2
  have hmem : ∀ x ∈ nl, (x.1, x.2.column) ∈ compact_columns nl :=
    fun x hx => (mem_compact_columns nl _).mpr ⟨x, hx, rfl⟩
  refine ⟨d, hd, ?_, ?_, ?_⟩
  · rw [hcols]
    exact nodup_map_snd_of_determined (owning_part C) _ hdet (compact_columns_nodup nl)
  · intro v hv
    rw [hidx] at hv
    simp only [List.mem_map] at hv
    obtain ⟨x, hx, rfl⟩ := hv
    have := indexOf_lt_of_mem _ _ (hmem x hx)
    rw [hcols, List.length_map]
    omega
  · have hproj : (remote_entries R C p input).map (fun e => some e.column) =
        nl.map (fun x => some x.2.column) := by
      have := congrArg (List.map (fun t : Option Int × Int => some t.2)) hnl
      simp only [List.map_map, Function.comp_def] at this
      exact this.symm
    rw [hproj, hidx, hcols, List.map_map]
    apply List.map_congr_left
    intro x hx
    simp only [Function.comp_apply, Int.toNat_ofNat, List.getElem?_map,
      read_indexOf_of_mem _ _ (hmem x hx), Option.map_some']

/-- Instance of C11: part `1` of the sample row and column partitions on the
sample entries. -/
theorem compaction_bijective_witness :
    (example_partition.shaped ∧ example_partition.increasing_from_zero ∧
      example_col_partition.shaped ∧ example_col_partition.increasing_from_zero ∧
      ∀ e ∈ example_entries, (0 ≤ e.row ∧ e.row < example_partition.size) ∧
        (0 ≤ e.column ∧ e.column < example_col_partition.size)) ∧
    ∃ d, build_local_nonlocal 64 32 example_partition example_col_partition 1
        example_entries = some d ∧
      d.local_to_global_col.Nodup ∧
      (∀ v ∈ d.non_local_col_idxs, 0 ≤ v ∧ v < (d.local_to_global_col.length : Int)) ∧
      d.non_local_col_idxs.map (fun v => d.local_to_global_col[v.toNat]?) =
        (remote_entries example_partition example_col_partition 1 example_entries).map
          (fun e => some e.column) :=
  ⟨by decide,
    compaction_bijective 64 32 example_partition example_col_partition 1 example_entries
      (by decide) (by decide) (by decide) (by decide) (by decide)⟩

/-- C12: for shaped row and column partitions with bounds strictly increasing
from `0` that cover every row and column of the input, in the arrays
`build_local_nonlocal` returns, `local_to_global_col` contains exactly the
global columns of the non-local entries (no value twice, by the strict order),
is strictly increasing in the lexicographic order on (owning part under the
column partition, global column id), and the compacted index of each non-local
entry's column is the position of that column in `local_to_global_col`. -/
theorem compaction_order {V : Type} (gw lw : Nat) (R C : Partition) (p : Int)
    (input : List (matrix_data_entry V))
    (hRshape : R.shaped) (hRinc : R.increasing_from_zero)
    (hCshape : C.shaped) (hCinc : C.increasing_from_zero)
    (hcov : ∀ e ∈ input, (0 ≤ e.row ∧ e.row < R.size) ∧ (0 ≤ e.column ∧ e.column < C.size)) :
    ∃ d, build_local_nonlocal gw lw R C p input = some d ∧
      (∀ c, c ∈ d.local_to_global_col ↔ ∃ e ∈ remote_entries R C p input, e.column = c) ∧
      d.local_to_global_col.Pairwise (fun c c2 =>
        ∃ q q2, owning_part C c = some q ∧ owning_part C c2 = some q2 ∧
          (q < q2 ∨ (q = q2 ∧ c < c2))) ∧
      d.non_local_col_idxs =
        (remote_entries R C p input).map
          (fun e => ((d.local_to_global_col.indexOf e.column : Nat) : Int)) := by
  obtain ⟨nl, gather, d, hd, hnl, -, hidx, -, -, hcols⟩ :=
    build_local_nonlocal_result gw lw R C p input hRshape hRinc hCshape hCinc hcov
  have hown := compact_columns_owned C nl _ hnl
  have hdet : ∀ k ∈ compact_columns nl, owning_part C k.2 = some k.1 := by
    intro k hk
    obtain ⟨e, -, h1, h2⟩ := (hown k).mp hk
    rw [← h1]
    exact h2
  refine ⟨d, hd, ?_, ?_, ?_⟩
  · intro c
    rw [hcols, List.mem_map]
    constructor
    · rintro ⟨k, hk, rfl⟩
      obtain ⟨e, he, h1, -⟩ := (hown k).mp hk
      exact ⟨e, he, h1⟩
    · rintro ⟨e, he, rfl⟩
      have he2 : (owning_part C e.column, e.column) ∈
          (remote_entries R C p input).map (fun e => (owning_part C e.column, e.column)) :=
        List.mem_map.mpr ⟨e, he, rfl⟩
      unfold remote_entries at he2
      rw [← hnl] at he2
      simp only [List.mem_map, Prod.mk.injEq] at he2
      obtain ⟨x, hx, -, h4⟩ := he2
      exact ⟨(x.1, x.2.column), (mem_compact_columns nl _).mpr ⟨x, hx, rfl⟩, h4⟩
  · rw [hcols, List.pairwise_map]
    refine (strict_of_sorted_nodup _ (compact_columns_sorted nl)
      (compact_columns_nodup nl)).imp_of_mem ?_
    intro a b ha hb hab
    exact ⟨a.1, b.1, hdet a ha, hdet b hb, hab⟩
  · have hproj : (remote_entries R C p input).map
          (fun e => ((d.local_to_global_col.indexOf e.column : Nat) : Int)) =
        nl.map (fun x => ((d.local_to_global_col.indexOf x.2.column : Nat) : Int)) := by
      have := congrArg (List.map (fun t : Option Int × Int =>
        ((d.local_to_global_col.indexOf t.2 : Nat) : Int))) hnl
      simp only [List.map_map, Function.comp_def] at this
      exact this.symm
    rw [hproj, hidx]
    apply List.map_congr_left
    intro x hx
    rw [hcols, indexOf_map_snd_of_determined (owning_part C) _ hdet _
      ((mem_compact_columns nl _).mpr ⟨x, hx, rfl⟩)]

/-- Instance of C12: part `1` of the sample row and column partitions on the
sample entries. -/
theorem compaction_order_witness :
    (example_partition.shaped ∧ example_partition.increasing_from_zero ∧
      example_col_partition.shaped ∧ example_col_partition.increasing_from_zero ∧
      ∀ e ∈ example_entries, (0 ≤ e.row ∧ e.row < example_partition.size) ∧
        (0 ≤ e.column ∧ e.column < example_col_partition.size)) ∧
    ∃ d, build_local_nonlocal 64 32 example_partition example_col_partition 1
        example_entries = some d ∧
      (∀ c, c ∈ d.local_to_global_col ↔
        ∃ e ∈ remote_entries example_partition example_col_partition 1 example_entries,
          e.column = c) ∧
      d.local_to_global_col.Pairwise (fun c c2 =>
        ∃ q q2, owning_part example_col_partition c = some q ∧
          owning_part example_col_partition c2 = some q2 ∧ (q < q2 ∨ (q = q2 ∧ c < c2))) ∧
      d.non_local_col_idxs =
        (remote_entries example_partition example_col_partition 1 example_entries).map
          (fun e => ((d.local_to_global_col.indexOf e.column : Nat) : Int)) :=
  ⟨by decide,
    compaction_order 64 32 example_partition example_col_partition 1 example_entries
      (by decide) (by decide) (by decide) (by decide) (by decide)⟩

/-- C13: for shaped row and column partitions with bounds strictly increasing
from `0` that cover every row and column of the input, the part ids of the
column partition lying in `[0, num_parts)`, the arrays `build_local_nonlocal`
returns satisfy: `recv_sizes` has length `num_parts`; `recv_sizes[q]` is the
number of entries of `local_to_global_col` owned by part `q` under the column
partition, and `0` for `q = p`; and
`sum(recv_sizes) = length(local_to_global_col) = length(gather_idxs)`. -/
theorem recv_sizes_consistent {V : Type} (gw lw : Nat) (R C : Partition) (p : Int)
    (input : List (matrix_data_entry V))
    (hRshape : R.shaped) (hRinc : R.increasing_from_zero)
    (hCshape : C.shaped) (hCinc : C.increasing_from_zero)
    (hparts : ∀ q ∈ C.part_ids, 0 ≤ q ∧ q < (R.num_parts : Int))
    (hcov : ∀ e ∈ input, (0 ≤ e.row ∧ e.row < R.size) ∧ (0 ≤ e.column ∧ e.column < C.size)) :
    ∃ d, build_local_nonlocal gw lw R C p input = some d ∧
      d.recv_sizes.length = R.num_parts ∧
      (∀ q : Nat, q < R.num_parts →
        d.recv_sizes[q]? = some (((d.local_to_global_col.filter
          (fun c => owning_part C c = some (q : Int))).length : Nat) : Int)) ∧
      (∀ q : Nat, q < R.num_parts → (q : Int) = p → d.recv_sizes[q]? = some 0) ∧
      d.recv_sizes.sum = (d.local_to_global_col.length : Int) ∧
      d.local_to_global_col.length = d.gather_idxs.length := by
  obtain ⟨nl, gather, d, hd, hnl, hg, -, hgather, hrecv, hcols⟩ :=
    build_local_nonlocal_result gw lw R C p input hRshape hRinc hCshape hCinc hcov
  have hown := compact_columns_owned C nl _ hnl
  have hdet : ∀ k ∈ compact_columns nl, owning_part C k.2 = some k.1 := by
    intro k hk
    obtain ⟨e, -, h1, h2⟩ := (hown k).mp hk
    rw [← h1]
    exact h2
  have hnotp : ∀ k ∈ compact_columns nl, k.1 ≠ p := by
    intro k hk hkp
    obtain ⟨e, he, -, h2⟩ := (hown k).mp hk
    have := (List.mem_filter.mp he).2
    simp only [decide_eq_true_eq] at this
    exact this.2 (by rw [h2, hkp])
  have hcount : ∀ q : Nat,
      (d.local_to_global_col.filter (fun c => owning_part C c = some (q : Int))).length =
        ((compact_columns nl).filter (fun k => k.1 = (q : Int))).length := by
    intro q
    rw [hcols, List.filter_map, List.length_map]
    congr 1
    apply List.filter_congr
    intro k hk
    simp only [Function.comp_apply, hdet k hk, Option.some.injEq]
  have hread : ∀ q : Nat, q < R.num_parts →
      d.recv_sizes[q]? = some ((((compact_columns nl).filter
        (fun k => k.1 = (q : Int))).length : Nat) : Int) := by
    intro q hq
    rw [hrecv, List.getElem?_map, List.getElem?_range hq]
    rfl
  refine ⟨d, hd, ?_, ?_, ?_, ?_, ?_⟩
  · rw [hrecv, List.length_map, List.length_range]
  · intro q hq
    rw [hread q hq, hcount q]
  · intro q hq hqp
    rw [hread q hq]
    have : (compact_columns nl).filter (fun k => k.1 = (q : Int)) = [] := by
      rw [List.filter_eq_nil_iff]
      intro k hk
      simp only [decide_eq_true_eq]
      rw [hqp]
      exact hnotp k hk
    rw [this]
    rfl
  · rw [hrecv, hcols, List.length_map]
    apply sum_counts_by_part
    intro k hk
    exact hparts k.1 (owning_part_mem C k.2 k.1 (hdet k hk))
  · rw [hcols, hgather, List.length_map]
    have := congrArg List.length hg
    simp only [List.length_map] at this
    exact this.symm

/-- Instance of C13: part `1` of the sample row and column partitions on the
sample entries. -/
theorem recv_sizes_consistent_witness :
    (example_partition.shaped ∧ example_partition.increasing_from_zero ∧
      example_col_partition.shaped ∧ example_col_partition.increasing_from_zero ∧
      (∀ q ∈ example_col_partition.part_ids,
        0 ≤ q ∧ q < (example_partition.num_parts : Int)) ∧
      ∀ e ∈ example_entries, (0 ≤ e.row ∧ e.row < example_partition.size) ∧
        (0 ≤ e.column ∧ e.column < example_col_partition.size)) ∧
    ∃ d, build_local_nonlocal 64 32 example_partition example_col_partition 1
        example_entries = some d ∧
      d.recv_sizes.length = example_partition.num_parts ∧
      (∀ q : Nat, q < example_partition.num_parts →
        d.recv_sizes[q]? = some (((d.local_to_global_col.filter
          (fun c => owning_part example_col_partition c = some (q : Int))).length : Nat) :
            Int)) ∧
      (∀ q : Nat, q < example_partition.num_parts → (q : Int) = 1 →
        d.recv_sizes[q]? = some 0) ∧
      d.recv_sizes.sum = (d.local_to_global_col.length : Int) ∧
      d.local_to_global_col.length = d.gather_idxs.length :=
  ⟨by decide,
    recv_sizes_consistent 64 32 example_partition example_col_partition 1 example_entries
      (by decide) (by decide) (by decide) (by decide) (by decide) (by decide)⟩

/-- C14: for shaped row and column partitions with bounds strictly increasing
from `0` that cover every row and column of the input, in the arrays
`build_local_nonlocal` returns, `gather_idxs[k]` is for every `k` the local
index `map_to_local(c, find_range(c))` of `c = local_to_global_col[k]` under the
column partition, and along `local_to_global_col` (hence along `gather_idxs`)
the owning parts never decrease: the entries are grouped contiguously by owning
part in ascending part id. -/
theorem gather_indices {V : Type} (gw lw : Nat) (R C : Partition) (p : Int)
    (input : List (matrix_data_entry V))
    (hRshape : R.shaped) (hRinc : R.increasing_from_zero)
    (hCshape : C.shaped) (hCinc : C.increasing_from_zero)
    (hcov : ∀ e ∈ input, (0 ≤ e.row ∧ e.row < R.size) ∧ (0 ≤ e.column ∧ e.column < C.size)) :
    ∃ d, build_local_nonlocal gw lw R C p input = some d ∧
      d.gather_idxs.map some = d.local_to_global_col.map (local_index gw lw C) ∧
      d.local_to_global_col.Pairwise (fun c c2 =>
        ∃ q q2, owning_part C c = some q ∧ owning_part C c2 = some q2 ∧ q ≤ q2) := by
  obtain ⟨nl, gather, d, hd, hnl, hg, -, hgather, -, hcols⟩ :=
    build_local_nonlocal_result gw lw R C p input hRshape hRinc hCshape hCinc hcov
  have hown := compact_columns_owned C nl _ hnl
  have hdet : ∀ k ∈ compact_columns nl, owning_part C k.2 = some k.1 := by
    intro k hk
    obtain ⟨e, -, h1, h2⟩ := (hown k).mp hk
    rw [← h1]
    exact h2
  refine ⟨d, hd, ?_, ?_⟩
  · rw [hgather, hg, hcols, List.map_map]
    rfl
  · rw [hcols, List.pairwise_map]
    refine (compact_columns_sorted nl).imp_of_mem ?_
    intro a b ha hb hab
    refine ⟨a.1, b.1, hdet a ha, hdet b hb, ?_⟩
    unfold key_le at hab
    omega

/-- Instance of C14: part `1` of the sample row and column partitions on the
sample entries. -/
theorem gather_indices_witness :
    (example_partition.shaped ∧ example_partition.increasing_from_zero ∧
      example_col_partition.shaped ∧ example_col_partition.increasing_from_zero ∧
      ∀ e ∈ example_entries, (0 ≤ e.row ∧ e.row < example_partition.size) ∧
        (0 ≤ e.column ∧ e.column < example_col_partition.size)) ∧
    ∃ d, build_local_nonlocal 64 32 example_partition example_col_partition 1
        example_entries = some d ∧
      d.gather_idxs.map some =
        d.local_to_global_col.map (local_index 64 32 example_col_partition) ∧
      d.local_to_global_col.Pairwise (fun c c2 =>
        ∃ q q2, owning_part example_col_partition c = some q ∧
          owning_part example_col_partition c2 = some q2 ∧ q ≤ q2) :=
  ⟨by decide,
    gather_indices 64 32 example_partition example_col_partition 1 example_entries
      (by decide) (by decide) (by decide) (by decide) (by decide)⟩

/-- C15: for every row partition, column partition and target part,
`build_local_nonlocal` on the empty entry list returns empty `local_*`,
`non_local_*`, `gather_idxs` and `local_to_global_col` arrays and a `recv_sizes`
array of `num_parts` zeros (the number of parts of the row partition). -/
theorem empty_input_empty_output {V : Type} (gw lw : Nat) (R C : Partition) (p : Int) :
    build_local_nonlocal gw lw R C p ([] : List (matrix_data_entry V)) =
      some ⟨[], [], [], [], [], [], [], List.replicate R.num_parts 0, []⟩ := by
  rw [build_local_nonlocal_nil]
  congr 2
  rw [List.map_const', List.length_range]

/-- C17: for every mapping `m` whose entries all lie in `[0, num_parts)`,
`build_from_mapping` returns a partition whose ranges are the maximal runs of
equal consecutive part ids of `m`: its arrays have the lengths of `num_ranges`
ranges, `range_bounds` is strictly increasing from `0` to the length of `m`,
consecutive ranges have different `part_ids`, `part_ids[find_range(g)] = m[g]`
for every `g` in `[0, length(m))`, and `range_starting_indices[i]` is the total
length of the earlier ranges owned by `part_ids[i]`. -/
theorem build_from_mapping_ranges (m : List Int) (num_parts : Nat)
    (hm : ∀ q ∈ m, 0 ≤ q ∧ q < (num_parts : Int)) :
    ∃ P, build_from_mapping m num_parts = .ok P ∧ P.num_parts = num_parts ∧
      P.shaped ∧ P.increasing_from_zero ∧ P.size = (m.length : Int) ∧
      P.part_ids.Chain' (fun a b => a ≠ b) ∧
      (∀ g : Nat, g < m.length → owning_part P (g : Int) = m[g]?) ∧
      P.starts_consistent := by
  obtain ⟨hexp, hpos, hchain⟩ := merge_runs_spec m
  have hshape : (⟨range_bounds_from 0 (merge_runs m), (merge_runs m).map (fun r => r.1),
      starting_indices_from (fun _ => 0) (merge_runs m), (merge_runs m).length,
      num_parts⟩ : Partition).shaped :=
    ⟨range_bounds_from_length _ _, List.length_map _ _, starting_indices_from_length _ _⟩
  have hinc : (⟨range_bounds_from 0 (merge_runs m), (merge_runs m).map (fun r => r.1),
      starting_indices_from (fun _ => 0) (merge_runs m), (merge_runs m).length,
      num_parts⟩ : Partition).increasing_from_zero :=
    ⟨(range_bounds_from_increasing _ 0 hpos).1, range_bounds_from_head _ _⟩
  refine ⟨_, ?_, rfl, hshape, hinc, ?_, ?_, ?_, ?_⟩
  · simp only [build_from_mapping, check_part_ids_ok num_parts m hm]
  · have h := range_bounds_from_last (merge_runs m) 0
    rw [hexp, zero_add] at h
    exact getD_of_read h
  · exact (List.chain'_map _).mpr hchain
  · intro g hg
    have hg2 : g < ((merge_runs m).flatMap (fun r => List.replicate r.2 r.1)).length := by
      rw [hexp]; exact hg
    obtain ⟨i, b1, b2, hi, h1, h2, h3, h4, h5⟩ := range_of_position (merge_runs m) 0 g hg2
    rw [hexp] at h5
    rw [← h5]
    exact owning_part_in_range _ hshape hinc i hi (g : Int)
      (by rw [getD_of_read h1]; omega) (by rw [getD_of_read h2]; omega)
  · intro i hi
    have hlen : i < ((merge_runs m).map (fun r => r.1)).length := by
      rw [List.length_map]; exact hi
    obtain ⟨q, hq⟩ : ∃ q, ((merge_runs m).map (fun r => r.1))[i]? = some q :=
      ⟨((merge_runs m).map (fun r => r.1))[i], List.getElem?_eq_getElem hlen⟩
    have h := starting_indices_from_spec (merge_runs m) 0 (fun _ => 0) i q hq
    simp only [hq, Option.map_some', h, zero_add]
    congr 1
    apply owned_before_congr <;> rfl

/-- Instance of C17: the mapping `{1, 0, 2, 2, 0, 1, 1, 2}` over three parts,
which gives the bounds `[0, 1, 2, 4, 5, 7, 8]`, the part ids
`[1, 0, 2, 0, 1, 2]` and the starting indices `[0, 0, 0, 1, 1, 2]`. -/
theorem build_from_mapping_ranges_witness :
    (∀ q ∈ [(1 : Int), 0, 2, 2, 0, 1, 1, 2], 0 ≤ q ∧ q < ((3 : Nat) : Int)) ∧
    build_from_mapping [1, 0, 2, 2, 0, 1, 1, 2] 3 =
      .ok ⟨[0, 1, 2, 4, 5, 7, 8], [1, 0, 2, 0, 1, 2], [0, 0, 0, 1, 1, 2], 6, 3⟩ ∧
    ∃ P, build_from_mapping [1, 0, 2, 2, 0, 1, 1, 2] 3 = .ok P ∧ P.num_parts = 3 ∧
      P.shaped ∧ P.increasing_from_zero ∧
      P.size = (([(1 : Int), 0, 2, 2, 0, 1, 1, 2].length : Nat) : Int) ∧
      P.part_ids.Chain' (fun a b => a ≠ b) ∧
      (∀ g : Nat, g < [(1 : Int), 0, 2, 2, 0, 1, 1, 2].length →
        owning_part P (g : Int) = [(1 : Int), 0, 2, 2, 0, 1, 1, 2][g]?) ∧
      P.starts_consistent :=
  ⟨by decide, rfl, build_from_mapping_ranges [1, 0, 2, 2, 0, 1, 1, 2] 3 (by decide)⟩

/-- C18: `build_from_mapping` fails with `InvalidArgument` if and only if some
entry of the mapping is outside `[0, num_parts)`, and returns a partition if
and only if every entry is inside; a failure carries no partition. -/
theorem build_from_mapping_fails_iff (m : List Int) (num_parts : Nat) :
    (build_from_mapping m num_parts = .error .InvalidArgument ↔
      ∃ q ∈ m, ¬ (0 ≤ q ∧ q < (num_parts : Int))) ∧
    ((∃ P, build_from_mapping m num_parts = .ok P) ↔
      ∀ q ∈ m, 0 ≤ q ∧ q < (num_parts : Int)) := by
  by_cases h : ∀ q ∈ m, 0 ≤ q ∧ q < (num_parts : Int)
  · have hok : ∃ P, build_from_mapping m num_parts = .ok P := by
      refine ⟨⟨range_bounds_from 0 (merge_runs m), (merge_runs m).map (fun r => r.1),
        starting_indices_from (fun _ => 0) (merge_runs m), (merge_runs m).length,
        num_parts⟩, ?_⟩
      simp only [build_from_mapping, check_part_ids_ok num_parts m h]
    constructor
    · constructor
      · intro herr
        obtain ⟨P, hP⟩ := hok
        rw [hP] at herr
        cases herr
      · rintro ⟨q, hq, hqo⟩
        exact absurd (h q hq) hqo
    · exact ⟨fun _ => h, fun _ => hok⟩
  · have hex : ∃ q ∈ m, ¬ (0 ≤ q ∧ q < (num_parts : Int)) := by
      by_contra hne
      apply h
      intro q hq
      by_contra hqo
      exact hne ⟨q, hq, hqo⟩
    have herr : build_from_mapping m num_parts = .error .InvalidArgument := by
      simp only [build_from_mapping, check_part_ids_error num_parts m hex]
    constructor
    · exact ⟨fun _ => hex, fun _ => herr⟩
    · constructor
      · rintro ⟨P, hP⟩
        rw [hP] at herr
        cases herr
      · intro hall
        exact absurd hall h

/-- C19: the comparator of `sort_agg` and of `sort_row_major` is the
lexicographic order on `(row, col)`: `a` precedes `b` iff `a.row < b.row` or
`a.row = b.row` and `a.col < b.col`; it is irreflexive and transitive,
incomparability is transitive, two elements are incomparable exactly when both
keys are equal, and in `sort_row_major` the value component never influences
the result. -/
theorem comparator_lexicographic {V : Type} :
    (∀ a b : Int × Int,
      sort_agg_comp a b = true ↔ a.1 < b.1 ∨ (a.1 = b.1 ∧ a.2 < b.2)) ∧
    (∀ a b : Int × Int × V,
      sort_row_major_comp a b = true ↔ a.1 < b.1 ∨ (a.1 = b.1 ∧ a.2.1 < b.2.1)) ∧
    (∀ a : Int × Int, sort_agg_comp a a = false) ∧
    (∀ a : Int × Int × V, sort_row_major_comp a a = false) ∧
    (∀ a b c : Int × Int,
      sort_agg_comp a b = true → sort_agg_comp b c = true → sort_agg_comp a c = true) ∧
    (∀ a b c : Int × Int × V, sort_row_major_comp a b = true →
      sort_row_major_comp b c = true → sort_row_major_comp a c = true) ∧
    (∀ a b c : Int × Int,
      sort_agg_comp a b = false → sort_agg_comp b a = false →
      sort_agg_comp b c = false → sort_agg_comp c b = false →
      sort_agg_comp a c = false ∧ sort_agg_comp c a = false) ∧
    (∀ a b c : Int × Int × V,
      sort_row_major_comp a b = false → sort_row_major_comp b a = false →
      sort_row_major_comp b c = false → sort_row_major_comp c b = false →
      sort_row_major_comp a c = false ∧ sort_row_major_comp c a = false) ∧
    (∀ a b : Int × Int,
      (sort_agg_comp a b = false ∧ sort_agg_comp b a = false) ↔ (a.1 = b.1 ∧ a.2 = b.2)) ∧
    (∀ a b : Int × Int × V,
      (sort_row_major_comp a b = false ∧ sort_row_major_comp b a = false) ↔
        (a.1 = b.1 ∧ a.2.1 = b.2.1)) ∧
    (∀ (r c r2 c2 : Int) (v w v2 w2 : V),
      sort_row_major_comp (r, c, v) (r2, c2, v2) =
        sort_row_major_comp (r, c, w) (r2, c2, w2)) := by
  have hless : ∀ x y : Int × Int,
      tuple_less x y = true ↔ x.1 < y.1 ∨ (x.1 = y.1 ∧ x.2 < y.2) := by
    intro x y
    simp only [tuple_less, Bool.or_eq_true, Bool.and_eq_true, Bool.not_eq_true',
      decide_eq_true_eq, decide_eq_false_iff_not]
    omega
  have hnot : ∀ x y : Int × Int,
      tuple_less x y = false ↔ ¬ (x.1 < y.1 ∨ (x.1 = y.1 ∧ x.2 < y.2)) := by
    intro x y
    rw [← hless, Bool.not_eq_true]
  refine ⟨?_, ?_, ?_, ?_, ?_, ?_, ?_, ?_, ?_, ?_, ?_⟩
  · intro a b
    exact hless _ _
  · intro a b
    exact hless _ _
  · intro a
    simp only [sort_agg_comp, hnot]
    omega
  · intro a
    simp only [sort_row_major_comp, hnot]
    omega
  · intro a b c
    simp only [sort_agg_comp, hless]
    omega
  · intro a b c
    simp only [sort_row_major_comp, hless]
    omega
  · intro a b c
    simp only [sort_agg_comp, hnot]
    omega
  · intro a b c
    simp only [sort_row_major_comp, hnot]
    omega
  · intro a b
    simp only [sort_agg_comp, hnot]
    omega
  · intro a b
    simp only [sort_row_major_comp, hnot]
    omega
  · intro r c r2 c2 v w v2 w2
    rfl

/-- C20: for every input of `fine_nnz` entries `(row, col, val)`, values added
exactly (commutative, associative addition): the input is a sequence of runs
of adjacent entries with equal `(row, col)`, each non-empty, neighbouring runs
having different keys, and `compute_coarse_coo` writes one entry per run, in
run order, with the key of the run and the sum of its values; when the input is
sorted by the lexicographic comparator on `(row, col)`, the keys written are
strictly increasing and each value written is the sum of all input values with
that key. -/
theorem coarse_coo_runs {V : Type} [AddCommMonoid V] (fine_nnz : Nat)
    (row_idxs col_idxs : List Int) (vals : List V)
    (hrows : fine_nnz ≤ row_idxs.length) (hcols : fine_nnz ≤ col_idxs.length)
    (hvals : fine_nnz ≤ vals.length) :
    ∃ runs : List ((Int × Int) × List V),
      zipped_entries fine_nnz row_idxs col_idxs vals =
        runs.flatMap (fun r => r.2.map (fun v => (r.1, v))) ∧
      (∀ r ∈ runs, r.2 ≠ []) ∧
      runs.Chain' (fun r s => r.1 ≠ s.1) ∧
      compute_coarse_coo fine_nnz row_idxs col_idxs vals =
        some (runs.map (fun r => r.1.1), runs.map (fun r => r.1.2),
          runs.map (fun r => r.2.sum)) ∧
      ((zipped_entries fine_nnz row_idxs col_idxs vals).Pairwise
          (fun x y => tuple_less y.1 x.1 = false) →
        runs.Pairwise (fun r s => tuple_less r.1 s.1 = true) ∧
        ∀ r ∈ runs, r.2.sum =
          (((zipped_entries fine_nnz row_idxs col_idxs vals).filter
            (fun x => x.1 = r.1)).map (fun x => x.2)).sum) := by
  obtain ⟨runs, h1, h2, h3, h4⟩ :=
    reduce_by_segment_runs (V := V) (fun a b => tuple_equal (a.1, a.2) (b.1, b.2))
      tuple_equal_iff (zipped_entries fine_nnz row_idxs col_idxs vals)
  refine ⟨runs, h1, h2, h3, ?_, ?_⟩
  · simp only [compute_coarse_coo, hrows, hcols, hvals, and_self, if_true, h4, List.map_map,
      Function.comp_def]
  · intro hsorted
    rw [h1, List.pairwise_flatMap] at hsorted
    have hnonstrict : runs.Pairwise (fun r s => tuple_less s.1 r.1 = false) := by
      refine hsorted.2.imp_of_mem ?_
      intro r s hr hs hrs
      obtain ⟨v, hv⟩ := List.exists_mem_of_ne_nil _ (h2 r hr)
      obtain ⟨w, hw⟩ := List.exists_mem_of_ne_nil _ (h2 s hs)
      exact hrs (r.1, v) (List.mem_map.mpr ⟨v, hv, rfl⟩) (s.1, w)
        (List.mem_map.mpr ⟨w, hw, rfl⟩)
    have hstrict := runs_strictly_increasing runs hnonstrict h3
    refine ⟨hstrict, ?_⟩
    intro r hr
    have hdiff : runs.Pairwise (fun r s => r.1 ≠ s.1) := by
      refine hstrict.imp ?_
      intro a b hab hEq
      rw [hEq, tuple_less_iff] at hab
      omega
    rw [h1, values_of_key runs hdiff r hr]

/-- Instance of C20: five sorted entries with the keys `(0, 1)`, `(0, 1)`,
`(0, 2)`, `(1, 0)`, `(1, 0)`. -/
theorem coarse_coo_runs_witness :
    (5 ≤ [(0 : Int), 0, 0, 1, 1].length ∧ 5 ≤ [(1 : Int), 1, 2, 0, 0].length ∧
      5 ≤ [(1 : Int), 2, 3, 4, 5].length) ∧
    ∃ runs : List ((Int × Int) × List Int),
      zipped_entries 5 [0, 0, 0, 1, 1] [1, 1, 2, 0, 0] [(1 : Int), 2, 3, 4, 5] =
        runs.flatMap (fun r => r.2.map (fun v => (r.1, v))) ∧
      (∀ r ∈ runs, r.2 ≠ []) ∧
      runs.Chain' (fun r s => r.1 ≠ s.1) ∧
      compute_coarse_coo 5 [0, 0, 0, 1, 1] [1, 1, 2, 0, 0] [(1 : Int), 2, 3, 4, 5] =
        some (runs.map (fun r => r.1.1), runs.map (fun r => r.1.2),
          runs.map (fun r => r.2.sum)) ∧
      ((zipped_entries 5 [0, 0, 0, 1, 1] [1, 1, 2, 0, 0] [(1 : Int), 2, 3, 4, 5]).Pairwise
          (fun x y => tuple_less y.1 x.1 = false) →
        runs.Pairwise (fun r s => tuple_less r.1 s.1 = true) ∧
        ∀ r ∈ runs, r.2.sum =
          (((zipped_entries 5 [0, 0, 0, 1, 1] [1, 1, 2, 0, 0] [(1 : Int), 2, 3, 4, 5]).filter
            (fun x => x.1 = r.1)).map (fun x => x.2)).sum) :=
  ⟨by decide,
    coarse_coo_runs 5 [0, 0, 0, 1, 1] [1, 1, 2, 0, 0] [(1 : Int), 2, 3, 4, 5] (by decide)
      (by decide) (by decide)⟩

/-- C21: values added exactly (commutative, associative addition).  For any two
inputs of `nnz` entries `(row, col, val)` that hold the same entries in
whatever order, and for any results of `sort_row_major` on the two inputs
(whatever the sort does with entries of equal key), `compute_coarse_coo` on the
two sorted inputs returns, and returns the same coarse row, column and value
arrays. -/
theorem sort_then_reduce_deterministic {V : Type} [AddCommMonoid V] (nnz : Nat)
    (rows1 cols1 : List Int) (vals1 : List V) (rows2 cols2 : List Int) (vals2 : List V)
    (ra1 ca1 : List Int) (va1 : List V) (ra2 ca2 : List Int) (va2 : List V)
    (hperm : (zipped_entries nnz rows1 cols1 vals1).Perm
      (zipped_entries nnz rows2 cols2 vals2))
    (h1 : sort_row_major nnz rows1 cols1 vals1 ra1 ca1 va1)
    (h2 : sort_row_major nnz rows2 cols2 vals2 ra2 ca2 va2) :
    ∃ coarse, compute_coarse_coo nnz ra1 ca1 va1 = some coarse ∧
      compute_coarse_coo nnz ra2 ca2 va2 = some coarse := by
  obtain ⟨hr1, hc1, hv1, hlr1, hlc1, hlv1, hsort1, -, -, -⟩ := h1
  obtain ⟨hr2, hc2, hv2, hlr2, hlc2, hlv2, hsort2, -, -, -⟩ := h2
  have hb1 : nnz ≤ ra1.length ∧ nnz ≤ ca1.length ∧ nnz ≤ va1.length := by
    rw [hlr1, hlc1, hlv1]
    exact ⟨hr1, hc1, hv1⟩
  have hb2 : nnz ≤ ra2.length ∧ nnz ≤ ca2.length ∧ nnz ≤ va2.length := by
    rw [hlr2, hlc2, hlv2]
    exact ⟨hr2, hc2, hv2⟩
  have hp : (zipped_entries nnz ra1 ca1 va1).Perm (zipped_entries nnz ra2 ca2 va2) :=
    (hsort1.1.trans hperm).trans hsort2.1.symm
  have hred := reduce_sorted_perm _ _ hp hsort1.2 hsort2.2
  have e1 : compute_coarse_coo nnz ra1 ca1 va1 = compute_coarse_coo nnz ra2 ca2 va2 := by
    simp only [compute_coarse_coo, hb1, hb2, and_self, if_true, hred]
  have e2 : ∃ coarse, compute_coarse_coo nnz ra2 ca2 va2 = some coarse := by
    simp only [compute_coarse_coo, hb2, and_self, if_true]
    exact ⟨_, rfl⟩
  obtain ⟨coarse, hc⟩ := e2
  exact ⟨coarse, e1.trans hc, hc⟩

/-- Instance of C21: the same four entries in two orders, the two entries of
key `(1, 0)` left in different orders by the two sorts; both reductions give
the rows `[0, 0, 1]`, the columns `[1, 2, 0]` and the values `[8, 6, 12]`. -/
theorem sort_then_reduce_deterministic_witness :
    ((zipped_entries 4 [1, 0, 1, 0] [0, 2, 0, 1] [(5 : Int), 6, 7, 8]).Perm
        (zipped_entries 4 [0, 1, 0, 1] [1, 0, 2, 0] [(8 : Int), 7, 6, 5]) ∧
      sort_row_major 4 [1, 0, 1, 0] [0, 2, 0, 1] [(5 : Int), 6, 7, 8]
        [0, 0, 1, 1] [1, 2, 0, 0] [8, 6, 7, 5] ∧
      sort_row_major 4 [0, 1, 0, 1] [1, 0, 2, 0] [(8 : Int), 7, 6, 5]
        [0, 0, 1, 1] [1, 2, 0, 0] [8, 6, 5, 7]) ∧
    compute_coarse_coo 4 [0, 0, 1, 1] [1, 2, 0, 0] [(8 : Int), 6, 7, 5] =
      some ([0, 0, 1], [1, 2, 0], [8, 6, 12]) ∧
    ∃ coarse, compute_coarse_coo 4 [0, 0, 1, 1] [1, 2, 0, 0] [(8 : Int), 6, 7, 5] =
        some coarse ∧
      compute_coarse_coo 4 [0, 0, 1, 1] [1, 2, 0, 0] [(8 : Int), 6, 5, 7] = some coarse :=
  ⟨⟨by decide, by decide, by decide⟩, by decide,
    sort_then_reduce_deterministic 4 [1, 0, 1, 0] [0, 2, 0, 1] [(5 : Int), 6, 7, 8]
      [0, 1, 0, 1] [1, 0, 2, 0] [8, 7, 6, 5] [0, 0, 1, 1] [1, 2, 0, 0] [8, 6, 7, 5]
      [0, 0, 1, 1] [1, 2, 0, 0] [8, 6, 5, 7] (by decide) (by decide) (by decide)⟩

/-- C22: for arrays of at least `num` elements, `sort_agg` and `sort_row_major`
have a result, and for every result (whatever the sort does with equivalent
elements): the first `num` zipped pairs `(row, col)`, resp. zipped entries
`((row, col), val)`, are a permutation of the zipped input, and their keys are
non-decreasing in the lexicographic order of `(row, col)`; for `sort_agg` the
sorted pairs are the same for every input with the same pairs, in whatever
order. -/
theorem sort_permutes_tuples {V : Type} (num : Nat) (row_idxs col_idxs : List Int)
    (vals : List V) (hr : num ≤ row_idxs.length) (hc : num ≤ col_idxs.length)
    (hv : num ≤ vals.length) :
    (∃ ra ca, sort_agg num row_idxs col_idxs ra ca) ∧
    (∀ ra ca, sort_agg num row_idxs col_idxs ra ca →
      ((ra.zip ca).take num).Perm ((row_idxs.zip col_idxs).take num) ∧
      ((ra.zip ca).take num).Pairwise
        (fun x y => x.1 < y.1 ∨ (x.1 = y.1 ∧ x.2 ≤ y.2)) ∧
      ∀ rows2 cols2 rb cb,
        ((rows2.zip cols2).take num).Perm ((row_idxs.zip col_idxs).take num) →
        sort_agg num rows2 cols2 rb cb → (rb.zip cb).take num = (ra.zip ca).take num) ∧
    (∃ ra ca va, sort_row_major num row_idxs col_idxs vals ra ca va) ∧
    (∀ ra ca va, sort_row_major num row_idxs col_idxs vals ra ca va →
      (zipped_entries num ra ca va).Perm (zipped_entries num row_idxs col_idxs vals) ∧
      (zipped_entries num ra ca va).Pairwise
        (fun x y => x.1.1 < y.1.1 ∨ (x.1.1 = y.1.1 ∧ x.1.2 ≤ y.1.2))) := by
  refine ⟨?_, ?_, ?_, ?_⟩
  · obtain ⟨s, hs, hlen⟩ := std_sort_exists (fun x : Int × Int => (x.1, x.2))
      ((row_idxs.zip col_idxs).take num)
    rw [length_zip_take num row_idxs col_idxs hr hc] at hlen
    obtain ⟨h1, h2, h3, h4, h5⟩ := zip_rebuild num row_idxs col_idxs s hlen hr hc
    refine ⟨_, _, hr, hc, h1, h2, ?_, h4, h5⟩
    rw [h3]
    exact hs
  · intro ra ca h
    obtain ⟨-, -, -, -, hsort, -, -⟩ := h
    refine ⟨hsort.1, ?_, ?_⟩
    · refine hsort.2.imp ?_
      intro a b hab
      exact (not_less_iff_lex a b).mp hab
    · intro rows2 cols2 rb cb hperm h2
      obtain ⟨-, -, -, -, hsort2, -, -⟩ := h2
      exact std_sort_pairs_unique _ _ _ _ hperm hsort2 hsort
  · obtain ⟨s, hs, hlen⟩ := std_sort_exists (fun x : (Int × Int) × V => (x.1.1, x.1.2))
      (zipped_entries num row_idxs col_idxs vals)
    rw [length_zipped_entries num row_idxs col_idxs vals hr hc hv] at hlen
    obtain ⟨h1, h2, h3, h4, h5, h6, h7⟩ :=
      zipped_rebuild num row_idxs col_idxs vals s hlen hr hc hv
    refine ⟨_, _, _, hr, hc, hv, h1, h2, h3, ?_, h5, h6, h7⟩
    rw [h4]
    exact hs
  · intro ra ca va h
    obtain ⟨-, -, -, -, -, -, hsort, -, -, -⟩ := h
    refine ⟨hsort.1, ?_⟩
    refine hsort.2.imp ?_
    intro a b hab
    exact (not_less_iff_lex (a.1.1, a.1.2) (b.1.1, b.1.2)).mp hab

/-- Instance of C22: four zipped entries with the repeated key `(1, 0)`. -/
theorem sort_permutes_tuples_witness :
    (4 ≤ [(1 : Int), 0, 1, 0].length ∧ 4 ≤ [(0 : Int), 2, 0, 1].length ∧
      4 ≤ [(5 : Int), 6, 7, 8].length) ∧
    sort_agg 4 [1, 0, 1, 0] [0, 2, 0, 1] [0, 0, 1, 1] [1, 2, 0, 0] ∧
    sort_row_major 4 [1, 0, 1, 0] [0, 2, 0, 1] [(5 : Int), 6, 7, 8]
      [0, 0, 1, 1] [1, 2, 0, 0] [8, 6, 7, 5] ∧
    sort_row_major 4 [1, 0, 1, 0] [0, 2, 0, 1] [(5 : Int), 6, 7, 8]
      [0, 0, 1, 1] [1, 2, 0, 0] [8, 6, 5, 7] ∧
    ((zipped_entries 4 [0, 0, 1, 1] [1, 2, 0, 0] [(8 : Int), 6, 7, 5]).Perm
        (zipped_entries 4 [1, 0, 1, 0] [0, 2, 0, 1] [(5 : Int), 6, 7, 8]) ∧
      (zipped_entries 4 [0, 0, 1, 1] [1, 2, 0, 0] [(8 : Int), 6, 7, 5]).Pairwise
        (fun x y => x.1.1 < y.1.1 ∨ (x.1.1 = y.1.1 ∧ x.1.2 ≤ y.1.2))) :=
  ⟨⟨by decide, by decide, by decide⟩, by decide, by decide, by decide,
    (sort_permutes_tuples 4 [1, 0, 1, 0] [0, 2, 0, 1] [(5 : Int), 6, 7, 8] (by decide)
      (by decide) (by decide)).2.2.2 [0, 0, 1, 1] [1, 2, 0, 0] [8, 6, 7, 5] (by decide)⟩

/-- C23, the code at the claim's input: `Record::create` called without
`max_storage`, with or without `enabled_events`, constructs a `Record` whose
`max_storage` is `1`, while the constructor called without `max_storage` stores
`0`. -/
theorem record_create_default_storage (all_events_mask : Nat) (enabled_events : Nat) :
    (Record.create all_events_mask none none).max_storage = 1 ∧
    (Record.create all_events_mask (some enabled_events) none).max_storage = 1 ∧
    (Record.new all_events_mask none none).max_storage = 0 ∧
    (Record.new all_events_mask (some enabled_events) none).max_storage = 0 :=
  ⟨rfl, rfl, rfl, rfl⟩

/-- C24: for zipped arrays and zip references `a` and `b` whose positions lie
inside every array: `swap(a, b)` returns, and in every zipped array the
position of `a` then holds the old element of the position of `b`, the position
of `b` holds the old element of the position of `a`, every other position
holds its old element and the length is unchanged; for `a` and `b` at the same
positions the arrays are unchanged.  The overload `swap(value_type& a, b)`
leaves in the tuple `a` the old elements referenced by `b` and at the positions
of `b` the old components of `a`, every other position unchanged; the overload
`swap(a, value_type& b)` does the same with the roles exchanged. -/
theorem swap_exchanges {n : Nat} {V : Type} (arrays : Fin (n + 1) → List V)
    (a b : zip_iterator_reference n) (v : Fin (n + 1) → V)
    (ha : ∀ k, 0 ≤ a.positions k ∧ (a.positions k).toNat < (arrays k).length)
    (hb : ∀ k, 0 ≤ b.positions k ∧ (b.positions k).toNat < (arrays k).length) :
    (∃ result, swap arrays a b = some result ∧
      (∀ k, (result k).length = (arrays k).length ∧
        read_at (result k) (a.positions k) = read_at (arrays k) (b.positions k) ∧
        read_at (result k) (b.positions k) = read_at (arrays k) (a.positions k) ∧
        ∀ i, i ≠ a.positions k → i ≠ b.positions k →
          read_at (result k) i = read_at (arrays k) i) ∧
      (a = b → result = arrays)) ∧
    (∃ a2 result, swap_value_reference arrays v b = some (a2, result) ∧
      ∀ k, (result k).length = (arrays k).length ∧
        some (a2 k) = read_at (arrays k) (b.positions k) ∧
        read_at (result k) (b.positions k) = some (v k) ∧
        ∀ i, i ≠ b.positions k → read_at (result k) i = read_at (arrays k) i) ∧
    (∃ result b2, swap_reference_value arrays a v = some (result, b2) ∧
      ∀ k, (result k).length = (arrays k).length ∧
        some (b2 k) = read_at (arrays k) (a.positions k) ∧
        read_at (result k) (a.positions k) = some (v k) ∧
        ∀ i, i ≠ a.positions k → read_at (result k) i = read_at (arrays k) i) := by
  have hra : ∀ k, read_at (arrays k) (a.positions k) =
      some ((arrays k).get ⟨(a.positions k).toNat, (ha k).2⟩) :=
    fun k => read_at_of_bounds _ _ (ha k).1 (ha k).2
  have hrb : ∀ k, read_at (arrays k) (b.positions k) =
      some ((arrays k).get ⟨(b.positions k).toNat, (hb k).2⟩) :=
    fun k => read_at_of_bounds _ _ (hb k).1 (hb k).2
  refine ⟨⟨_, swap_steps arrays a b ha hb, ?_, ?_⟩, ?_, ?_⟩
  · intro k
    have hlen : (b.positions k).toNat <
        ((arrays k).set (a.positions k).toNat
          ((arrays k).get ⟨(b.positions k).toNat, (hb k).2⟩)).length := by
      rw [List.length_set]
      exact (hb k).2
    refine ⟨by simp, ?_, ?_, ?_⟩
    · rw [read_at_set _ _ _ _ (hb k).1 hlen, read_at_set _ _ _ _ (ha k).1 (ha k).2,
        if_pos rfl, hrb k]
      by_cases hab : a.positions k = b.positions k
      · rw [if_pos hab]
        simp only [hab]
      · rw [if_neg hab]
    · rw [read_at_set _ _ _ _ (hb k).1 hlen, if_pos rfl, hra k]
    · intro i hia hib
      rw [read_at_set _ _ _ _ (hb k).1 hlen, if_neg hib,
        read_at_set _ _ _ _ (ha k).1 (ha k).2, if_neg hia]
  · intro hab
    subst hab
    funext k
    rw [set_same (arrays k) _ (ha k).2, set_same (arrays k) _ (ha k).2]
  · have hvb : b.cast_impl arrays =
        some (fun k => (arrays k).get ⟨(b.positions k).toNat, (hb k).2⟩) :=
      collect_tuple_of_all _ _ hrb
    have hw : b.assign_impl arrays v =
        some (fun k => (arrays k).set (b.positions k).toNat (v k)) :=
      collect_tuple_of_all _ _ (fun k => write_at_of_bounds _ _ _ (hb k).1 (hb k).2)
    refine ⟨_, _, by simp only [swap_value_reference, hvb, hw, Option.bind_eq_bind,
      Option.some_bind]; rfl, ?_⟩
    intro k
    refine ⟨by simp, (hrb k).symm, ?_, ?_⟩
    · rw [read_at_set _ _ _ _ (hb k).1 (hb k).2, if_pos rfl]
    · intro i hi
      rw [read_at_set _ _ _ _ (hb k).1 (hb k).2, if_neg hi]
  · have hva : a.copy arrays =
        some (fun k => (arrays k).get ⟨(a.positions k).toNat, (ha k).2⟩) :=
      collect_tuple_of_all _ _ hra
    have hw : a.assign_impl arrays v =
        some (fun k => (arrays k).set (a.positions k).toNat (v k)) :=
      collect_tuple_of_all _ _ (fun k => write_at_of_bounds _ _ _ (ha k).1 (ha k).2)
    refine ⟨_, _, by simp only [swap_reference_value, hva, hw, Option.bind_eq_bind,
      Option.some_bind]; rfl, ?_⟩
    intro k
    refine ⟨by simp, (hra k).symm, ?_, ?_⟩
    · rw [read_at_set _ _ _ _ (ha k).1 (ha k).2, if_pos rfl]
    · intro i hi
      rw [read_at_set _ _ _ _ (ha k).1 (ha k).2, if_neg hi]

/-- Instance of C24: positions `0` and `2` of two zipped arrays of three
elements, swapped through two references. -/
theorem swap_exchanges_witness :
    ((∀ k, 0 ≤ (zip_iterator_reference.mk (n := 1) (fun _ => 0)).positions k ∧
        ((zip_iterator_reference.mk (n := 1) (fun _ => 0)).positions k).toNat <
          (example_zipped k).length) ∧
      (∀ k, 0 ≤ (zip_iterator_reference.mk (n := 1) (fun _ => 2)).positions k ∧
        ((zip_iterator_reference.mk (n := 1) (fun _ => 2)).positions k).toNat <
          (example_zipped k).length)) ∧
    ∃ result, swap example_zipped ⟨fun _ => 0⟩ ⟨fun _ => 2⟩ = some result ∧
      (∀ k, (result k).length = (example_zipped k).length ∧
        read_at (result k) 0 = read_at (example_zipped k) 2 ∧
        read_at (result k) 2 = read_at (example_zipped k) 0 ∧
        ∀ i, i ≠ 0 → i ≠ 2 → read_at (result k) i = read_at (example_zipped k) i) ∧
      ((zip_iterator_reference.mk (n := 1) (fun _ => 0)) = ⟨fun _ => 2⟩ →
        result = example_zipped) :=
  ⟨⟨by decide, by decide⟩,
    (swap_exchanges example_zipped ⟨fun _ => 0⟩ ⟨fun _ => 2⟩ (fun _ => 7) (by decide)
      (by decide)).1⟩

/-- C25: for every zip iterator `it` and all integers `n`, `m`: the distance
`(it + n) - (it + m)` is `n - m`; `it + n == it + m` holds exactly when
`n = m`, `!=` exactly when `n ≠ m`; `<`, `<=`, `>`, `>=` between `it + n` and
`it + m` hold exactly when `n < m`, `n ≤ m`, `m < n`, `m ≤ n`; `it[n]` refers to
the entries `*(it + n)` refers to, those at the positions of `it` moved by `n`;
and for all wrapped iterators `make_zip_iterator(i + 1, j + 1, ...)` equals
`make_zip_iterator(i, j, ...) + 1` and differs from
`make_zip_iterator(i, j, ...)`.  Every one of these operations passes the
consistency assertion. -/
theorem zip_iterator_consistent {k : Nat} (it : zip_iterator k) (n m : Int)
    (its : Fin (k + 1) → Int) :
    (it.add n).distance (it.add m) = some (n - m) ∧
    (it.add n).eq (it.add m) = some (decide (n = m)) ∧
    (it.add n).ne (it.add m) = some (decide (n ≠ m)) ∧
    (it.add n).lt (it.add m) = some (decide (n < m)) ∧
    (it.add n).le (it.add m) = some (decide (n ≤ m)) ∧
    (it.add n).gt (it.add m) = some (decide (m < n)) ∧
    (it.add n).ge (it.add m) = some (decide (m ≤ n)) ∧
    it.index n = (it.add n).deref ∧
    (∀ j, (it.index n).positions j = it.iterators_ j + n) ∧
    (make_zip_iterator (fun j => its j + 1)).eq ((make_zip_iterator its).add 1) = some true ∧
    (make_zip_iterator its).ne (make_zip_iterator (fun j => its j + 1)) = some true := by
  have hc : ∀ j : Fin (k + 1), (it.add n).iterators_ 0 - (it.add m).iterators_ 0 =
      (it.add n).iterators_ j - (it.add m).iterators_ j := by
    intro j
    simp only [zip_iterator.add, zip_iterator.add_assign, zip_iterator.forall]
    omega
  have h0 : (it.add n).iterators_ 0 = it.iterators_ 0 + n := rfl
  have h1 : (it.add m).iterators_ 0 = it.iterators_ 0 + m := rfl
  refine ⟨?_, ?_, ?_, ?_, ?_, ?_, ?_, rfl, fun _ => rfl, ?_, ?_⟩
  · simp only [zip_iterator.distance, zip_iterator.forall_check_consistent]
    rw [if_pos hc, h0, h1]
    congr 1
    omega
  · simp only [zip_iterator.eq, zip_iterator.forall_check_consistent]
    rw [if_pos hc, h0, h1]
    congr 1
    simp
  · simp only [zip_iterator.ne, zip_iterator.eq, zip_iterator.forall_check_consistent]
    rw [if_pos hc, h0, h1]
    simp
  · simp only [zip_iterator.lt, zip_iterator.forall_check_consistent]
    rw [if_pos hc, h0, h1]
    congr 1
    simp
  · simp only [zip_iterator.le, zip_iterator.forall_check_consistent]
    rw [if_pos hc, h0, h1]
    congr 1
    simp
  · simp only [zip_iterator.gt, zip_iterator.le, zip_iterator.forall_check_consistent]
    rw [if_pos hc, h0, h1]
    by_cases h : n ≤ m
    · have h2 : ¬ m < n := by omega
      simp [h, h2]
    · have h2 : m < n := by omega
      simp [h, h2]
  · simp only [zip_iterator.ge, zip_iterator.lt, zip_iterator.forall_check_consistent]
    rw [if_pos hc, h0, h1]
    by_cases h : n < m
    · have h2 : ¬ m ≤ n := by omega
      simp [h, h2]
    · have h2 : m ≤ n := by omega
      simp [h, h2]
  · simp [zip_iterator.eq, zip_iterator.forall_check_consistent, make_zip_iterator,
      zip_iterator.add, zip_iterator.add_assign, zip_iterator.forall]
  · simp [zip_iterator.ne, zip_iterator.eq, zip_iterator.forall_check_consistent,
      make_zip_iterator]

/-- C26: on a partition whose `range_bounds` increase strictly from `0`, whose
three arrays have the lengths `num_ranges + 1`, `num_ranges` and `num_ranges`
and whose `part_ids` all lie in `[0, num_parts)`, for every input whose rows
all lie in `[0, range_bounds[num_ranges])`: `build_local` returns an output for
every part `p` below `num_parts`; that output is, slot by slot and in input
order, the input entries owned by `p`, each `(row, column, value)` written as
`(map_to_local(row, find_range(row)), column converted to LocalIndexType,
value)`, no slot left unwritten, so it has as many entries as the input has
entries owned by `p`; every input entry is owned by exactly one part, which
lies below `num_parts`, so it is written to the output of that part and of no
other; and the lengths of the outputs of all parts add up to the length of the
input. -/
theorem build_local_distributes {V : Type} (gw lw : Nat) (P : Partition)
    (input : List (matrix_data_entry V))
    (hshape : P.shaped) (hinc : P.increasing_from_zero)
    (hparts : ∀ q ∈ P.part_ids, 0 ≤ q ∧ q < (P.num_parts : Int))
    (hrows : ∀ e ∈ input, 0 ≤ e.row ∧ e.row < P.size) :
    ∃ output : Nat → List (Option (matrix_data_entry V)),
      (∀ p : Nat, p < P.num_parts →
        build_local gw lw P (p : Int) input = some (output p) ∧
        output p =
          (input.filter (fun e => owning_part P e.row = some (p : Int))).map
            (fun e => (local_index gw lw P e.row).map
              (fun x => (⟨x, wrap lw e.column, e.value⟩ : matrix_data_entry V))) ∧
        (∀ slot ∈ output p, slot ≠ none) ∧
        (output p).length =
          (input.filter (fun e => owning_part P e.row = some (p : Int))).length) ∧
      (∀ e ∈ input, ∃ p : Nat, p < P.num_parts ∧ owning_part P e.row = some (p : Int) ∧
        ∀ q : Nat, owning_part P e.row = some (q : Int) → q = p) ∧
      ((List.range P.num_parts).map (fun (p : Nat) => (output p).length)).sum =
        input.length := by
  have hsorted : P.non_decreasing := pairwise_le_of_pairwise_lt hinc.1
  rcases covered_nil_or_ranges P input hinc hrows with hnil | hn
  · subst hnil
    refine ⟨fun _ => [], ?_, ?_, ?_⟩
    · intro p _
      exact ⟨by simp [build_local, count_pass, fill_pass], rfl,
        fun slot hslot => absurd hslot (List.not_mem_nil slot), rfl⟩
    · intro e he
      exact absurd he (List.not_mem_nil e)
    · simp
  · have hlt : ∀ e ∈ input, e.row < P.size := fun e he => (hrows e he).2
    have hlook : ∀ e ∈ input, ∃ (q x : Int), owning_part P e.row = some q ∧
        local_index gw lw P e.row = some x ∧ 0 ≤ q ∧ q < (P.num_parts : Int) := by
      intro e he
      obtain ⟨r, part, l, -, -, hfind, hpart, hmap⟩ :=
        lookup_defined gw lw P e.row 0 hshape hsorted hn (hlt e he)
      have hq : owning_part P e.row = some part := by
        simp only [owning_part, hfind, Option.some_bind, hpart]
      have hl : local_index gw lw P e.row = some l := by
        simp only [local_index, hfind, Option.some_bind, hmap]
      obtain ⟨h0, h1⟩ := hparts part (owning_part_mem P e.row part hq)
      exact ⟨part, l, hq, hl, h0, h1⟩
    have hown : ∀ e ∈ input, ∃ q : Int, owning_part P e.row = some q ∧ 0 ≤ q ∧
        q < (P.num_parts : Int) := by
      intro e he
      obtain ⟨q, -, hq, -, h0, h1⟩ := hlook e he
      exact ⟨q, hq, h0, h1⟩
    have hcontent : ∀ p : Int,
        (build_local_filter_map gw lw P p input).map (fun o => some (narrow_column lw o)) =
          (input.filter (fun e => owning_part P e.row = some p)).map
            (fun e => (local_index gw lw P e.row).map
              (fun x => (⟨x, wrap lw e.column, e.value⟩ : matrix_data_entry V))) := by
      intro p
      unfold build_local_filter_map
      apply filter_map_as_map
      intro e he
      obtain ⟨-, x, -, hx, -, -⟩ := hlook e (List.mem_of_mem_filter he)
      exact ⟨x, hx⟩
    refine ⟨fun p => (input.filter (fun e => owning_part P e.row = some (p : Int))).map
      (fun e => (local_index gw lw P e.row).map
        (fun x => (⟨x, wrap lw e.column, e.value⟩ : matrix_data_entry V))), ?_, ?_, ?_⟩
    · intro p _
      refine ⟨?_, rfl, ?_, List.length_map _ _⟩
      · rw [build_local_eq gw lw P (p : Int) input hshape hsorted hn hlt, hcontent]
      · intro slot hslot
        obtain ⟨e, he, rfl⟩ := List.mem_map.mp hslot
        obtain ⟨-, x, -, hx, -, -⟩ := hlook e (List.mem_of_mem_filter he)
        rw [hx]
        exact Option.some_ne_none _
    · intro e he
      obtain ⟨q, hq, hq0, hqn⟩ := hown e he
      refine ⟨q.toNat, by omega, ?_, ?_⟩
      · rw [hq, Int.toNat_of_nonneg hq0]
      · intro q2 hq2
        rw [hq] at hq2
        have := Option.some.inj hq2
        omega
    · have hsum := sum_lengths_by_owner P.num_parts (fun e => owning_part P e.row) input hown
      simp only [List.length_map]
      apply Int.ofNat_inj.mp
      rw [Nat.cast_list_sum, List.map_map]
      exact hsum

/-- Instance of C26: the four sample vector entries over the three parts of the
sample partition; part `0` gets no entry, part `1` the entry of row `0`, part
`2` the entries of the rows `7`, `2` and `3` in this order. -/
theorem build_local_distributes_witness :
    (example_partition.shaped ∧ example_partition.increasing_from_zero ∧
      (∀ q ∈ example_partition.part_ids, 0 ≤ q ∧ q < (example_partition.num_parts : Int)) ∧
      (∀ e ∈ example_vector_entries, 0 ≤ e.row ∧ e.row < example_partition.size)) ∧
    build_local 64 32 example_partition 0 example_vector_entries = some [] ∧
    build_local 64 32 example_partition 1 example_vector_entries =
      some [some ⟨0, 0, 12⟩] ∧
    build_local 64 32 example_partition 2 example_vector_entries =
      some [some ⟨2, 0, 10⟩, some ⟨0, 1, 11⟩, some ⟨1, 2, 13⟩] ∧
    ∃ output : Nat → List (Option (matrix_data_entry Nat)),
      (∀ p : Nat, p < example_partition.num_parts →
        build_local 64 32 example_partition (p : Int) example_vector_entries =
          some (output p) ∧
        output p =
          (example_vector_entries.filter
            (fun e => owning_part example_partition e.row = some (p : Int))).map
            (fun e => (local_index 64 32 example_partition e.row).map
              (fun x => (⟨x, wrap 32 e.column, e.value⟩ : matrix_data_entry Nat))) ∧
        (∀ slot ∈ output p, slot ≠ none) ∧
        (output p).length =
          (example_vector_entries.filter
            (fun e => owning_part example_partition e.row = some (p : Int))).length) ∧
      (∀ e ∈ example_vector_entries, ∃ p : Nat, p < example_partition.num_parts ∧
        owning_part example_partition e.row = some (p : Int) ∧
        ∀ q : Nat, owning_part example_partition e.row = some (q : Int) → q = p) ∧
      ((List.range example_partition.num_parts).map (fun (p : Nat) => (output p).length)).sum =
        example_vector_entries.length :=
  ⟨⟨by decide, by decide, by decide, by decide⟩, by decide, by decide, by decide,
    build_local_distributes 64 32 example_partition example_vector_entries (by decide)
      (by decide) (by decide) (by decide)⟩

/-- C27: with a 64-bit `GlobalIndexType` and a 32-bit `LocalIndexType`, for
every global index `g` and every range `r` whose bound `range_bounds[r]` and
starting index `range_starting_indices[r]` are read in bounds: when the exact
value `range_starting_indices[r] + (g - range_bounds[r])` fits
`LocalIndexType`, `map_to_local(g, r)` returns exactly that value.  Nothing is
asked of `g` and `range_bounds[r]` themselves, which may lie outside
`LocalIndexType`; this covers every `g` in range `r` with a non-negative
starting index. -/
theorem map_to_local_narrows_offset (P : Partition) (g : Int) (r : Nat) (b s : Int)
    (hb : P.range_bounds[r]? = some b) (hs : P.range_starting_indices[r]? = some s)
    (hfit : fits 32 (s + (g - b))) :
    map_to_local 64 32 P g r = some (s + (g - b)) :=
  map_to_local_of_fits 64 32 P g r b s (by decide) (by decide) hb hs hfit

/-- Instance of C27: global index `2 ^ 40 + 7` lies in range `1` of the far
partition, which starts at `2 ^ 40`; neither fits 32 bits, the local index `7`
is returned. -/
theorem map_to_local_narrows_offset_witness :
    (far_partition.range_bounds[1]? = some (2 ^ 40) ∧
      far_partition.range_starting_indices[1]? = some 0 ∧
      fits 32 (0 + (2 ^ 40 + 7 - 2 ^ 40))) ∧
    ¬ fits 32 (2 ^ 40 + 7) ∧ ¬ fits 32 (2 ^ 40) ∧
    map_to_local 64 32 far_partition (2 ^ 40 + 7) 1 = some (0 + (2 ^ 40 + 7 - 2 ^ 40)) :=
  ⟨⟨by decide, by decide, by decide⟩, by decide, by decide,
    map_to_local_narrows_offset far_partition (2 ^ 40 + 7) 1 (2 ^ 40) 0 (by decide)
      (by decide) (by decide)⟩

/-- C28: for a subwarp of `2 ^ k` lanes which all execute
`subwarp_prefix_sum<inclusive>` in lockstep, values added exactly (commutative,
associative addition): the call returns with, in every lane `i` of the
subwarp, `prefix_sum` equal to the sum of `element` over the lanes below `i`,
plus `element` of lane `i` when `inclusive`, and `total_sum` equal to the sum
of `element` over all lanes of the subwarp; every lane a shuffle reads from
belongs to the subwarp. -/
theorem subwarp_prefix_sum_correct {V : Type} [AddCommMonoid V] (inclusive : Bool) (k : Nat)
    (element : Nat → V) (i : Nat) (hi : i < 2 ^ k) :
    (subwarp_prefix_sum inclusive (2 ^ k) element).1 i =
      ((List.range i).map element).sum + (if inclusive then element i else 0) ∧
    (subwarp_prefix_sum inclusive (2 ^ k) element).2 i =
      ((List.range (2 ^ k)).map element).sum ∧
    ∀ j, j < k → i ^^^ 2 ^ j < 2 ^ k := by
  have hloop := subwarp_loop_spec inclusive element k k 0 (2 ^ k) (by omega) (Nat.lt_two_pow k)
  have hinit : subwarp_prefix_sum inclusive (2 ^ k) element =
      subwarp_prefix_sum_loop (2 ^ k) (2 ^ k) (2 ^ 0) (block_prefix_sum inclusive element 0)
        (block_total element 0) := by
    unfold subwarp_prefix_sum
    rw [pow_zero]
    congr 1
    · funext rank
      simp [block_prefix_sum]
    · funext rank
      simp [block_total]
  have hdiv : i / 2 ^ k = 0 := Nat.div_eq_of_lt hi
  rw [hinit, hloop]
  refine ⟨?_, ?_, ?_⟩
  · simp only [block_prefix_sum, hdiv, Nat.zero_mul]
    rw [← Finset.range_eq_Ico, sum_range_eq_list]
  · simp only [block_total, hdiv, Nat.zero_mul, Nat.zero_add]
    rw [← Finset.range_eq_Ico, sum_range_eq_list]
  · intro j hj
    exact Nat.xor_lt_two_pow hi (Nat.pow_lt_pow_right (by decide) hj)

/-- Instance of C28: lane `2` of a subwarp of four lanes with the elements
`1, 2, 3, 4`, exclusive and inclusive. -/
theorem subwarp_prefix_sum_correct_witness :
    2 < 2 ^ 2 ∧
    (subwarp_prefix_sum false (2 ^ 2) (fun rank => [(1 : Int), 2, 3, 4].getD rank 0)).1 2 =
      3 ∧
    (subwarp_prefix_sum true (2 ^ 2) (fun rank => [(1 : Int), 2, 3, 4].getD rank 0)).1 2 =
      6 ∧
    (subwarp_prefix_sum false (2 ^ 2) (fun rank => [(1 : Int), 2, 3, 4].getD rank 0)).2 2 =
      10 :=
  ⟨by decide,
    (subwarp_prefix_sum_correct false 2 (fun rank => [(1 : Int), 2, 3, 4].getD rank 0) 2
      (by decide)).1.trans (by decide),
    (subwarp_prefix_sum_correct true 2 (fun rank => [(1 : Int), 2, 3, 4].getD rank 0) 2
      (by decide)).1.trans (by decide),
    (subwarp_prefix_sum_correct false 2 (fun rank => [(1 : Int), 2, 3, 4].getD rank 0) 2
      (by decide)).2.1.trans (by decide)⟩

/-- C29: for a block size `2 ^ k`, a grid of `ceildiv(num_elements, block_size)`
thread blocks, the threads of a block run barrier by barrier, values added
exactly (commutative, associative addition), whatever the shared arrays hold at
the start: after `start_prefix_sum` and then `finalize_prefix_sum`, every
`elements[i]` with `i < num_elements` holds the sum of the original elements
before `i` (nothing for `i = 0`; the last original element is added nowhere),
every other position of `elements` is unchanged; and after `start_prefix_sum`,
`block_sum[b]` holds the sum of the original elements of block `b` for every
block but the last, every other position of `block_sum` unchanged. -/
theorem two_step_prefix_sum {V : Type} [AddCommMonoid V] (k num_elements : Nat)
    (uninitialized : Nat → Nat → V) (elements block_sum : Nat → V) :
    (∀ i, i < num_elements →
      finalize_prefix_sum (2 ^ k) num_elements (ceildiv num_elements (2 ^ k))
          (start_prefix_sum (2 ^ k) num_elements (ceildiv num_elements (2 ^ k))
            uninitialized elements block_sum).2
          (start_prefix_sum (2 ^ k) num_elements (ceildiv num_elements (2 ^ k))
            uninitialized elements block_sum).1 i =
        ((List.range i).map elements).sum) ∧
    (∀ i, num_elements ≤ i →
      finalize_prefix_sum (2 ^ k) num_elements (ceildiv num_elements (2 ^ k))
          (start_prefix_sum (2 ^ k) num_elements (ceildiv num_elements (2 ^ k))
            uninitialized elements block_sum).2
          (start_prefix_sum (2 ^ k) num_elements (ceildiv num_elements (2 ^ k))
            uninitialized elements block_sum).1 i =
        elements i) ∧
    (∀ b, b + 1 < ceildiv num_elements (2 ^ k) →
      (start_prefix_sum (2 ^ k) num_elements (ceildiv num_elements (2 ^ k))
          uninitialized elements block_sum).2 b =
        ((List.range (2 ^ k)).map (fun c => elements (b * 2 ^ k + c))).sum) ∧
    (∀ b, ¬ b + 1 < ceildiv num_elements (2 ^ k) →
      (start_prefix_sum (2 ^ k) num_elements (ceildiv num_elements (2 ^ k))
          uninitialized elements block_sum).2 b =
        block_sum b) := by
  have hB : 0 < 2 ^ k := Nat.pow_pos (by decide)
  obtain ⟨hcover, hG⟩ := ceildiv_spec num_elements (2 ^ k) hB
  obtain ⟨memory, hstart, p1, p2, p3, p4⟩ :=
    start_grid_spec k num_elements (ceildiv num_elements (2 ^ k)) hG uninitialized elements
      block_sum (ceildiv num_elements (2 ^ k))
  obtain ⟨result, hfinal, q1, q2⟩ :=
    finalize_grid_spec (2 ^ k) num_elements memory.2 memory.1
      (ceildiv num_elements (2 ^ k))
  have hs : start_prefix_sum (2 ^ k) num_elements (ceildiv num_elements (2 ^ k))
      uninitialized elements block_sum = memory := hstart
  have hf : finalize_prefix_sum (2 ^ k) num_elements (ceildiv num_elements (2 ^ k))
      memory.2 memory.1 = result := hfinal
  rw [hs, hf]
  refine ⟨?_, ?_, ?_, ?_⟩
  · intro i hi
    have hdecomp : i / 2 ^ k * 2 ^ k + i % 2 ^ k = i := by
      rw [Nat.mul_comm]
      exact Nat.div_add_mod i (2 ^ k)
    have hc : i % 2 ^ k < 2 ^ k := Nat.mod_lt i hB
    have hg : i / 2 ^ k < ceildiv num_elements (2 ^ k) := by
      apply Nat.div_lt_of_lt_mul
      rw [Nat.mul_comm]
      exact lt_of_lt_of_le hi hcover
    have hq := q1 (i / 2 ^ k) (i % 2 ^ k) hg hc (by rw [hdecomp]; exact hi)
    have hp := p1 (i / 2 ^ k) (i % 2 ^ k) hg hc (by rw [hdecomp]; exact hi)
    have hblocks : Finset.sum (Finset.range (i / 2 ^ k)) memory.2 =
        Finset.sum (Finset.range (i / 2 ^ k))
          (fun b => Finset.sum (Finset.Ico (b * 2 ^ k) (b * 2 ^ k + 2 ^ k)) elements) := by
      apply Finset.sum_congr rfl
      intro b hb
      have hb2 := Finset.mem_range.mp hb
      exact p3 b (by omega) (by omega)
    rw [hdecomp] at hq hp
    rw [hq, hp, hblocks, sum_blocks, add_comm,
      Finset.sum_Ico_consecutive elements (Nat.zero_le _) (Nat.div_mul_le_self i (2 ^ k)),
      ← Finset.range_eq_Ico, sum_range_eq_list]
  · intro i hi
    rw [q2 i (Or.inr hi), p2 i (Or.inr hi)]
  · intro b hb
    rw [p3 b (by omega) hb, Finset.sum_Ico_eq_sum_range, Nat.add_sub_cancel_left,
      sum_range_eq_list]
  · intro b hb
    exact p4 b (Or.inr hb)

/-- Instance of C29: ten elements `1, ..., 10` in three blocks of four threads,
the memory behind them and the shared arrays holding other values. -/
theorem two_step_prefix_sum_witness :
    9 < 10 ∧ 0 + 1 < ceildiv 10 (2 ^ 2) ∧
    finalize_prefix_sum (2 ^ 2) 10 (ceildiv 10 (2 ^ 2))
        (start_prefix_sum (2 ^ 2) 10 (ceildiv 10 (2 ^ 2)) (fun _ _ => 77) example_elements
          (fun _ => -1)).2
        (start_prefix_sum (2 ^ 2) 10 (ceildiv 10 (2 ^ 2)) (fun _ _ => 77) example_elements
          (fun _ => -1)).1 9 = 45 ∧
    (start_prefix_sum (2 ^ 2) 10 (ceildiv 10 (2 ^ 2)) (fun _ _ => 77) example_elements
      (fun _ => -1)).2 0 = 10 ∧
    (List.range 12).map (finalize_prefix_sum 4 10 (ceildiv 10 4)
        (start_prefix_sum 4 10 (ceildiv 10 4) (fun _ _ => 77) example_elements
          (fun _ => -1)).2
        (start_prefix_sum 4 10 (ceildiv 10 4) (fun _ _ => 77) example_elements
          (fun _ => -1)).1) =
      [0, 1, 3, 6, 10, 15, 21, 28, 36, 45, 100, 100] ∧
    (List.range 4).map
        (start_prefix_sum 4 10 (ceildiv 10 4) (fun _ _ => 77) example_elements
          (fun _ => -1)).2 =
      [10, 26, -1, -1] :=
  ⟨by decide, by decide,
    ((two_step_prefix_sum 2 10 (fun _ _ => 77) example_elements (fun _ => -1)).1 9
      (by decide)).trans (by decide),
    ((two_step_prefix_sum 2 10 (fun _ _ => 77) example_elements (fun _ => -1)).2.2.1 0
      (by decide)).trans (by decide),
    by decide, by decide⟩

/-- C30: for every array `arr` and every result array `val` with at least one
element, `reduce_add_array` returns; afterwards element `0` of the result holds
the old element `0` with the elements of `arr` added to it one after another
from left to right, the result array has its old length, every other element
of it is unchanged, and for an empty `arr` the whole result array is
unchanged.  The array `arr` is a `const` argument. -/
theorem reduce_add_array_accumulates {V : Type} [Add V] (arr val : List V)
    (hval : 0 < val.length) :
    ∃ result, reduce_add_array arr val = some result ∧
      result.length = val.length ∧
      result[0]? = some (arr.foldl (fun s x => s + x) val[0]) ∧
      (∀ i, 0 < i → result[i]? = val[i]?) ∧
      (arr = [] → result = val) := by
  have h0 : val[0]? = some val[0] := List.getElem?_eq_getElem hval
  refine ⟨val.set 0 (accumulate arr val[0]), ?_, ?_, ?_, ?_, ?_⟩
  · simp only [reduce_add_array, h0]
  · simp
  · rw [accumulate_eq_foldl]
    simp [List.getElem?_set, hval]
  · intro i hi
    rw [List.getElem?_set_ne (by omega)]
  · intro harr
    subst harr
    simp only [accumulate]
    apply List.ext_getElem?
    intro i
    by_cases hi : i = 0
    · subst hi
      simp [List.getElem?_set, hval]
    · rw [List.getElem?_set_ne (Ne.symm hi)]

/-- Instance of C30: `[1, 2, 3]` accumulated into a result array that holds
`10` and a second element. -/
theorem reduce_add_array_accumulates_witness :
    0 < [(10 : Int), 7].length ∧
    ∃ result, reduce_add_array [(1 : Int), 2, 3] [10, 7] = some result ∧
      result.length = [(10 : Int), 7].length ∧
      result[0]? = some ([(1 : Int), 2, 3].foldl (fun s x => s + x) 10) ∧
      (∀ i, 0 < i → result[i]? = [(10 : Int), 7][i]?) ∧
      ([(1 : Int), 2, 3] = [] → result = [10, 7]) :=
  ⟨by decide, reduce_add_array_accumulates [(1 : Int), 2, 3] [10, 7] (by decide)⟩

end gko
